import Mathlib

/-!
Verification of the symmetry-orbit reduction engine of ALM (`src/fcs.cpp`).

This file gives a shallow embedding of `Fcs::generate_force_constant_table`
(the orbit builder), `Fcs::get_constraint_symmetry` (the constraint deriver,
including its final sort/dedup/normalize pass) and their helpers
(`get_xyzcomponent`, `canonicalize` = minimum-primitive-index + `sort_tail`,
`coef_sym`, `is_ascending`, `is_inprim`, `is_allzero`), together with
theorems about the produced orbit table and constraint rows.

Modelling conventions:
* real numbers (rotation matrices, force-constant coefficients) are modelled
  by rational numbers; machine integers by `Nat`;
* the C++ out-parameters become explicit inputs/outputs, loops become folds
  over explicit state records;
* the symmetry operations handed to either algorithm are the already
  filtered list produced by `Fcs::get_available_symmop` (compatible subset
  for the table builder, incompatible subset for the constraint deriver);
  an operation is a rotation matrix together with its atom permutation
  column of `map_sym`;
* of `map_p2s` only the first column is ever read (`map_p2s[j][0]` for
  `j < natmin`), so the primitive-cell membership data is embedded as the
  list `prim` of those atoms.
-/

namespace ALM

/-- Modelled from the spec: `constants.h` is not among the sources under
review; the spec fixes the loose tolerance at 1e-8. -/
def eps8 : ℚ := 1 / 10 ^ 8

/-- Modelled from the spec: `constants.h` is not among the sources under
review; the spec fixes the tight tolerance at 1e-12. -/
def eps12 : ℚ := 1 / 10 ^ 12

/-- The absolute value as computed by `std::abs`, written so that it
kernel-evaluates on rationals. -/
def ratAbs (q : ℚ) : ℚ := if q < 0 then -q else q

theorem ratAbs_eq_abs (q : ℚ) : ratAbs q = |q| := by
  rw [ratAbs]
  split_ifs with h
  · exact (abs_of_neg h).symm
  · exact (abs_of_nonneg (not_lt.1 h)).symm

/-- Modelled from the spec: the body of `Fcs::get_xyzcomponent`
(src/fcs.cpp:696) drives `boost::next_partial_permutation` over the
multiset with `n` copies each of 0, 1, 2; that generator lives in
`external/combination.hpp`, outside the sources under review.  Per the
spec it enumerates, in lexicographic order, every assignment of a
Cartesian axis (0/1/2) to each of the `n` slots. -/
def get_xyzcomponent : ℕ → List (List ℕ)
  | 0 => [[]]
  | n + 1 =>
      ((get_xyzcomponent n).map (0 :: ·)) ++
      ((get_xyzcomponent n).map (1 :: ·)) ++
      ((get_xyzcomponent n).map (2 :: ·))

theorem get_xyzcomponent_length (n : ℕ) : (get_xyzcomponent n).length = 3 ^ n := by
  induction n with
  | zero => rfl
  | succ n ih =>
      simp [get_xyzcomponent, ih, pow_succ]
      ring

theorem get_xyzcomponent_mem {n : ℕ} {l : List ℕ} (h : l ∈ get_xyzcomponent n) :
    l.length = n ∧ ∀ x ∈ l, x < 3 := by
  induction n generalizing l with
  | zero =>
      simp [get_xyzcomponent] at h
      subst h; simp
  | succ n ih =>
      simp only [get_xyzcomponent, List.mem_append, List.mem_map] at h
      rcases h with ((⟨t, ht, rfl⟩ | ⟨t, ht, rfl⟩) | ⟨t, ht, rfl⟩) <;>
        rcases ih ht with ⟨hlen, hval⟩ <;>
        refine ⟨by simp [hlen], ?_⟩ <;>
        intro x hx <;> rcases List.mem_cons.1 hx with rfl | hx <;>
        first
          | omega
          | exact hval x hx

theorem get_xyzcomponent_complete {n : ℕ} {l : List ℕ}
    (hlen : l.length = n) (hval : ∀ x ∈ l, x < 3) : l ∈ get_xyzcomponent n := by
  induction n generalizing l with
  | zero =>
      rw [List.length_eq_zero] at hlen
      subst hlen; simp [get_xyzcomponent]
  | succ n ih =>
      match l with
      | [] => simp at hlen
      | x :: t =>
          have hx : x < 3 := hval x (by simp)
          have ht : t ∈ get_xyzcomponent n :=
            ih (by simpa using hlen) (fun y hy => hval y (List.mem_cons_of_mem _ hy))
          simp only [get_xyzcomponent, List.mem_append, List.mem_map]
          interval_cases x
          · exact Or.inl (Or.inl ⟨t, ht, rfl⟩)
          · exact Or.inl (Or.inr ⟨t, ht, rfl⟩)
          · exact Or.inr ⟨t, ht, rfl⟩

theorem get_xyzcomponent_nodup (n : ℕ) : (get_xyzcomponent n).Nodup := by
  induction n with
  | zero => simp [get_xyzcomponent]
  | succ n ih =>
      have hmap : ∀ d : ℕ, ((get_xyzcomponent n).map (d :: ·)).Nodup :=
        fun d => ih.map fun a b h => by injection h
      have hdis : ∀ d e : ℕ, d ≠ e →
          List.Disjoint ((get_xyzcomponent n).map (d :: ·)) ((get_xyzcomponent n).map (e :: ·)) := by
        intro d e hde a ha hb
        rcases List.mem_map.1 ha with ⟨t, _, rfl⟩
        rcases List.mem_map.1 hb with ⟨u, _, hu⟩
        exact hde (by injection hu.symm)
      refine ((hmap 0).append (hmap 1) (hdis 0 1 (by omega))).append (hmap 2) ?_
      intro a ha hb
      rcases List.mem_append.1 ha with ha | ha
      · exact hdis 0 2 (by omega) ha hb
      · exact hdis 1 2 (by omega) ha hb

/-- C9: for every `n = order + 2 ≥ 1`, the component enumerator
`get_xyzcomponent` outputs exactly `3 ^ n` component assignments over
`{0,1,2}` for the `n` slots, with no duplicate assignment and no omitted
assignment. -/
theorem C9_xyzcomponent_exact (n : ℕ) (h : 1 ≤ n) :
    (get_xyzcomponent n).length = 3 ^ n ∧
    (get_xyzcomponent n).Nodup ∧
    (∀ l : List ℕ, l.length = n → (∀ x ∈ l, x < 3) → l ∈ get_xyzcomponent n) ∧
    (∀ l ∈ get_xyzcomponent n, l.length = n ∧ ∀ x ∈ l, x < 3) :=
  ⟨get_xyzcomponent_length n, get_xyzcomponent_nodup n,
    fun _ hl hv => get_xyzcomponent_complete hl hv,
    fun _ hl => get_xyzcomponent_mem hl⟩

theorem C9_xyzcomponent_exact_witness :
    1 ≤ 2 ∧
    ((get_xyzcomponent 2).length = 3 ^ 2 ∧
      (get_xyzcomponent 2).Nodup ∧
      (∀ l : List ℕ, l.length = 2 → (∀ x ∈ l, x < 3) → l ∈ get_xyzcomponent 2) ∧
      (∀ l ∈ get_xyzcomponent 2, l.length = 2 ∧ ∀ x ∈ l, x < 3)) :=
  ⟨by decide, C9_xyzcomponent_exact 2 (by decide)⟩

/-- Force-constant table entry (`FcProperty`; its definition lives in a
header outside the reviewed sources, the spec's Entry fixes the fields):
the combined index tuple `elems`, the real coefficient `sign`, and the
owning parameter id `mother`. -/
structure FcProperty where
  elems : List ℕ
  sign : ℚ
  mother : ℕ
deriving DecidableEq

/-- The zero-sentinel parameter id written into diverted zero-orbit entries
(src/fcs.cpp:303): `std::numeric_limits<size_t>::max()` on a 64-bit
platform. -/
def zeroSentinel : ℕ := 2 ^ 64 - 1

/-- One already-filtered symmetry operation as selected by
`Fcs::get_available_symmop` (src/fcs.cpp:550): its 3×3 rotation matrix
(`rot row col`, extended by arbitrary values outside `[0,3)²` — the C++
never reads there) and its column of the atom permutation table
`map_sym`. -/
structure SymOp where
  rot : ℕ → ℕ → ℚ
  map : ℕ → ℕ

/-- One entry of `Symmetry::SymmData` (the symmetry class itself is outside
the reviewed sources; only the fields read by src/fcs.cpp are embedded):
the Cartesian rotation matrix, the integer fractional rotation matrix, and
the two basis-compatibility flags. -/
structure SymmDataEntry where
  rotation_cart : ℕ → ℕ → ℚ
  rotation_latt : ℕ → ℕ → ℤ
  compatible_with_cartesian : Bool
  compatible_with_lattice : Bool

/-- The part of the `Symmetry` collaborator read by src/fcs.cpp: the
operation list and the atom mapping table `map_sym` (atom, operation index
→ mapped atom).  Of `map_p2s` only the first column is read, so the
primitive-cell data is carried separately as the `prim` list below. -/
structure Symmetry where
  SymmData : List SymmDataEntry
  map_sym : ℕ → ℕ → ℕ

/-- The basis selector.  The C++ takes a string and aborts on anything but
"Cartesian" or "Lattice" (the fatal configuration error of spec §7); the
embedding restricts to the two valid values, the error path is outside the
claims under review. -/
inductive Basis
  | cartesian
  | lattice

/-- `Fcs::get_available_symmop` (src/fcs.cpp:550): select the operations
whose compatibility flag for the given basis equals `use_compatible`,
keeping the Cartesian matrix (Cartesian basis) or the integer matrix cast
to reals (Lattice basis), paired with the operation's `map_sym` column. -/
def get_available_symmop (symm : Symmetry) (basis : Basis) (use_compatible : Bool) :
    List SymOp :=
  symm.SymmData.enum.filterMap fun p =>
    let flag := match basis with
      | .cartesian => p.2.compatible_with_cartesian
      | .lattice => p.2.compatible_with_lattice
    if flag = use_compatible then
      some { rot := match basis with
               | .cartesian => p.2.rotation_cart
               | .lattice => fun a b => (p.2.rotation_latt a b : ℚ),
             map := fun a => symm.map_sym a p.1 }
    else none

/-- `Fcs::is_ascending` (src/fcs.cpp:627). -/
def is_ascending : List ℕ → Bool
  | a :: b :: t => a ≤ b && is_ascending (b :: t)
  | _ => true

/-- Primitive-cell membership of an atom: whether some `map_p2s[j][0]`
equals it (the inner test of both `Fcs::is_inprim` overloads). -/
def isPrimAtom (prim : List ℕ) (a : ℕ) : Bool := prim.contains a

/-- `Fcs::is_inprim` on an atom tuple (src/fcs.cpp:670). -/
def is_inprim_atoms (prim : List ℕ) (l : List ℕ) : Bool := l.any (isPrimAtom prim)

/-- `Fcs::is_inprim` on a single combined index (src/fcs.cpp:683): its atom
is `n / 3`. -/
def is_inprim_idx (prim : List ℕ) (v : ℕ) : Bool := isPrimAtom prim (v / 3)

/-- `Fcs::coef_sym` (src/fcs.cpp:614): the product over slots of
`rot[arr2[i]][arr1[i]]`. -/
def coef_sym (rot : ℕ → ℕ → ℚ) (arr1 arr2 : List ℕ) : ℚ :=
  ((arr2.zip arr1).map fun p => rot p.1 p.2).prod

/-- The raw combined index of a cluster and a component assignment
(src/fcs.cpp:202): `3 * atom + component` per slot. -/
def combine (atoms comps : List ℕ) : List ℕ :=
  List.zipWith (fun a c => 3 * a + c) atoms comps

/-- The masked value of `Fcs::get_minimum_index_in_primitive`
(src/fcs.cpp:644-655): the combined index itself if its atom lies in the
primitive cell, else the sentinel `3 * nat`. -/
def maskedVal (nat : ℕ) (prim : List ℕ) (v : ℕ) : ℕ :=
  if is_inprim_idx prim v then v else 3 * nat

/-- The first-minimum scan of `Fcs::get_minimum_index_in_primitive`
(src/fcs.cpp:657-665): arguments are the remaining list, the index of its
head, the best value so far and its location. -/
def minAux : List ℕ → ℕ → ℕ → ℕ → ℕ × ℕ
  | [], _, bv, bl => (bv, bl)
  | v :: rest, i, bv, bl =>
      if v < bv then minAux rest (i + 1) v i else minAux rest (i + 1) bv bl

/-- `Fcs::get_minimum_index_in_primitive` (src/fcs.cpp:636). -/
def get_minimum_index_in_primitive (nat : ℕ) (prim : List ℕ) (l : List ℕ) : ℕ :=
  match l.map (maskedVal nat prim) with
  | [] => 0
  | v :: rest => (minAux rest 1 v 0).2

/-- The `std::swap(ind[0], ind[k])` step: exchange slots 0 and `k`. -/
def swapHead (l : List ℕ) : ℕ → List ℕ
  | 0 => l
  | k + 1 =>
      match l with
      | [] => []
      | a :: t => t.getD k 0 :: t.set k a

/-- Modelled from the spec: `sort_tail` is declared in a header outside the
reviewed sources; per the spec's canonical form it sorts all slots but
slot 0 ascending. -/
def sort_tail (l : List ℕ) : List ℕ :=
  match l with
  | [] => []
  | a :: t => a :: List.insertionSort (· ≤ ·) t

/-- The canonicalization applied to every raw combined-index tuple
(src/fcs.cpp:206-210, 241-247): swap the minimal primitive-cell combined
index to slot 0, then sort the tail ascending. -/
def canonicalize (nat : ℕ) (prim : List ℕ) (l : List ℕ) : List ℕ :=
  sort_tail (swapHead l (get_minimum_index_in_primitive nat prim l))

/-- State of the per-candidate symmetry scan (src/fcs.cpp:218-298): the
growing dedup set `found` (`list_found`), the entries appended for the
current candidate (`batch`, whose length is the C++ `ndeps`), and the
symmetry-zero flag `iszero`. -/
structure ScanState where
  found : List (List ℕ)
  batch : List FcProperty
  iszero : Bool

/-- The extra permutation-equivalent entries appended right after a newly
registered canonical index `m` (src/fcs.cpp:269-292): for every slot
beyond 0 whose combined index is not yet handled (`is_searched`) and lies
in the primitive cell, re-canonicalize with that slot moved to the front;
same sign and parameter id. -/
def genExtras (prim : List ℕ) (c : ℚ) (mo : ℕ) (m : List ℕ) : List FcProperty :=
  (((List.range m.length).drop 1).foldl
    (fun st i =>
      let v := m.getD i 0
      if v ∉ st.1 ∧ is_inprim_idx prim v = true then
        (v :: st.1, st.2 ++ [⟨sort_tail (swapHead m i), c, mo⟩])
      else st)
    ([m.headD 0], [])).2

/-- One `(isym, i2)` step of the symmetry scan (src/fcs.cpp:230-297): `am`
is the mapped atom tuple, `xyz1` the candidate's component assignment,
`ind` its canonical index, `mo` the orbit's parameter id.  The step skips
coefficients of magnitude at most 1e-12, updates the symmetry-zero flag,
and registers the mapped canonical index with its entry and extras if it
is new. -/
def scanStep (nat : ℕ) (prim : List ℕ) (rot : ℕ → ℕ → ℚ) (am : List ℕ)
    (xyz1 : List ℕ) (ind : List ℕ) (mo : ℕ) (st : ScanState) (c2 : List ℕ) :
    ScanState :=
  let c := coef_sym rot xyz1 c2
  if eps12 < ratAbs c then
    let im := canonicalize nat prim (combine am c2)
    let z := st.iszero || (decide (ind = im) && decide (ratAbs (c + 1) < eps8))
    if im ∈ st.found then { st with iszero := z }
    else { found := im :: st.found,
           batch := st.batch ++ (⟨im, c, mo⟩ :: genExtras prim c mo im),
           iszero := z }
  else st

/-- The per-operation layer of the scan (src/fcs.cpp:220-228): map the
cluster's atoms through the operation, skip the operation when no mapped
atom lies in the primitive cell. -/
def scanOp (nat : ℕ) (prim : List ℕ) (c2s : List (List ℕ)) (pair : List ℕ)
    (xyz1 : List ℕ) (ind : List ℕ) (mo : ℕ) (st : ScanState) (s : SymOp) :
    ScanState :=
  let am := pair.map s.map
  if is_inprim_atoms prim am then
    c2s.foldl (scanStep nat prim s.rot am xyz1 ind mo) st
  else st

/-- The full symmetry scan of one candidate (src/fcs.cpp:218-298). -/
def scanCandidate (nat : ℕ) (prim : List ℕ) (ops : List SymOp)
    (c2s : List (List ℕ)) (pair : List ℕ) (xyz1 : List ℕ) (ind : List ℕ)
    (mo : ℕ) (found : List (List ℕ)) : ScanState :=
  ops.foldl (scanOp nat prim c2s pair xyz1 ind mo) ⟨found, [], false⟩

/-- Accumulated state of the table builder: `found` is `list_found`, `fcs`
is `fc_vec`, `ndup` the duplicate counts, `zeros` is `fc_zeros_out`,
`nmother` the next parameter id. -/
structure BuildState where
  found : List (List ℕ)
  fcs : List FcProperty
  ndup : List ℕ
  zeros : List FcProperty
  nmother : ℕ

def initBuild : BuildState := ⟨[], [], [], [], 0⟩

/-- One candidate `(cluster, component assignment)` of the table builder
(src/fcs.cpp:201-313): skip non-ascending raw indices, skip canonical
indices already found, otherwise run the symmetry scan; a symmetry-zero
candidate has its entries dropped from the live table (kept, re-stamped
with the zero sentinel and in reverse order, in `zeros` if requested),
otherwise the batch is kept and a new parameter id allocated. -/
def processCandidate (nat : ℕ) (prim : List ℕ) (ops : List SymOp)
    (c2s : List (List ℕ)) (store_zeros : Bool) (st : BuildState)
    (pair : List ℕ) (xyz1 : List ℕ) : BuildState :=
  let raw := combine pair xyz1
  if is_ascending raw then
    let ind := canonicalize nat prim raw
    if ind ∈ st.found then st
    else
      let sc := scanCandidate nat prim ops c2s pair xyz1 ind st.nmother st.found
      if sc.iszero then
        { st with found := sc.found,
                  zeros := if store_zeros then
                      st.zeros ++
                        sc.batch.reverse.map (fun e => { e with mother := zeroSentinel })
                    else st.zeros }
      else
        { st with found := sc.found,
                  fcs := st.fcs ++ sc.batch,
                  ndup := st.ndup ++ [sc.batch.length],
                  nmother := st.nmother + 1 }
  else st

/-- The candidate double loop of the table builder (src/fcs.cpp:197-314):
all clusters, and for each all component assignments. -/
def buildRun (nat : ℕ) (prim : List ℕ) (ops : List SymOp) (order : ℕ)
    (pairs : List (List ℕ)) (store_zeros : Bool) : BuildState :=
  let c2s := get_xyzcomponent (order + 2)
  pairs.foldl
    (fun st pair =>
      c2s.foldl (fun st x1 => processCandidate nat prim ops c2s store_zeros st pair x1) st)
    initBuild

/-- Lexicographic comparison of index tuples. -/
def idxLeB : List ℕ → List ℕ → Bool
  | [], _ => true
  | _ :: _, [] => false
  | a :: l, b :: m => if a < b then true else if b < a then false else idxLeB l m

/-- Modelled from the spec: `FcProperty::operator<` is declared in a header
outside the reviewed sources; per the spec each orbit's entries are sorted
by a total order on (index, sign). -/
def fcLeB (p q : FcProperty) : Bool :=
  if p.elems = q.elems then decide (p.sign ≤ q.sign) else idxLeB p.elems q.elems

/-- The final per-orbit sort of `fc_vec` (src/fcs.cpp:330-339): each block
of `ndup` consecutive entries is sorted; entries beyond the blocks (none
are ever produced) stay in place. -/
def sortFcBlocks : List ℕ → List FcProperty → List FcProperty
  | [], l => l
  | d :: ds, l =>
      List.insertionSort (fun p q => fcLeB p q = true) (l.take d) ++ sortFcBlocks ds (l.drop d)

/-- `Fcs::generate_force_constant_table` (src/fcs.cpp:133): returns
`fc_vec` (block-sorted), `ndup`, `fc_zeros_out`, and the number of
parameter ids allocated (the final `nmother`). -/
def generate_force_constant_table (nat : ℕ) (prim : List ℕ) (symm : Symmetry)
    (basis : Basis) (order : ℕ) (pairs : List (List ℕ)) (store_zeros : Bool) :
    List FcProperty × List ℕ × List FcProperty × ℕ :=
  let ops := get_available_symmop symm basis true
  let st := buildRun nat prim ops order pairs store_zeros
  (sortFcBlocks st.ndup st.fcs, st.ndup, st.zeros, st.nmother)

/-! Generic fold lemmas used to reason about the loops. -/

theorem foldl_inv {α β : Type _} {f : β → α → β} {P : β → Prop} :
    ∀ {l : List α} {b : β}, P b → (∀ st a, a ∈ l → P st → P (f st a)) → P (l.foldl f b) := by
  intro l
  induction l with
  | nil => intro b hb _; exact hb
  | cons a l ih =>
      intro b hb hstep
      exact ih (hstep b a (by simp) hb) fun st x hx => hstep st x (by simp [hx])

theorem foldl_flag {α β : Type _} (f : β → α → β) (P : β → Prop) :
    ∀ {l : List α} {b : β} (a : α), a ∈ l →
      (∀ st x, x ∈ l → P st → P (f st x)) → (∀ st, P (f st a)) → P (l.foldl f b) := by
  intro l
  induction l with
  | nil => intro b a ha; simp at ha
  | cons x l ih =>
      intro b a ha hmono htrig
      rcases List.mem_cons.1 ha with rfl | ha
      · simp only [List.foldl_cons]
        exact foldl_inv (htrig b) fun st y hy => hmono st y (by simp [hy])
      · simp only [List.foldl_cons]
        exact ih a ha (fun st y hy => hmono st y (by simp [hy])) htrig

/-! Permutation and structure lemmas for the canonicalization. -/

theorem minAux_spec : ∀ (rest : List ℕ) (i bv bl : ℕ),
    ((minAux rest i bv bl).1 = bv ∧ (minAux rest i bv bl).2 = bl) ∨
    (∃ j, j < rest.length ∧ (minAux rest i bv bl).2 = i + j ∧
      (minAux rest i bv bl).1 = rest.getD j 0) := by
  intro rest
  induction rest with
  | nil => intro i bv bl; left; exact ⟨rfl, rfl⟩
  | cons v rest ih =>
      intro i bv bl
      by_cases hv : v < bv
      · simp only [minAux, if_pos hv]
        rcases ih (i + 1) v i with ⟨h1, h2⟩ | ⟨j, hj, h2, h1⟩
        · exact Or.inr ⟨0, by simp, by omega, by simp [h1]⟩
        · exact Or.inr ⟨j + 1, by simp; omega, by omega, by simpa using h1⟩
      · simp only [minAux, if_neg hv]
        rcases ih (i + 1) bv bl with ⟨h1, h2⟩ | ⟨j, hj, h2, h1⟩
        · exact Or.inl ⟨h1, h2⟩
        · exact Or.inr ⟨j + 1, by simp; omega, by omega, by simpa using h1⟩

theorem minAux_min : ∀ (rest : List ℕ) (i bv bl : ℕ),
    (minAux rest i bv bl).1 ≤ bv ∧ ∀ x ∈ rest, (minAux rest i bv bl).1 ≤ x := by
  intro rest
  induction rest with
  | nil => intro i bv bl; exact ⟨le_refl _, by simp⟩
  | cons v rest ih =>
      intro i bv bl
      by_cases hv : v < bv
      · simp only [minAux, if_pos hv]
        rcases ih (i + 1) v i with ⟨h1, h2⟩
        refine ⟨le_trans h1 (le_of_lt hv), ?_⟩
        intro x hx
        rcases List.mem_cons.1 hx with rfl | hx
        · exact h1
        · exact h2 x hx
      · simp only [minAux, if_neg hv]
        rcases ih (i + 1) bv bl with ⟨h1, h2⟩
        refine ⟨h1, ?_⟩
        intro x hx
        rcases List.mem_cons.1 hx with rfl | hx
        · exact le_trans h1 (not_lt.1 hv)
        · exact h2 x hx

theorem minAux_stable : ∀ (rest : List ℕ) (i bv bl : ℕ),
    (∀ x ∈ rest, ¬x < bv) → minAux rest i bv bl = (bv, bl) := by
  intro rest
  induction rest with
  | nil => intro i bv bl _; rfl
  | cons v rest ih =>
      intro i bv bl h
      have hv : ¬v < bv := h v (by simp)
      simp only [minAux, if_neg hv]
      exact ih (i + 1) bv bl fun x hx => h x (by simp [hx])

theorem set_getD_perm : ∀ (t : List ℕ) (k : ℕ) (a : ℕ), k < t.length →
    List.Perm (t.getD k 0 :: t.set k a) (a :: t) := by
  intro t
  induction t with
  | nil => intro k a h; simp at h
  | cons b t ih =>
      intro k a h
      match k with
      | 0 => simpa using List.Perm.swap a b t
      | k + 1 =>
          have hk : k < t.length := by simpa using h
          exact ((List.Perm.swap _ _ _).trans ((ih k a hk).cons b)).trans
            (List.Perm.swap _ _ _)

theorem swapHead_perm {l : List ℕ} {k : ℕ} (h : k < l.length) : List.Perm (swapHead l k) l := by
  match k, l with
  | 0, l => exact List.Perm.refl l
  | k + 1, [] => simp at h
  | k + 1, a :: t => exact set_getD_perm t k a (by simpa using h)

theorem sort_tail_perm (l : List ℕ) : List.Perm (sort_tail l) l := by
  match l with
  | [] => exact List.Perm.refl []
  | a :: t => exact (List.perm_insertionSort _ t).cons a

theorem sort_tail_tail_sorted (l : List ℕ) : l.tail.Sorted (· ≤ ·) →
    sort_tail l = l := by
  match l with
  | [] => intro _; rfl
  | a :: t =>
      intro h
      simp only [sort_tail]
      rw [List.Sorted.insertionSort_eq (by simpa using h)]

theorem mloc_lt_length {nat : ℕ} {prim : List ℕ} {l : List ℕ} (h : l ≠ []) :
    get_minimum_index_in_primitive nat prim l < l.length := by
  match l with
  | [] => exact absurd rfl h
  | a :: t =>
      simp only [get_minimum_index_in_primitive, List.map_cons]
      rcases minAux_spec (t.map (maskedVal nat prim)) 1 (maskedVal nat prim a) 0 with
        ⟨_, h2⟩ | ⟨j, hj, h2, _⟩
      · simp [h2]
      · simp only [List.length_map] at hj
        simp [h2]; omega

theorem canonicalize_perm (nat : ℕ) (prim : List ℕ) (l : List ℕ) :
    List.Perm (canonicalize nat prim l) l := by
  match l with
  | [] => exact List.Perm.refl _
  | a :: t =>
      exact (sort_tail_perm _).trans (swapHead_perm (mloc_lt_length (by simp)))

theorem canonicalize_length (nat : ℕ) (prim : List ℕ) (l : List ℕ) :
    (canonicalize nat prim l).length = l.length :=
  (canonicalize_perm nat prim l).length_eq

/-- Structure of the canonicalized tuple: its head carries the minimal
masked value, and its tail is sorted. -/
theorem canonicalize_head_spec {nat : ℕ} {prim : List ℕ} {l : List ℕ} (h : l ≠ []) :
    ∃ y t, canonicalize nat prim l = y :: t ∧ y ∈ l ∧
      (∀ x ∈ l, maskedVal nat prim y ≤ maskedVal nat prim x) ∧
      t.Sorted (· ≤ ·) := by
  match l with
  | [] => exact absurd rfl h
  | a :: u =>
      have hspec := minAux_spec (u.map (maskedVal nat prim)) 1 (maskedVal nat prim a) 0
      have hmin := minAux_min (u.map (maskedVal nat prim)) 1 (maskedVal nat prim a) 0
      have hloc : get_minimum_index_in_primitive nat prim (a :: u)
          = (minAux (u.map (maskedVal nat prim)) 1 (maskedVal nat prim a) 0).2 := rfl
      rcases hspec with ⟨h1, h2⟩ | ⟨j, hj, h2, h1⟩
      · refine ⟨a, List.insertionSort (· ≤ ·) u, ?_, by simp, ?_, List.sorted_insertionSort _ u⟩
        · simp [canonicalize, hloc, h2, swapHead, sort_tail]
        · intro x hx
          rcases List.mem_cons.1 hx with rfl | hx
          · exact le_refl _
          · rw [← h1]; exact hmin.2 _ (List.mem_map_of_mem _ hx)
      · simp only [List.length_map] at hj
        have h2' : (minAux (u.map (maskedVal nat prim)) 1 (maskedVal nat prim a) 0).2
            = j + 1 := by omega
        have hsw : swapHead (a :: u) (j + 1) = u.getD j 0 :: u.set j a := rfl
        refine ⟨u.getD j 0, List.insertionSort (· ≤ ·) (u.set j a), ?_, ?_, ?_,
          List.sorted_insertionSort _ _⟩
        · rw [canonicalize, hloc, h2', hsw]; rfl
        · refine List.mem_cons_of_mem a ?_
          rw [List.getD_eq_getElem _ _ hj]
          exact List.getElem_mem _
        · intro x hx
          have hgd : (u.map (maskedVal nat prim)).getD j 0 = maskedVal nat prim (u.getD j 0) := by
            rw [List.getD_eq_getElem _ _ (by simpa using hj), List.getD_eq_getElem _ _ hj]
            simp
          rcases List.mem_cons.1 hx with rfl | hx
          · rw [← hgd, ← h1]; exact hmin.1
          · rw [← hgd, ← h1]; exact hmin.2 _ (List.mem_map_of_mem _ hx)

/-- With all combined indices below the sentinel and at least one
primitive-cell index present, the canonical head is the least
primitive-cell combined index. -/
theorem canonicalize_head_prim {nat : ℕ} {prim : List ℕ} {l : List ℕ}
    (hsm : ∀ v ∈ l, v < 3 * nat) (hp : ∃ v ∈ l, is_inprim_idx prim v = true) :
    ∃ y t, canonicalize nat prim l = y :: t ∧ y ∈ l ∧
      is_inprim_idx prim y = true ∧
      (∀ x ∈ l, is_inprim_idx prim x = true → y ≤ x) ∧
      t.Sorted (· ≤ ·) := by
  rcases hp with ⟨v0, hv0, hv0p⟩
  have hne : l ≠ [] := by rintro rfl; simp at hv0
  rcases @canonicalize_head_spec nat prim _ hne with ⟨y, t, hc, hyl, hmin, hsort⟩
  have hv0m : maskedVal nat prim v0 = v0 := by simp [maskedVal, hv0p]
  have hym : maskedVal nat prim y < 3 * nat := by
    calc maskedVal nat prim y ≤ maskedVal nat prim v0 := hmin v0 hv0
      _ = v0 := hv0m
      _ < 3 * nat := hsm v0 hv0
  have hyp : is_inprim_idx prim y = true := by
    by_contra hnp
    simp only [maskedVal, Bool.not_eq_true] at hym hnp
    rw [if_neg (by simp [hnp])] at hym
    omega
  have hyv : maskedVal nat prim y = y := by simp [maskedVal, hyp]
  refine ⟨y, t, hc, hyl, hyp, ?_, hsort⟩
  intro x hx hxp
  have := hmin x hx
  rwa [hyv, (by simp [maskedVal, hxp] : maskedVal nat prim x = x)] at this

theorem canonicalize_idem (nat : ℕ) (prim : List ℕ) (l : List ℕ) :
    canonicalize nat prim (canonicalize nat prim l) = canonicalize nat prim l := by
  rcases eq_or_ne l [] with rfl | hne
  · rfl
  rcases @canonicalize_head_spec nat prim _ hne with ⟨y, t, hc, _, hmin, hsort⟩
  have hminc : ∀ x ∈ y :: t, maskedVal nat prim y ≤ maskedVal nat prim x := by
    intro x hx
    exact hmin x ((canonicalize_perm nat prim l).subset (hc ▸ hx))
  have hloc : get_minimum_index_in_primitive nat prim (y :: t) = 0 := by
    simp only [get_minimum_index_in_primitive, List.map_cons]
    rw [minAux_stable]
    intro x hx
    rcases List.mem_map.1 hx with ⟨u, hu, rfl⟩
    exact not_lt.2 (hminc u (List.mem_cons_of_mem y hu))
  rw [hc]
  simp only [canonicalize, hloc, swapHead]
  exact sort_tail_tail_sorted _ (by simpa using hsort)

/-- The canonical form is determined by the multiset of combined indices,
provided some index lies in the primitive cell and all are below the
sentinel. -/
theorem canonicalize_congr_perm {nat : ℕ} {prim : List ℕ} {l l' : List ℕ}
    (hsm : ∀ v ∈ l, v < 3 * nat) (hp : ∃ v ∈ l, is_inprim_idx prim v = true)
    (hperm : List.Perm l l') : canonicalize nat prim l = canonicalize nat prim l' := by
  have hsm' : ∀ v ∈ l', v < 3 * nat := fun v hv => hsm v (hperm.symm.subset hv)
  have hp' : ∃ v ∈ l', is_inprim_idx prim v = true := by
    rcases hp with ⟨v, hv, hvp⟩; exact ⟨v, hperm.subset hv, hvp⟩
  rcases canonicalize_head_prim hsm hp with ⟨y, t, hc, hyl, hyp, hmin, hsort⟩
  rcases canonicalize_head_prim hsm' hp' with ⟨y', t', hc', hyl', hyp', hmin', hsort'⟩
  have hyy : y = y' :=
    le_antisymm (hmin y' (hperm.symm.subset hyl') hyp') (hmin' y (hperm.subset hyl) hyp)
  subst hyy
  have hperm2 : List.Perm (y :: t) (y :: t') := by
    rw [← hc, ← hc']
    exact ((canonicalize_perm nat prim l).trans hperm).trans (canonicalize_perm nat prim l').symm
  have htt : t = t' :=
    List.eq_of_perm_of_sorted hperm2.cons_inv hsort hsort'
  rw [hc, hc', htt]

/-! Lemmas about the extra permutation-equivalent entries. -/

theorem genExtras_mem {prim : List ℕ} {c : ℚ} {mo : ℕ} {m : List ℕ} {e : FcProperty}
    (he : e ∈ genExtras prim c mo m) :
    e.sign = c ∧ e.mother = mo ∧
    ∃ i, 0 < i ∧ i < m.length ∧ e.elems = sort_tail (swapHead m i) ∧
      is_inprim_idx prim (m.getD i 0) = true ∧ m.getD i 0 ≠ m.headD 0 := by
  have main : ∀ (is : List ℕ) (sr : List ℕ) (out : List FcProperty),
      m.headD 0 ∈ sr →
      (∀ i ∈ is, 0 < i ∧ i < m.length) →
      (∀ e' ∈ out, e'.sign = c ∧ e'.mother = mo ∧
        ∃ i, 0 < i ∧ i < m.length ∧ e'.elems = sort_tail (swapHead m i) ∧
          is_inprim_idx prim (m.getD i 0) = true ∧ m.getD i 0 ≠ m.headD 0) →
      ∀ e' ∈ (is.foldl
        (fun st i =>
          let v := m.getD i 0
          if v ∉ st.1 ∧ is_inprim_idx prim v = true then
            (v :: st.1, st.2 ++ [⟨sort_tail (swapHead m i), c, mo⟩])
          else st)
        (sr, out)).2,
        e'.sign = c ∧ e'.mother = mo ∧
        ∃ i, 0 < i ∧ i < m.length ∧ e'.elems = sort_tail (swapHead m i) ∧
          is_inprim_idx prim (m.getD i 0) = true ∧ m.getD i 0 ≠ m.headD 0 := by
    intro is
    induction is with
    | nil => intro sr out _ _ hout; exact hout
    | cons i is ih =>
        intro sr out hsr his hout
        simp only [List.foldl_cons]
        by_cases hcond : m.getD i 0 ∉ sr ∧ is_inprim_idx prim (m.getD i 0) = true
        · rw [if_pos hcond]
          refine ih _ _ (List.mem_cons_of_mem _ hsr) (fun j hj => his j (by simp [hj])) ?_
          intro e' he'
          rcases List.mem_append.1 he' with he' | he'
          · exact hout e' he'
          · rcases List.mem_singleton.1 he' with rfl
            have hi := his i (by simp)
            refine ⟨rfl, rfl, i, hi.1, hi.2, rfl, hcond.2, ?_⟩
            intro hcontra
            exact hcond.1 (hcontra ▸ hsr)
        · rw [if_neg hcond]
          exact ih _ _ hsr (fun j hj => his j (by simp [hj])) hout
  refine main _ _ _ (by simp) ?_ (by simp) e he
  intro i hi
  have hilt := List.mem_range.1 (List.mem_of_mem_drop hi)
  refine ⟨?_, hilt⟩
  rcases Nat.eq_zero_or_pos m.length with hm | hm
  · rw [hm] at hi; simp at hi
  · obtain ⟨n, hn⟩ := Nat.exists_eq_succ_of_ne_zero (Nat.pos_iff_ne_zero.1 hm)
    rw [hn, List.range_succ_eq_map] at hi
    simp only [List.drop_succ_cons, List.drop_zero] at hi
    rcases List.mem_map.1 hi with ⟨j, _, rfl⟩
    omega

/-! Case characterizations of the scan and candidate steps. -/

theorem scanStep_cases (nat : ℕ) (prim : List ℕ) (rot : ℕ → ℕ → ℚ)
    (am xyz1 ind : List ℕ) (mo : ℕ) (st : ScanState) (c2 : List ℕ) :
    scanStep nat prim rot am xyz1 ind mo st c2 = st ∨
    (eps12 < ratAbs (coef_sym rot xyz1 c2) ∧
     ((canonicalize nat prim (combine am c2) ∈ st.found ∧
       scanStep nat prim rot am xyz1 ind mo st c2 =
         { st with iszero := st.iszero ||
             (decide (ind = canonicalize nat prim (combine am c2)) &&
              decide (ratAbs (coef_sym rot xyz1 c2 + 1) < eps8)) }) ∨
      (canonicalize nat prim (combine am c2) ∉ st.found ∧
       scanStep nat prim rot am xyz1 ind mo st c2 =
         { found := canonicalize nat prim (combine am c2) :: st.found,
           batch := st.batch ++
             (⟨canonicalize nat prim (combine am c2), coef_sym rot xyz1 c2, mo⟩ ::
               genExtras prim (coef_sym rot xyz1 c2) mo
                 (canonicalize nat prim (combine am c2))),
           iszero := st.iszero ||
             (decide (ind = canonicalize nat prim (combine am c2)) &&
              decide (ratAbs (coef_sym rot xyz1 c2 + 1) < eps8)) }))) := by
  by_cases hc : eps12 < ratAbs (coef_sym rot xyz1 c2)
  · right
    refine ⟨hc, ?_⟩
    by_cases hm : canonicalize nat prim (combine am c2) ∈ st.found
    · left; exact ⟨hm, by simp [scanStep, hc, hm]⟩
    · right; exact ⟨hm, by simp [scanStep, hc, hm]⟩
  · left; simp [scanStep, hc]

theorem scanOp_cases (nat : ℕ) (prim : List ℕ) (c2s : List (List ℕ))
    (pair xyz1 ind : List ℕ) (mo : ℕ) (st : ScanState) (s : SymOp) :
    (is_inprim_atoms prim (pair.map s.map) = false ∧
      scanOp nat prim c2s pair xyz1 ind mo st s = st) ∨
    (is_inprim_atoms prim (pair.map s.map) = true ∧
      scanOp nat prim c2s pair xyz1 ind mo st s =
        c2s.foldl (scanStep nat prim s.rot (pair.map s.map) xyz1 ind mo) st) := by
  by_cases h : is_inprim_atoms prim (pair.map s.map) = true
  · right; exact ⟨h, by simp [scanOp, h]⟩
  · left; exact ⟨by simpa using h, by simp [scanOp, h]⟩

theorem processCandidate_cases (nat : ℕ) (prim : List ℕ) (ops : List SymOp)
    (c2s : List (List ℕ)) (store : Bool) (st : BuildState) (pair xyz1 : List ℕ) :
    processCandidate nat prim ops c2s store st pair xyz1 = st ∨
    ((is_ascending (combine pair xyz1) = true ∧
      canonicalize nat prim (combine pair xyz1) ∉ st.found) ∧
     (((scanCandidate nat prim ops c2s pair xyz1
          (canonicalize nat prim (combine pair xyz1)) st.nmother st.found).iszero = true ∧
       processCandidate nat prim ops c2s store st pair xyz1 =
         { st with
             found := (scanCandidate nat prim ops c2s pair xyz1
               (canonicalize nat prim (combine pair xyz1)) st.nmother st.found).found,
             zeros := if store then
                 st.zeros ++ (scanCandidate nat prim ops c2s pair xyz1
                   (canonicalize nat prim (combine pair xyz1)) st.nmother
                   st.found).batch.reverse.map (fun e => { e with mother := zeroSentinel })
               else st.zeros }) ∨
      ((scanCandidate nat prim ops c2s pair xyz1
          (canonicalize nat prim (combine pair xyz1)) st.nmother st.found).iszero = false ∧
       processCandidate nat prim ops c2s store st pair xyz1 =
         { st with
             found := (scanCandidate nat prim ops c2s pair xyz1
               (canonicalize nat prim (combine pair xyz1)) st.nmother st.found).found,
             fcs := st.fcs ++ (scanCandidate nat prim ops c2s pair xyz1
               (canonicalize nat prim (combine pair xyz1)) st.nmother st.found).batch,
             ndup := st.ndup ++ [(scanCandidate nat prim ops c2s pair xyz1
               (canonicalize nat prim (combine pair xyz1)) st.nmother st.found).batch.length],
             nmother := st.nmother + 1 }))) := by
  by_cases hasc : is_ascending (combine pair xyz1) = true
  · by_cases hmem : canonicalize nat prim (combine pair xyz1) ∈ st.found
    · left; simp [processCandidate, hasc, hmem]
    · right
      refine ⟨⟨hasc, hmem⟩, ?_⟩
      by_cases hz : (scanCandidate nat prim ops c2s pair xyz1
          (canonicalize nat prim (combine pair xyz1)) st.nmother st.found).iszero = true
      · left; exact ⟨hz, by simp [processCandidate, hasc, hmem, hz]⟩
      · right
        refine ⟨by simpa using hz, ?_⟩
        simp only [Bool.not_eq_true] at hz
        simp [processCandidate, hasc, hmem, hz]
  · left; simp [processCandidate, hasc]

theorem sortFcBlocks_perm (ds : List ℕ) (l : List FcProperty) :
    List.Perm (sortFcBlocks ds l) l := by
  induction ds generalizing l with
  | nil => exact List.Perm.refl l
  | cons d ds ih =>
      refine ((List.perm_insertionSort _ _).append (ih (l.drop d))).trans ?_
      rw [List.take_append_drop]

/-- Every entry of a scan batch (canonical entry or extra) carries a sign of
magnitude above the 1e-12 cutoff, since entries are only appended under the
`|c_tmp| > eps12` guard. -/
theorem scan_batch_sign (nat : ℕ) (prim : List ℕ) (ops : List SymOp)
    (c2s : List (List ℕ)) (pair xyz1 ind : List ℕ) (mo : ℕ) (found : List (List ℕ)) :
    ∀ e ∈ (scanCandidate nat prim ops c2s pair xyz1 ind mo found).batch,
      eps12 < ratAbs e.sign := by
  unfold scanCandidate
  apply foldl_inv (P := fun sc : ScanState => ∀ e ∈ sc.batch, eps12 < ratAbs e.sign)
  · intro e he; simp at he
  · intro sc s _ hP
    rcases scanOp_cases nat prim c2s pair xyz1 ind mo sc s with ⟨_, heq⟩ | ⟨_, heq⟩
    · rw [heq]; exact hP
    · rw [heq]
      refine foldl_inv (P := fun sc : ScanState => ∀ e ∈ sc.batch, eps12 < ratAbs e.sign) hP ?_
      intro st c2 _ hQ
      rcases scanStep_cases nat prim s.rot (pair.map s.map) xyz1 ind mo st c2 with
        heq' | ⟨hc, ⟨_, heq'⟩ | ⟨_, heq'⟩⟩
      · rw [heq']; exact hQ
      · rw [heq']; exact hQ
      · rw [heq']
        intro e he
        rcases List.mem_append.1 he with he | he
        · exact hQ e he
        · rcases List.mem_cons.1 he with rfl | he
          · exact hc
          · rw [(genExtras_mem he).1]; exact hc

/-- C5: for every interaction order and any inputs, the duplicate counts of
the table builder sum to the total number of live entries, and their number
equals the number of parameter ids allocated. -/
theorem C5_duplicate_counts (nat : ℕ) (prim : List ℕ) (symm : Symmetry)
    (basis : Basis) (order : ℕ) (pairs : List (List ℕ)) (store : Bool) :
    (generate_force_constant_table nat prim symm basis order pairs store).2.1.sum =
      (generate_force_constant_table nat prim symm basis order pairs store).1.length ∧
    (generate_force_constant_table nat prim symm basis order pairs store).2.1.length =
      (generate_force_constant_table nat prim symm basis order pairs store).2.2.2 := by
  have key : ∀ (ops : List SymOp),
      (buildRun nat prim ops order pairs store).ndup.sum =
        (buildRun nat prim ops order pairs store).fcs.length ∧
      (buildRun nat prim ops order pairs store).ndup.length =
        (buildRun nat prim ops order pairs store).nmother := by
    intro ops
    unfold buildRun
    apply foldl_inv
      (P := fun st : BuildState => st.ndup.sum = st.fcs.length ∧ st.ndup.length = st.nmother)
    · exact ⟨rfl, rfl⟩
    · intro st pair _ hP
      refine foldl_inv
        (P := fun st : BuildState => st.ndup.sum = st.fcs.length ∧ st.ndup.length = st.nmother)
        hP ?_
      intro st' x1 _ hP'
      rcases processCandidate_cases nat prim ops (get_xyzcomponent (order + 2)) store st' pair x1
        with heq | ⟨_, ⟨_, heq⟩ | ⟨_, heq⟩⟩
      · rw [heq]; exact hP'
      · rw [heq]; exact hP'
      · rw [heq]
        refine ⟨?_, ?_⟩ <;> simp [hP'.1, hP'.2]
  simp only [generate_force_constant_table]
  refine ⟨?_, (key _).2⟩
  rw [(sortFcBlocks_perm _ _).length_eq]
  exact (key _).1

/-- C10: every entry the table builder creates — kept in the live table or
diverted to the zero-entries list — has a sign coefficient of absolute
value (`ratAbs`) strictly greater than 1e-12 (= `eps12`). -/
theorem C10_sign_above_cutoff (nat : ℕ) (prim : List ℕ) (symm : Symmetry)
    (basis : Basis) (order : ℕ) (pairs : List (List ℕ)) (store : Bool) :
    ∀ e : FcProperty,
      (e ∈ (generate_force_constant_table nat prim symm basis order pairs store).1 ∨
       e ∈ (generate_force_constant_table nat prim symm basis order pairs store).2.2.1) →
      eps12 < ratAbs e.sign := by
  have key : ∀ (ops : List SymOp),
      (∀ e ∈ (buildRun nat prim ops order pairs store).fcs, eps12 < ratAbs e.sign) ∧
      (∀ e ∈ (buildRun nat prim ops order pairs store).zeros, eps12 < ratAbs e.sign) := by
    intro ops
    unfold buildRun
    apply foldl_inv (P := fun st : BuildState =>
      (∀ e ∈ st.fcs, eps12 < ratAbs e.sign) ∧ (∀ e ∈ st.zeros, eps12 < ratAbs e.sign))
    · constructor <;> intro e he <;> simp [initBuild] at he
    · intro st pair _ hP
      refine foldl_inv (P := fun st : BuildState =>
        (∀ e ∈ st.fcs, eps12 < ratAbs e.sign) ∧ (∀ e ∈ st.zeros, eps12 < ratAbs e.sign)) hP ?_
      intro st' x1 _ hP'
      rcases processCandidate_cases nat prim ops (get_xyzcomponent (order + 2)) store st' pair x1
        with heq | ⟨_, ⟨_, heq⟩ | ⟨_, heq⟩⟩
      · rw [heq]; exact hP'
      · rw [heq]
        refine ⟨hP'.1, ?_⟩
        intro e he
        simp only at he
        by_cases hstore : store = true
        · rw [if_pos hstore] at he
          rcases List.mem_append.1 he with he | he
          · exact hP'.2 e he
          · rcases List.mem_map.1 he with ⟨e', he', rfl⟩
            exact scan_batch_sign nat prim ops _ pair x1 _ st'.nmother st'.found e'
              (List.mem_reverse.1 he')
        · rw [if_neg hstore] at he
          exact hP'.2 e he
      · rw [heq]
        refine ⟨?_, hP'.2⟩
        intro e he
        rcases List.mem_append.1 he with he | he
        · exact hP'.1 e he
        · exact scan_batch_sign nat prim ops _ pair x1 _ st'.nmother st'.found e he
  intro e he
  rcases he with he | he
  · exact (key _).1 e ((sortFcBlocks_perm _ _).subset he)
  · exact (key _).2 e he

/-! The symmetry-zero flag: monotonicity, trigger, and absence lemmas. -/

theorem eps8_close_lt (c : ℚ) (h : ratAbs (c + 1) < eps8) : eps12 < ratAbs c := by
  rw [ratAbs_eq_abs] at h
  rw [ratAbs_eq_abs]
  have h1 := (abs_lt.1 h).2
  have h2 := (abs_lt.1 h).1
  have hneg : c < 0 := by
    have : (eps8 : ℚ) < 1 := by norm_num [eps8]
    linarith
  rw [abs_of_neg hneg]
  have : (eps12 : ℚ) < 1 - eps8 := by norm_num [eps8, eps12]
  linarith

theorem scanStep_iszero_mono (nat : ℕ) (prim : List ℕ) (rot : ℕ → ℕ → ℚ)
    (am xyz1 ind : List ℕ) (mo : ℕ) (st : ScanState) (c2 : List ℕ)
    (h : st.iszero = true) :
    (scanStep nat prim rot am xyz1 ind mo st c2).iszero = true := by
  rcases scanStep_cases nat prim rot am xyz1 ind mo st c2 with
    heq | ⟨_, ⟨_, heq⟩ | ⟨_, heq⟩⟩ <;> rw [heq] <;> simp [h]

theorem scanOp_iszero_mono (nat : ℕ) (prim : List ℕ) (c2s : List (List ℕ))
    (pair xyz1 ind : List ℕ) (mo : ℕ) (st : ScanState) (s : SymOp)
    (h : st.iszero = true) :
    (scanOp nat prim c2s pair xyz1 ind mo st s).iszero = true := by
  rcases scanOp_cases nat prim c2s pair xyz1 ind mo st s with ⟨_, heq⟩ | ⟨_, heq⟩
  · rw [heq]; exact h
  · rw [heq]
    exact foldl_inv (P := fun sc : ScanState => sc.iszero = true) h
      fun st' c2 _ h' => scanStep_iszero_mono nat prim s.rot _ xyz1 ind mo st' c2 h'

theorem scanStep_iszero_trigger (nat : ℕ) (prim : List ℕ) (rot : ℕ → ℕ → ℚ)
    (am xyz1 ind : List ℕ) (mo : ℕ) (st : ScanState) (c2 : List ℕ)
    (him : ind = canonicalize nat prim (combine am c2))
    (hcl : ratAbs (coef_sym rot xyz1 c2 + 1) < eps8) :
    (scanStep nat prim rot am xyz1 ind mo st c2).iszero = true := by
  have hc : eps12 < ratAbs (coef_sym rot xyz1 c2) := eps8_close_lt _ hcl
  by_cases hm : canonicalize nat prim (combine am c2) ∈ st.found
  · simp [scanStep, hc, hm, him, hcl]
  · simp [scanStep, hc, hm, him, hcl]

/-- If no operation and component assignment maps the candidate's canonical
index to itself with a coefficient within `eps8` of -1, the scan never sets
the symmetry-zero flag. -/
theorem scan_iszero_of_none (nat : ℕ) (prim : List ℕ) (ops : List SymOp)
    (c2s : List (List ℕ)) (pair xyz1 ind : List ℕ) (mo : ℕ) (found : List (List ℕ))
    (hno : ∀ s ∈ ops, ∀ c2 ∈ c2s,
      ¬(ind = canonicalize nat prim (combine (pair.map s.map) c2) ∧
        ratAbs (coef_sym s.rot xyz1 c2 + 1) < eps8)) :
    (scanCandidate nat prim ops c2s pair xyz1 ind mo found).iszero = false := by
  unfold scanCandidate
  apply foldl_inv (P := fun sc : ScanState => sc.iszero = false)
  · rfl
  · intro sc s hs hP
    rcases scanOp_cases nat prim c2s pair xyz1 ind mo sc s with ⟨_, heq⟩ | ⟨_, heq⟩
    · rw [heq]; exact hP
    · rw [heq]
      refine foldl_inv (P := fun sc : ScanState => sc.iszero = false) hP ?_
      intro st c2 hc2 hQ
      rcases scanStep_cases nat prim s.rot (pair.map s.map) xyz1 ind mo st c2 with
        heq' | ⟨_, ⟨_, heq'⟩ | ⟨_, heq'⟩⟩
      · rw [heq']; exact hQ
      · rw [heq']
        simp only [hQ, Bool.false_or]
        rw [Bool.and_eq_false_iff]
        by_cases him : ind = canonicalize nat prim (combine (pair.map s.map) c2)
        · right
          simp only [decide_eq_false_iff_not]
          exact fun hcl => hno s hs c2 hc2 ⟨him, hcl⟩
        · left; simp [him]
      · rw [heq']
        simp only [hQ, Bool.false_or]
        rw [Bool.and_eq_false_iff]
        by_cases him : ind = canonicalize nat prim (combine (pair.map s.map) c2)
        · right
          simp only [decide_eq_false_iff_not]
          exact fun hcl => hno s hs c2 hc2 ⟨him, hcl⟩
        · left; simp [him]

theorem combine_atoms : ∀ (l c2 : List ℕ), l.length = c2.length →
    (∀ x ∈ c2, x < 3) → (combine l c2).map (· / 3) = l := by
  intro l
  induction l with
  | nil => intro c2 h _; simp [combine]
  | cons a l ih =>
      intro c2 h hv
      match c2 with
      | [] => simp at h
      | c :: c2 =>
          have hc : c < 3 := hv c (by simp)
          simp only [combine, List.zipWith_cons_cons, List.map_cons]
          rw [show (3 * a + c) / 3 = a by omega]
          have := ih c2 (by simpa using h) fun x hx => hv x (by simp [hx])
          rw [show List.zipWith (fun a c => 3 * a + c) l c2 = combine l c2 from rfl, this]

/-- C3: the candidate scan flags a symmetry-zero orbit if and only if some
symmetry operation in the allowed subset maps the orbit's original
canonical index to itself with rotation coefficient within the tight
tolerance `eps8` of -1. -/
theorem C3_symmetry_zero_iff (nat : ℕ) (prim : List ℕ) (ops : List SymOp)
    (order mo : ℕ) (found : List (List ℕ)) (pair xyz1 : List ℕ)
    (hlen : pair.length = order + 2)
    (hx1 : xyz1 ∈ get_xyzcomponent (order + 2))
    (hprim : ∃ a ∈ pair, isPrimAtom prim a = true) :
    (scanCandidate nat prim ops (get_xyzcomponent (order + 2)) pair xyz1
        (canonicalize nat prim (combine pair xyz1)) mo found).iszero = true ↔
    ∃ s ∈ ops, ∃ c2 ∈ get_xyzcomponent (order + 2),
      canonicalize nat prim (combine (pair.map s.map) c2) =
        canonicalize nat prim (combine pair xyz1) ∧
      ratAbs (coef_sym s.rot xyz1 c2 + 1) < eps8 := by
  constructor
  · intro hz
    by_contra hno
    push_neg at hno
    have := scan_iszero_of_none nat prim ops (get_xyzcomponent (order + 2)) pair xyz1
      (canonicalize nat prim (combine pair xyz1)) mo found ?_
    · rw [hz] at this; exact Bool.true_eq_false.mp this
    · intro s hs c2 hc2 ⟨him, hcl⟩
      exact absurd hcl (not_lt.2 (hno s hs c2 hc2 him.symm))
  · rintro ⟨s, hs, c2, hc2, hcan, hcl⟩
    have hx1m := get_xyzcomponent_mem hx1
    have hc2m := get_xyzcomponent_mem hc2
    have hperm : List.Perm (combine (pair.map s.map) c2) (combine pair xyz1) := by
      have p1 := canonicalize_perm nat prim (combine (pair.map s.map) c2)
      have p2 := canonicalize_perm nat prim (combine pair xyz1)
      exact (p1.symm.trans (hcan ▸ List.Perm.refl _)).trans p2
    have hatoms : List.Perm (pair.map s.map) pair := by
      have h1 : (combine (pair.map s.map) c2).map (· / 3) = pair.map s.map :=
        combine_atoms _ _ (by simp [hlen, hc2m.1]) hc2m.2
      have h2 : (combine pair xyz1).map (· / 3) = pair :=
        combine_atoms _ _ (by rw [hlen, hx1m.1]) hx1m.2
      have := hperm.map (· / 3)
      rwa [h1, h2] at this
    have hin : is_inprim_atoms prim (pair.map s.map) = true := by
      rcases hprim with ⟨a, ha, hap⟩
      rw [is_inprim_atoms, List.any_eq_true]
      exact ⟨a, hatoms.mem_iff.2 ha, hap⟩
    unfold scanCandidate
    refine foldl_flag _ (fun sc : ScanState => sc.iszero = true) s hs
      (fun st x hx h => scanOp_iszero_mono nat prim _ pair xyz1 _ mo st x h) ?_
    intro st
    rw [scanOp, hin]
    simp only [if_true]
    refine foldl_flag _ (fun sc : ScanState => sc.iszero = true) c2 hc2
      (fun st' x _ h => scanStep_iszero_mono nat prim s.rot _ xyz1 _ mo st' x h) ?_
    intro st'
    exact scanStep_iszero_trigger nat prim s.rot _ xyz1 _ mo st' c2 hcan.symm hcl

/-- A mirror operation (z ↦ -z rotation, identity atom permutation), used
as a concrete example operation. -/
def mirrorOp : SymOp :=
  { rot := fun a b => if a = b then (if a = 2 then -1 else 1) else 0, map := fun a => a }

unseal Rat.mul Rat.add Rat.sub Rat.inv in
theorem C3_symmetry_zero_iff_witness :
    ([0, 0] : List ℕ).length = 0 + 2 ∧
    [0, 2] ∈ get_xyzcomponent (0 + 2) ∧
    (∃ a ∈ ([0, 0] : List ℕ), isPrimAtom [0] a = true) ∧
    ((scanCandidate 1 [0] [mirrorOp] (get_xyzcomponent (0 + 2)) [0, 0] [0, 2]
        (canonicalize 1 [0] (combine [0, 0] [0, 2])) 0 []).iszero = true ↔
      ∃ s ∈ [mirrorOp], ∃ c2 ∈ get_xyzcomponent (0 + 2),
        canonicalize 1 [0] (combine ([0, 0].map s.map) c2) =
          canonicalize 1 [0] (combine [0, 0] [0, 2]) ∧
        ratAbs (coef_sym s.rot [0, 2] c2 + 1) < eps8) :=
  ⟨by decide, by decide, by decide,
    C3_symmetry_zero_iff 1 [0] [mirrorOp] 0 0 [] [0, 0] [0, 2]
      (by decide) (by decide) (by decide)⟩

/-- C4: when a candidate's scan flags the orbit symmetry-zero, all entries
appended for that orbit are withheld from the live table and the duplicate
counts; with `store_zeros` on they are copied — parameter replaced by the
zero sentinel, in reverse order — into the zero-entries output, otherwise
they are dropped.  Consequently every zero-output entry of a full builder
run carries the sentinel, and the zero output is empty when `store_zeros`
is off. -/
theorem C4_zero_orbit_removal (nat : ℕ) (prim : List ℕ) (ops : List SymOp)
    (c2s : List (List ℕ)) (store : Bool) (st : BuildState) (pair xyz1 : List ℕ)
    (hasc : is_ascending (combine pair xyz1) = true)
    (hnew : canonicalize nat prim (combine pair xyz1) ∉ st.found)
    (hz : (scanCandidate nat prim ops c2s pair xyz1
        (canonicalize nat prim (combine pair xyz1)) st.nmother st.found).iszero = true) :
    (processCandidate nat prim ops c2s store st pair xyz1).fcs = st.fcs ∧
    (processCandidate nat prim ops c2s store st pair xyz1).ndup = st.ndup ∧
    (store = true →
      (processCandidate nat prim ops c2s store st pair xyz1).zeros =
        st.zeros ++ (scanCandidate nat prim ops c2s pair xyz1
            (canonicalize nat prim (combine pair xyz1)) st.nmother st.found).batch.reverse.map
          (fun e => { e with mother := zeroSentinel })) ∧
    (store = false →
      (processCandidate nat prim ops c2s store st pair xyz1).zeros = st.zeros) ∧
    (∀ (symm : Symmetry) (basis : Basis) (order : ℕ) (pairs : List (List ℕ)),
      (∀ e ∈ (generate_force_constant_table nat prim symm basis order pairs store).2.2.1,
        e.mother = zeroSentinel) ∧
      (store = false →
        (generate_force_constant_table nat prim symm basis order pairs store).2.2.1 = [])) := by
  refine ⟨?_, ?_, ?_, ?_, ?_⟩
  · simp [processCandidate, hasc, hnew, hz]
  · simp [processCandidate, hasc, hnew, hz]
  · intro hstore; simp [processCandidate, hasc, hnew, hz, hstore]
  · intro hstore; simp [processCandidate, hasc, hnew, hz, hstore]
  · intro symm basis order pairs
    have key : ∀ (ops' : List SymOp),
        (∀ e ∈ (buildRun nat prim ops' order pairs store).zeros, e.mother = zeroSentinel) ∧
        (store = false → (buildRun nat prim ops' order pairs store).zeros = []) := by
      intro ops'
      unfold buildRun
      apply foldl_inv (P := fun st : BuildState =>
        (∀ e ∈ st.zeros, e.mother = zeroSentinel) ∧ (store = false → st.zeros = []))
      · exact ⟨fun e he => by simp [initBuild] at he, fun _ => rfl⟩
      · intro st0 pair0 _ hP
        refine foldl_inv (P := fun st : BuildState =>
          (∀ e ∈ st.zeros, e.mother = zeroSentinel) ∧ (store = false → st.zeros = [])) hP ?_
        intro st' x1 _ hP'
        rcases processCandidate_cases nat prim ops' (get_xyzcomponent (order + 2)) store st' pair0 x1
          with heq | ⟨_, ⟨_, heq⟩ | ⟨_, heq⟩⟩
        · rw [heq]; exact hP'
        · rw [heq]
          by_cases hstore : store = true
          · rw [if_pos hstore]
            refine ⟨?_, fun hcontra => by rw [hstore] at hcontra; cases hcontra⟩
            intro e he
            rcases List.mem_append.1 he with he | he
            · exact hP'.1 e he
            · rcases List.mem_map.1 he with ⟨e', _, rfl⟩; rfl
          · rw [if_neg hstore]; exact hP'
        · rw [heq]; exact hP'
    exact ⟨fun e he => (key _).1 e he, fun hs => (key _).2 hs⟩

unseal Rat.mul Rat.add Rat.sub Rat.inv in
theorem C4_zero_orbit_removal_witness :
    is_ascending (combine [0, 0] [0, 2]) = true ∧
    canonicalize 1 [0] (combine [0, 0] [0, 2]) ∉ initBuild.found ∧
    (scanCandidate 1 [0] [mirrorOp] (get_xyzcomponent (0 + 2)) [0, 0] [0, 2]
        (canonicalize 1 [0] (combine [0, 0] [0, 2])) initBuild.nmother
        initBuild.found).iszero = true ∧
    ((processCandidate 1 [0] [mirrorOp] (get_xyzcomponent (0 + 2)) true initBuild
        [0, 0] [0, 2]).fcs = initBuild.fcs ∧
     (processCandidate 1 [0] [mirrorOp] (get_xyzcomponent (0 + 2)) true initBuild
        [0, 0] [0, 2]).ndup = initBuild.ndup ∧
     (true = true →
       (processCandidate 1 [0] [mirrorOp] (get_xyzcomponent (0 + 2)) true initBuild
          [0, 0] [0, 2]).zeros =
         initBuild.zeros ++ (scanCandidate 1 [0] [mirrorOp] (get_xyzcomponent (0 + 2))
             [0, 0] [0, 2] (canonicalize 1 [0] (combine [0, 0] [0, 2])) initBuild.nmother
             initBuild.found).batch.reverse.map (fun e => { e with mother := zeroSentinel })) ∧
     (true = false →
       (processCandidate 1 [0] [mirrorOp] (get_xyzcomponent (0 + 2)) true initBuild
          [0, 0] [0, 2]).zeros = initBuild.zeros) ∧
     (∀ (symm : Symmetry) (basis : Basis) (order : ℕ) (pairs : List (List ℕ)),
       (∀ e ∈ (generate_force_constant_table 1 [0] symm basis order pairs true).2.2.1,
         e.mother = zeroSentinel) ∧
       (true = false →
         (generate_force_constant_table 1 [0] symm basis order pairs true).2.2.1 = []))) :=
  ⟨by decide, by decide, by decide,
    C4_zero_orbit_removal 1 [0] [mirrorOp] (get_xyzcomponent (0 + 2)) true initBuild
      [0, 0] [0, 2] (by decide) (by decide) (by decide)⟩

/-! Canonical entries versus permutation-equivalent extras: the machinery
behind the one-orbit-per-index invariant. -/

theorem sort_tail_head (l : List ℕ) : (sort_tail l).headD 0 = l.headD 0 := by
  cases l <;> rfl

theorem swapHead_head {m : List ℕ} {i : ℕ} (h1 : 0 < i) (h2 : i < m.length) :
    (swapHead m i).headD 0 = m.getD i 0 := by
  match i, m with
  | 0, _ => omega
  | i + 1, [] => simp at h2
  | i + 1, a :: t => simp [swapHead]

theorem getD_mem_of_lt {m : List ℕ} {i : ℕ} (h : i < m.length) : m.getD i 0 ∈ m := by
  rw [List.getD_eq_getElem _ _ h]
  exact List.getElem_mem _

theorem mem_combine {v : ℕ} {l1 l2 : List ℕ} (h : v ∈ combine l1 l2) :
    ∃ a ∈ l1, ∃ c ∈ l2, v = 3 * a + c := by
  induction l1 generalizing l2 with
  | nil => simp [combine] at h
  | cons a l1 ih =>
      match l2 with
      | [] => simp [combine] at h
      | c :: l2 =>
          simp only [combine, List.zipWith_cons_cons, List.mem_cons] at h
          rcases h with rfl | h
          · exact ⟨a, by simp, c, by simp, rfl⟩
          · rcases ih h with ⟨a', ha', c', hc', rfl⟩
            exact ⟨a', by simp [ha'], c', by simp [hc'], rfl⟩

theorem combine_length (l1 l2 : List ℕ) : (combine l1 l2).length = min l1.length l2.length := by
  simp [combine]

/-- An extra permutation-equivalent entry is a permutation of its canonical
index, contains a primitive-cell index, and is never itself in canonical
form (its head is a primitive index strictly larger than the canonical
head). -/
theorem genExtras_not_canonical {nat : ℕ} {prim : List ℕ} {c : ℚ} {mo : ℕ}
    {m : List ℕ} {e : FcProperty}
    (hm : canonicalize nat prim m = m) (hsm : ∀ v ∈ m, v < 3 * nat)
    (he : e ∈ genExtras prim c mo m) :
    List.Perm e.elems m ∧ (∃ v ∈ e.elems, is_inprim_idx prim v = true) ∧
    canonicalize nat prim e.elems ≠ e.elems := by
  obtain ⟨hsign, hmo, i, hi0, hilen, helems, hvp, hvne⟩ := genExtras_mem he
  have hperm : List.Perm e.elems m := by
    rw [helems]; exact (sort_tail_perm _).trans (swapHead_perm hilen)
  have hhead : e.elems.headD 0 = m.getD i 0 := by
    rw [helems, sort_tail_head, swapHead_head hi0 hilen]
  have hvm : m.getD i 0 ∈ m := getD_mem_of_lt hilen
  have hnee : e.elems ≠ [] := by
    intro hcontra
    have := hperm.length_eq
    rw [hcontra] at this
    simp at this
    omega
  obtain ⟨x, t0, helx⟩ := List.exists_cons_of_ne_nil hnee
  have hxv : x = m.getD i 0 := by
    rw [helx] at hhead
    simpa using hhead
  have hveel : m.getD i 0 ∈ e.elems := by
    rw [helx, ← hxv]
    simp
  refine ⟨hperm, ⟨m.getD i 0, hveel, hvp⟩, ?_⟩
  intro hfix
  have hsm' : ∀ x ∈ e.elems, x < 3 * nat := fun x hx => hsm x (hperm.subset hx)
  obtain ⟨y, t, hc1, hyl, hyp, hymin, _⟩ :=
    canonicalize_head_prim hsm' ⟨m.getD i 0, hveel, hvp⟩
  have hyv : y = m.getD i 0 := by
    rw [hfix] at hc1
    rw [hc1] at hhead
    simpa using hhead
  obtain ⟨y', t', hc2, hyl', hyp', hymin', _⟩ :=
    canonicalize_head_prim hsm ⟨m.getD i 0, hvm, hvp⟩
  have hmdecomp : m = y' :: t' := by rw [← hm, hc2]
  have hy'head : m.headD 0 = y' := by rw [hmdecomp]; rfl
  have h1 : y' ≤ m.getD i 0 := hymin' _ hvm hvp
  have h2 : y ≤ y' := hymin y' (hperm.symm.subset hyl') hyp'
  rw [hyv] at h2
  exact hvne (by omega)

/-- The invariant carried through one candidate's symmetry scan: the
starting dedup set is preserved, batch entries carry the current parameter
id, sizes `n` and small indices, every batch entry is either a freshly
registered canonical index or an extra pointing at its canonical partner,
and canonical batch entries are determined by their index. -/
def ScanInv (nat : ℕ) (prim : List ℕ) (mo n : ℕ) (found₀ : List (List ℕ))
    (st : ScanState) : Prop :=
  (∀ m ∈ found₀, m ∈ st.found) ∧
  (∀ e ∈ st.batch, e.mother = mo ∧ e.elems.length = n ∧ ∀ v ∈ e.elems, v < 3 * nat) ∧
  (∀ e ∈ st.batch,
    (canonicalize nat prim e.elems = e.elems ∧ e.elems ∈ st.found ∧ e.elems ∉ found₀) ∨
    (canonicalize nat prim e.elems ≠ e.elems ∧
      (∃ v ∈ e.elems, is_inprim_idx prim v = true) ∧
      ∃ e' ∈ st.batch, canonicalize nat prim e'.elems = e'.elems ∧
        List.Perm e'.elems e.elems ∧ e'.sign = e.sign ∧ e'.mother = e.mother)) ∧
  (∀ e1 ∈ st.batch, ∀ e2 ∈ st.batch,
    canonicalize nat prim e1.elems = e1.elems →
    canonicalize nat prim e2.elems = e2.elems → e1.elems = e2.elems → e1 = e2)

theorem scanStep_inv {nat : ℕ} {prim : List ℕ} {rot : ℕ → ℕ → ℚ}
    {am xyz1 ind : List ℕ} {mo n : ℕ} {found₀ : List (List ℕ)} {st : ScanState}
    {c2 : List ℕ}
    (hsm : ∀ v ∈ combine am c2, v < 3 * nat)
    (hn : (combine am c2).length = n)
    (hI : ScanInv nat prim mo n found₀ st) :
    ScanInv nat prim mo n found₀ (scanStep nat prim rot am xyz1 ind mo st c2) := by
  obtain ⟨hA, hB, hC, hD⟩ := hI
  rcases scanStep_cases nat prim rot am xyz1 ind mo st c2 with
    heq | ⟨hc, ⟨hmem, heq⟩ | ⟨hmem, heq⟩⟩
  · rw [heq]; exact ⟨hA, hB, hC, hD⟩
  · rw [heq]; exact ⟨hA, hB, hC, hD⟩
  · rw [heq]
    have hfixim : canonicalize nat prim (canonicalize nat prim (combine am c2)) =
        canonicalize nat prim (combine am c2) := canonicalize_idem nat prim _
    have hsmim : ∀ v ∈ canonicalize nat prim (combine am c2), v < 3 * nat :=
      fun v hv => hsm v ((canonicalize_perm nat prim _).subset hv)
    have hnim : (canonicalize nat prim (combine am c2)).length = n := by
      rw [canonicalize_length]; exact hn
    have hnotf0 : canonicalize nat prim (combine am c2) ∉ found₀ :=
      fun hcontra => hmem (hA _ hcontra)
    refine ⟨?_, ?_, ?_, ?_⟩
    · intro m hm
      exact List.mem_cons_of_mem _ (hA m hm)
    · intro e he
      rcases List.mem_append.1 he with he | he
      · exact hB e he
      · rcases List.mem_cons.1 he with rfl | he
        · exact ⟨rfl, hnim, hsmim⟩
        · obtain ⟨hperm, _, _⟩ := genExtras_not_canonical hfixim hsmim he
          obtain ⟨hs, hmo, _⟩ := genExtras_mem he
          exact ⟨hmo, by rw [hperm.length_eq]; exact hnim,
            fun v hv => hsmim v (hperm.subset hv)⟩
    · intro e he
      rcases List.mem_append.1 he with he | he
      · rcases hC e he with ⟨h1, h2, h3⟩ | ⟨h1, h2, e', he', h3, h4, h5, h6⟩
        · exact Or.inl ⟨h1, List.mem_cons_of_mem _ h2, h3⟩
        · exact Or.inr ⟨h1, h2, e', List.mem_append_left _ he', h3, h4, h5, h6⟩
      · rcases List.mem_cons.1 he with rfl | he
        · exact Or.inl ⟨hfixim, List.mem_cons_self _ _, hnotf0⟩
        · obtain ⟨hperm, hpe, hnotfix⟩ := genExtras_not_canonical hfixim hsmim he
          obtain ⟨hs, hmo, _⟩ := genExtras_mem he
          refine Or.inr ⟨hnotfix, hpe,
            ⟨canonicalize nat prim (combine am c2), coef_sym rot xyz1 c2, mo⟩,
            List.mem_append_right _ (List.mem_cons_self _ _), hfixim, hperm.symm,
            hs.symm, hmo.symm⟩
    · intro e1 he1 e2 he2 hf1 hf2 heq12
      have hsplit : ∀ e ∈ st.batch ++
          (⟨canonicalize nat prim (combine am c2), coef_sym rot xyz1 c2, mo⟩ ::
            genExtras prim (coef_sym rot xyz1 c2) mo
              (canonicalize nat prim (combine am c2))),
          canonicalize nat prim e.elems = e.elems →
          e ∈ st.batch ∨
          e = ⟨canonicalize nat prim (combine am c2), coef_sym rot xyz1 c2, mo⟩ := by
        intro e he hf
        rcases List.mem_append.1 he with he | he
        · exact Or.inl he
        · rcases List.mem_cons.1 he with rfl | he
          · exact Or.inr rfl
          · exact absurd hf (genExtras_not_canonical hfixim hsmim he).2.2
      rcases hsplit e1 he1 hf1 with h1 | rfl <;> rcases hsplit e2 he2 hf2 with h2 | h2
      · exact hD e1 h1 e2 h2 hf1 hf2 heq12
      · rw [h2] at heq12 ⊢
        exfalso
        rcases hC e1 h1 with ⟨_, hmem1, _⟩ | ⟨hnf, _⟩
        · rw [heq12] at hmem1; exact hmem hmem1
        · exact hnf hf1
      · exfalso
        rcases hC e2 h2 with ⟨_, hmem2, _⟩ | ⟨hnf, _⟩
        · rw [← heq12] at hmem2; exact hmem hmem2
        · exact hnf hf2
      · rw [h2]

theorem scanCandidate_inv (nat : ℕ) (prim : List ℕ) (ops : List SymOp)
    (c2s : List (List ℕ)) (pair xyz1 ind : List ℕ) (mo n : ℕ)
    (found₀ : List (List ℕ))
    (h : ∀ s ∈ ops, ∀ c2 ∈ c2s,
      (∀ v ∈ combine (pair.map s.map) c2, v < 3 * nat) ∧
      (combine (pair.map s.map) c2).length = n) :
    ScanInv nat prim mo n found₀
      (scanCandidate nat prim ops c2s pair xyz1 ind mo found₀) := by
  unfold scanCandidate
  apply foldl_inv (P := ScanInv nat prim mo n found₀)
  · exact ⟨fun m hm => hm, by simp, by simp, by simp⟩
  · intro st s hs hI
    rcases scanOp_cases nat prim c2s pair xyz1 ind mo st s with ⟨_, heq⟩ | ⟨_, heq⟩
    · rw [heq]; exact hI
    · rw [heq]
      refine foldl_inv (P := ScanInv nat prim mo n found₀) hI ?_
      intro st' c2 hc2 hI'
      exact scanStep_inv (h s hs c2 hc2).1 (h s hs c2 hc2).2 hI'

/-- The global table invariant: entry sizes and index bounds, the
canonical-or-extra dichotomy, and index-determined sign and parameter id of
canonical entries. -/
def BuildInv (nat : ℕ) (prim : List ℕ) (n : ℕ) (st : BuildState) : Prop :=
  (∀ e ∈ st.fcs, e.elems.length = n ∧ ∀ v ∈ e.elems, v < 3 * nat) ∧
  (∀ e ∈ st.fcs,
    (canonicalize nat prim e.elems = e.elems ∧ e.elems ∈ st.found) ∨
    (canonicalize nat prim e.elems ≠ e.elems ∧
      (∃ v ∈ e.elems, is_inprim_idx prim v = true) ∧
      ∃ e' ∈ st.fcs, canonicalize nat prim e'.elems = e'.elems ∧
        List.Perm e'.elems e.elems ∧ e'.sign = e.sign ∧ e'.mother = e.mother)) ∧
  (∀ e1 ∈ st.fcs, ∀ e2 ∈ st.fcs,
    canonicalize nat prim e1.elems = e1.elems → e1.elems = e2.elems →
    e1.sign = e2.sign ∧ e1.mother = e2.mother)

theorem buildRun_master (nat : ℕ) (prim : List ℕ) (ops : List SymOp)
    (order : ℕ) (pairs : List (List ℕ)) (store : Bool)
    (hpl : ∀ p ∈ pairs, p.length = order + 2)
    (hpa : ∀ p ∈ pairs, ∀ a ∈ p, a < nat)
    (hops : ∀ s ∈ ops, ∀ a, a < nat → s.map a < nat) :
    BuildInv nat prim (order + 2) (buildRun nat prim ops order pairs store) := by
  unfold buildRun
  apply foldl_inv (P := BuildInv nat prim (order + 2))
  · exact ⟨by simp [initBuild], by simp [initBuild], by simp [initBuild]⟩
  · intro st pair hpair hJ
    refine foldl_inv (P := BuildInv nat prim (order + 2)) hJ ?_
    intro st' x1 _ hJ'
    rcases processCandidate_cases nat prim ops (get_xyzcomponent (order + 2)) store st' pair x1
      with heq | ⟨⟨_, _⟩, hcase⟩
    · rw [heq]; exact hJ'
    have hscan : ScanInv nat prim st'.nmother (order + 2) st'.found
        (scanCandidate nat prim ops (get_xyzcomponent (order + 2)) pair x1
          (canonicalize nat prim (combine pair x1)) st'.nmother st'.found) := by
      apply scanCandidate_inv
      intro s hs c2 hc2
      have hc2m := get_xyzcomponent_mem hc2
      constructor
      · intro v hv
        rcases mem_combine hv with ⟨a, ha, c, hc, rfl⟩
        rcases List.mem_map.1 ha with ⟨a0, ha0, rfl⟩
        have h1 : a0 < nat := hpa pair hpair a0 ha0
        have h2 : s.map a0 < nat := hops s hs a0 h1
        have h3 : c < 3 := hc2m.2 c hc
        omega
      · rw [combine_length, List.length_map, hpl pair hpair, hc2m.1]; simp
    obtain ⟨hsA, hsB, hsC, hsD⟩ := hscan
    obtain ⟨hJ0, hJ1, hJ2⟩ := hJ'
    rcases hcase with ⟨_, heq⟩ | ⟨_, heq⟩
    · rw [heq]
      refine ⟨hJ0, ?_, hJ2⟩
      intro e he
      rcases hJ1 e he with ⟨h1, h2⟩ | hr
      · exact Or.inl ⟨h1, hsA _ h2⟩
      · exact Or.inr hr
    · rw [heq]
      refine ⟨?_, ?_, ?_⟩
      · intro e he
        rcases List.mem_append.1 he with he | he
        · exact hJ0 e he
        · exact ⟨(hsB e he).2.1, (hsB e he).2.2⟩
      · intro e he
        rcases List.mem_append.1 he with he | he
        · rcases hJ1 e he with ⟨h1, h2⟩ | ⟨h1, h2, e', he', h3⟩
          · exact Or.inl ⟨h1, hsA _ h2⟩
          · exact Or.inr ⟨h1, h2, e', List.mem_append_left _ he', h3⟩
        · rcases hsC e he with ⟨h1, h2, _⟩ | ⟨h1, h2, e', he', h3, h4, h5, h6⟩
          · exact Or.inl ⟨h1, h2⟩
          · exact Or.inr ⟨h1, h2, e', List.mem_append_right _ he', h3, h4, h5, h6⟩
      · intro e1 he1 e2 he2 hf1 heq12
        have hf2 : canonicalize nat prim e2.elems = e2.elems := by
          rw [← heq12]; exact hf1
        rcases List.mem_append.1 he1 with h1 | h1 <;>
          rcases List.mem_append.1 he2 with h2 | h2
        · exact hJ2 e1 h1 e2 h2 hf1 heq12
        · exfalso
          rcases hsC e2 h2 with ⟨_, _, hnf⟩ | ⟨hnf, _⟩
          · rcases hJ1 e1 h1 with ⟨_, hmem⟩ | ⟨hnf1, _⟩
            · rw [heq12] at hmem; exact hnf hmem
            · exact hnf1 hf1
          · exact hnf hf2
        · exfalso
          rcases hsC e1 h1 with ⟨_, _, hnf⟩ | ⟨hnf, _⟩
          · rcases hJ1 e2 h2 with ⟨_, hmem⟩ | ⟨hnf2, _⟩
            · rw [← heq12] at hmem; exact hnf hmem
            · exact hnf2 hf2
          · exact hnf hf1
        · rw [hsD e1 h1 e2 h2 hf1 hf2 heq12]
          exact ⟨rfl, rfl⟩

/-- C1: in the live table built by `generate_force_constant_table`, each
canonical index belongs to exactly one orbit — no index tuple is ever
registered under two different parameter identifiers. -/
theorem C1_one_orbit_per_index (nat : ℕ) (prim : List ℕ) (symm : Symmetry)
    (basis : Basis) (order : ℕ) (pairs : List (List ℕ)) (store : Bool)
    (hpl : ∀ p ∈ pairs, p.length = order + 2)
    (hpa : ∀ p ∈ pairs, ∀ a ∈ p, a < nat)
    (hops : ∀ s ∈ get_available_symmop symm basis true, ∀ a, a < nat → s.map a < nat) :
    ∀ e1 ∈ (generate_force_constant_table nat prim symm basis order pairs store).1,
    ∀ e2 ∈ (generate_force_constant_table nat prim symm basis order pairs store).1,
      e1.elems = e2.elems → e1.mother = e2.mother := by
  intro e1 he1 e2 he2 heq
  obtain ⟨hJ0, hJ1, hJ2⟩ :=
    buildRun_master nat prim (get_available_symmop symm basis true) order pairs store
      hpl hpa hops
  simp only [generate_force_constant_table] at he1 he2
  replace he1 := (sortFcBlocks_perm _ _).subset he1
  replace he2 := (sortFcBlocks_perm _ _).subset he2
  by_cases hf : canonicalize nat prim e1.elems = e1.elems
  · exact (hJ2 e1 he1 e2 he2 hf heq).2
  · have hf2 : canonicalize nat prim e2.elems ≠ e2.elems := by
      rw [← heq]; exact hf
    rcases hJ1 e1 he1 with ⟨h1, _⟩ | ⟨_, hp1, p1, hp1m, hfix1, hperm1, _, hm1⟩
    · exact absurd h1 hf
    rcases hJ1 e2 he2 with ⟨h1, _⟩ | ⟨_, _, p2, hp2m, hfix2, hperm2, _, hm2⟩
    · exact absurd h1 hf2
    have hsmp1 : ∀ v ∈ p1.elems, v < 3 * nat := (hJ0 p1 hp1m).2
    have hpr1 : ∃ v ∈ p1.elems, is_inprim_idx prim v = true := by
      rcases hp1 with ⟨v, hv, hvp⟩
      exact ⟨v, hperm1.symm.subset hv, hvp⟩
    have hpp : List.Perm p1.elems p2.elems := by
      refine hperm1.trans ?_
      rw [heq]
      exact hperm2.symm
    have hcc : canonicalize nat prim p1.elems = canonicalize nat prim p2.elems :=
      canonicalize_congr_perm hsmp1 hpr1 hpp
    rw [hfix1, hfix2] at hcc
    have := (hJ2 p1 hp1m p2 hp2m hfix1 hcc).2
    rw [← hm1, ← hm2, this]

/-- A trivial one-atom crystal with only the identity operation, used as a
concrete example input. -/
def idSymmEntry : SymmDataEntry :=
  { rotation_cart := fun a b => if a = b then 1 else 0,
    rotation_latt := fun a b => if a = b then 1 else 0,
    compatible_with_cartesian := true, compatible_with_lattice := true }

def idSymm : Symmetry := { SymmData := [idSymmEntry], map_sym := fun a _ => a }

unseal Rat.mul Rat.add Rat.sub Rat.inv in
theorem C1_one_orbit_per_index_witness :
    (∀ p ∈ ([[0, 0]] : List (List ℕ)), p.length = 0 + 2) ∧
    (∀ p ∈ ([[0, 0]] : List (List ℕ)), ∀ a ∈ p, a < 1) ∧
    (∀ s ∈ get_available_symmop idSymm Basis.cartesian true, ∀ a, a < 1 → s.map a < 1) ∧
    (∀ e1 ∈ (generate_force_constant_table 1 [0] idSymm Basis.cartesian 0 [[0, 0]] true).1,
     ∀ e2 ∈ (generate_force_constant_table 1 [0] idSymm Basis.cartesian 0 [[0, 0]] true).1,
       e1.elems = e2.elems → e1.mother = e2.mother) :=
  ⟨by decide, by decide, by decide,
    C1_one_orbit_per_index 1 [0] idSymm Basis.cartesian 0 [[0, 0]] true
      (by decide) (by decide) (by decide)⟩

/-- A diagonal self-interaction entry of the one-atom identity crystal. -/
def e10 : FcProperty := ⟨[0, 0], 1, 0⟩

unseal Rat.mul Rat.add Rat.sub Rat.inv in
/-- Concrete check of C10 on the one-atom identity crystal. -/
theorem C10_sign_above_cutoff_witness :
    (e10 ∈ (generate_force_constant_table 1 [0] idSymm Basis.cartesian 0
          [[0, 0]] true).1 ∨
      e10 ∈ (generate_force_constant_table 1 [0] idSymm Basis.cartesian 0
          [[0, 0]] true).2.2.1) ∧
    eps12 < ratAbs e10.sign := by
  have hmem : e10 ∈ (generate_force_constant_table 1 [0] idSymm Basis.cartesian 0
      [[0, 0]] true).1 := by
    decide
  exact ⟨Or.inl hmem,
    C10_sign_above_cutoff 1 [0] idSymm Basis.cartesian 0 [[0, 0]] true
      e10 (Or.inl hmem)⟩

/-! The constraint deriver `Fcs::get_constraint_symmetry` (src/fcs.cpp:342)
and its final sort/dedup/normalize pass. -/

/-- `Fcs::is_allzero` (src/fcs.cpp:718), fused with the location
out-parameter: the index of the first element of magnitude above `tol`
(`none` when the vector is numerically all zero). -/
def is_allzero_loc : List ℚ → ℚ → ℕ → Option ℕ
  | [], _, _ => none
  | v :: rest, tol, i =>
      if tol < ratAbs v then some i else is_allzero_loc rest tol (i + 1)

/-- Modelled from the spec: the hashed lookup `list_found` uses
`FcProperty`'s equality and hash from a header outside the reviewed
sources; per the spec it maps a canonical ForceConstantIndex to its
(parameter, sign), i.e. compares entries by index tuple.  `std::unordered_set`
insertion keeps the first entry per index, so lookup is first-match. -/
def lookupFc (tbl : List FcProperty) (ind : List ℕ) : Option FcProperty :=
  tbl.find? (fun q => decide (q.elems = ind))

/-- One component-assignment step of the constraint accumulation
(src/fcs.cpp:456-469): canonicalize the mapped index, and when it is in
the lookup add `sign × coefficient` at its parameter. -/
def coeffStep (nat : ℕ) (prim : List ℕ) (tbl : List FcProperty) (rot : ℕ → ℕ → ℚ)
    (am xyz_index : List ℕ) (acc : ℕ → ℚ) (c2 : List ℕ) : ℕ → ℚ :=
  match lookupFc tbl (canonicalize nat prim (combine am c2)) with
  | some q => fun j =>
      if j = q.mother then acc j + q.sign * coef_sym rot xyz_index c2 else acc j
  | none => acc

/-- The candidate constraint row of one (entry, operation) pair
(src/fcs.cpp:446-488): `none` when the operation is skipped (no mapped
atom in the primitive cell) or the accumulated vector is numerically all
zero; otherwise the sign-normalized sparse (column, value) list. -/
def deriveRow (nat : ℕ) (prim : List ℕ) (c2s : List (List ℕ))
    (tbl : List FcProperty) (nparams : ℕ) (p : FcProperty) (s : SymOp) :
    Option (List (ℕ × ℚ)) :=
  let atm_index := p.elems.map (· / 3)
  let xyz_index := p.elems.map (· % 3)
  let am := atm_index.map s.map
  if is_inprim_atoms prim am then
    let base : ℕ → ℚ := fun j => if j = p.mother then -p.sign else 0
    let coeff := c2s.foldl (coeffStep nat prim tbl s.rot am xyz_index) base
    let vec := (List.range nparams).map coeff
    match is_allzero_loc vec eps8 0 with
    | none => none
    | some loc =>
        let coeff' := if vec.getD loc 0 < 0 then fun j => -coeff j else coeff
        some ((List.range nparams).filterMap fun j =>
          if eps8 ≤ ratAbs (coeff' j) then some (j, coeff' j) else none)
  else none

/-- Modelled from the spec: `ConstraintDoubleElement::operator<` is declared
in a header outside the reviewed sources; per the spec rows are sorted by
content, i.e. lexicographically by (column, value). -/
def cdeLtB (a b : ℕ × ℚ) : Bool :=
  decide (a.1 < b.1) || (decide (a.1 = b.1) && decide (a.2 < b.2))

/-- Lexicographic comparison of whole rows (`std::vector::operator<`). -/
def rowLeB : List (ℕ × ℚ) → List (ℕ × ℚ) → Bool
  | [], _ => true
  | _ :: _, [] => false
  | a :: l, b :: m => if cdeLtB a b then true else if cdeLtB b a then false else rowLeB l m

/-- `std::unique` on an already sorted range: drop elements equal to the
last kept one. -/
def uniqueAdjGo {α : Type _} [DecidableEq α] : α → List α → List α
  | _, [] => []
  | prev, b :: l => if b = prev then uniqueAdjGo prev l else b :: uniqueAdjGo b l

def uniqueAdj {α : Type _} [DecidableEq α] : List α → List α
  | [] => []
  | a :: l => a :: uniqueAdjGo a l

/-- Insertion into a `std::map<size_t, double>` ordered by key, replacing an
existing binding. -/
def mapInsert : List (ℕ × ℚ) → ℕ → ℚ → List (ℕ × ℚ)
  | [], k, v => [(k, v)]
  | (k', v') :: rest, k, v =>
      if k < k' then (k, v) :: (k', v') :: rest
      else if k = k' then (k, v) :: rest
      else (k', v') :: mapInsert rest k v

/-- Normalization of one surviving row (src/fcs.cpp:523-534): the division
factor is the reciprocal of the first element's value, and every element is
inserted into the output map scaled by it. -/
def normalizeRow : List (ℕ × ℚ) → List (ℕ × ℚ)
  | [] => []
  | (c, v) :: rest =>
      let f := 1 / v
      rest.foldl (fun m p => mapInsert m p.1 (p.2 * f)) (mapInsert [] c (v * f))

/-- The SparseRowCanonicalizer: sort rows by content, drop exact adjacent
duplicates, normalize each survivor (src/fcs.cpp:512-534). -/
def sparseRowCanonicalize (rows : List (List (ℕ × ℚ))) : List (List (ℕ × ℚ)) :=
  (uniqueAdj (List.insertionSort (fun a b => rowLeB a b = true) rows)).map normalizeRow

/-- `Fcs::get_constraint_symmetry` (src/fcs.cpp:342).  `rrefFn` stands for
the external sparse row-echelon reducer `rref_sparse` (rref.h, outside the
reviewed sources; the spec places it out of scope).  `const_out_prior` is
the content of the output argument `const_out` at call time: the function
returns before touching it when `nparams = 0`. -/
def get_constraint_symmetry
    (rrefFn : ℕ → List (List (ℕ × ℚ)) → ℚ → List (List (ℕ × ℚ)))
    (nat : ℕ) (prim : List ℕ) (symm : Symmetry) (order : ℕ) (basis : Basis)
    (fc_table_in : List FcProperty) (nparams : ℕ) (tolerance : ℚ)
    (const_out_prior : List (List (ℕ × ℚ))) (do_rref : Bool) :
    List (List (ℕ × ℚ)) :=
  if nparams = 0 then const_out_prior
  else
    let ops := get_available_symmop symm basis false
    let c2s := get_xyzcomponent (order + 2)
    let rows := (fc_table_in.map fun p =>
      ops.filterMap fun s => deriveRow nat prim c2s fc_table_in nparams p s).flatten
    let canon := sparseRowCanonicalize rows
    if do_rref then rrefFn nparams canon tolerance else canon

/-! Claim C8: behavior of the constraint deriver on empty inputs. -/

/-- C8 counterexample: when `numParameters = 0` the function returns before
clearing the output argument, so a caller-supplied non-empty row list is
returned unchanged, contradicting the claim that the result is empty. -/
theorem C8_nparams_zero_counterexample :
    get_constraint_symmetry (fun _ r _ => r) 1 [0] idSymm 0 Basis.cartesian [] 0 1
      [[((0 : ℕ), (1 : ℚ))]] false = [[((0 : ℕ), (1 : ℚ))]] ∧
    ([[((0 : ℕ), (1 : ℚ))]] : List (List (ℕ × ℚ))) ≠ [] :=
  ⟨rfl, by simp⟩

/-- C8 (amended): an empty entries table (with `numParameters ≠ 0`) yields
an empty row list and no error; with `numParameters = 0` the function
returns early without touching the output argument, so the result equals
whatever row list the caller supplied. -/
theorem C8_empty_inputs
    (rrefFn : ℕ → List (List (ℕ × ℚ)) → ℚ → List (List (ℕ × ℚ)))
    (nat : ℕ) (prim : List ℕ) (symm : Symmetry) (order : ℕ) (basis : Basis)
    (tbl : List FcProperty) (nparams : ℕ) (tol : ℚ)
    (prior : List (List (ℕ × ℚ))) (do_rref : Bool)
    (hrref : ∀ m t, rrefFn m [] t = []) :
    (nparams = 0 →
      get_constraint_symmetry rrefFn nat prim symm order basis tbl nparams tol prior do_rref =
        prior) ∧
    (tbl = [] → nparams ≠ 0 →
      get_constraint_symmetry rrefFn nat prim symm order basis tbl nparams tol prior do_rref =
        []) := by
  constructor
  · intro h0
    simp [get_constraint_symmetry, h0]
  · rintro rfl hnz
    rw [get_constraint_symmetry, if_neg hnz]
    show (if do_rref then rrefFn nparams (sparseRowCanonicalize []) tol
      else sparseRowCanonicalize []) = []
    have hcanon : sparseRowCanonicalize [] = [] := rfl
    rw [hcanon]
    cases do_rref
    · rfl
    · exact hrref nparams tol

theorem C8_empty_inputs_witness :
    (∀ m t, (fun (_ : ℕ) (r : List (List (ℕ × ℚ))) (_ : ℚ) => r) m [] t = []) ∧
    ((5 = 0 →
      get_constraint_symmetry (fun _ r _ => r) 1 [0] idSymm 0 Basis.cartesian [] 5 1
        [[((0 : ℕ), (1 : ℚ))]] true = [[((0 : ℕ), (1 : ℚ))]]) ∧
     (([] : List FcProperty) = [] → 5 ≠ 0 →
      get_constraint_symmetry (fun _ r _ => r) 1 [0] idSymm 0 Basis.cartesian [] 5 1
        [[((0 : ℕ), (1 : ℚ))]] true = [])) :=
  ⟨fun _ _ => rfl,
    C8_empty_inputs (fun _ r _ => r) 1 [0] idSymm 0 Basis.cartesian [] 5 1
      [[((0 : ℕ), (1 : ℚ))]] true (fun _ _ => rfl)⟩

/-! Claim C6: the sort/dedup/normalize pass. -/

/-- A rotation by the angle with cosine 4/5 about the z axis (a valid
orthogonal symmetry operation that is not a signed permutation, hence
typical of the incompatible subset fed to the constraint deriver). -/
def rotTheta : SymmDataEntry :=
  { rotation_cart := fun a b =>
      if a = 0 && b = 0 then mkRat 4 5 else if a = 0 && b = 1 then mkRat (-3) 5
      else if a = 1 && b = 0 then mkRat 3 5 else if a = 1 && b = 1 then mkRat 4 5
      else if a = 2 && b = 2 then 1 else 0,
    rotation_latt := fun _ _ => 0,
    compatible_with_cartesian := false, compatible_with_lattice := true }

/-- The rotation by the angle with cosine 3/5 (the previous angle minus a
quarter turn) about the z axis. -/
def rotPhi : SymmDataEntry :=
  { rotation_cart := fun a b =>
      if a = 0 && b = 0 then mkRat 3 5 else if a = 0 && b = 1 then mkRat 4 5
      else if a = 1 && b = 0 then mkRat (-4) 5 else if a = 1 && b = 1 then mkRat 3 5
      else if a = 2 && b = 2 then 1 else 0,
    rotation_latt := fun _ _ => 0,
    compatible_with_cartesian := false, compatible_with_lattice := true }

def symC6 : Symmetry := { SymmData := [rotTheta, rotPhi], map_sym := fun a _ => a }

/-- A small two-orbit table (a one-atom crystal, pair order): the xx and xy
force constants. -/
def tblC6 : List FcProperty := [⟨[0, 0], 1, 0⟩, ⟨[0, 1], 1, 1⟩]

unseal Rat.mul Rat.add Rat.sub Rat.inv in
/-- C6 counterexample: the dedup step compares rows before normalization,
so two proportional-but-unequal candidate rows both survive and normalize
to identical emitted rows: the full deriver output below contains each of
its two distinct rows twice. -/
theorem C6_duplicate_rows_counterexample :
    get_constraint_symmetry (fun _ r _ => r) 1 [0] symC6 0 Basis.cartesian tblC6 2 1
      [] false =
      [[(0, 1), (1, mkRat (-8) 3)], [(0, 1), (1, mkRat (-8) 3)],
       [(0, 1), (1, mkRat 3 2)], [(0, 1), (1, mkRat 3 2)]] ∧
    ¬(get_constraint_symmetry (fun _ r _ => r) 1 [0] symC6 0 Basis.cartesian tblC6 2 1
      [] false).Nodup := by
  constructor
  · decide
  · decide

theorem cdeLtB_iff (a b : ℕ × ℚ) :
    cdeLtB a b = true ↔ a.1 < b.1 ∨ (a.1 = b.1 ∧ a.2 < b.2) := by
  simp [cdeLtB]

theorem cdeLtB_resolve {a b : ℕ × ℚ} (h1 : ¬cdeLtB a b = true)
    (h2 : ¬cdeLtB b a = true) : a = b := by
  rw [cdeLtB_iff] at h1 h2
  push_neg at h1 h2
  obtain ⟨h1a, h1b⟩ := h1
  obtain ⟨h2a, h2b⟩ := h2
  have he : a.1 = b.1 := by omega
  have := h1b he
  have := h2b he.symm
  have : a.2 = b.2 := le_antisymm (by linarith) (by linarith)
  exact Prod.ext he this

theorem rowLeB_total : ∀ a b : List (ℕ × ℚ), rowLeB a b = true ∨ rowLeB b a = true := by
  intro a
  induction a with
  | nil => intro b; left; rfl
  | cons x l ih =>
      intro b
      match b with
      | [] => right; rfl
      | y :: m =>
          by_cases h1 : cdeLtB x y = true
          · left; simp [rowLeB, h1]
          · by_cases h2 : cdeLtB y x = true
            · right; simp [rowLeB, h2]
            · have hxy : x = y := cdeLtB_resolve h1 h2
              subst hxy
              rcases ih m with h | h
              · left; simp [rowLeB, h1, h]
              · right; simp [rowLeB, h1, h]

theorem rowLeB_trans : ∀ a b c : List (ℕ × ℚ),
    rowLeB a b = true → rowLeB b c = true → rowLeB a c = true := by
  intro a
  induction a with
  | nil => intro b c _ _; rfl
  | cons x l ih =>
      intro b c hab hbc
      match b, c with
      | [], _ => simp [rowLeB] at hab
      | _ :: _, [] => simp [rowLeB] at hbc
      | y :: m, z :: k =>
          simp only [rowLeB] at hab hbc ⊢
          by_cases hxy : cdeLtB x y = true <;> by_cases hyz : cdeLtB y z = true
          · have hxz : cdeLtB x z = true := by
              rw [cdeLtB_iff] at hxy hyz ⊢
              rcases hxy with h | ⟨h1, h2⟩ <;> rcases hyz with h' | ⟨h1', h2'⟩
              · exact Or.inl (by omega)
              · exact Or.inl (by omega)
              · exact Or.inl (by omega)
              · exact Or.inr ⟨by omega, by linarith⟩
            simp [hxz]
          · have hzy : ¬cdeLtB z y = true := by
              intro hc
              rw [if_neg hyz, if_pos hc] at hbc
              exact Bool.false_ne_true hbc
            have hyz' : y = z := cdeLtB_resolve hyz hzy
            subst hyz'
            simp [hxy]
          · have hyx : ¬cdeLtB y x = true := by
              intro hc
              rw [if_neg hxy, if_pos hc] at hab
              exact Bool.false_ne_true hab
            have hxy' : x = y := cdeLtB_resolve hxy hyx
            subst hxy'
            simp [hyz]
          · have hyx : ¬cdeLtB y x = true := by
              intro hc
              rw [if_neg hxy, if_pos hc] at hab
              exact Bool.false_ne_true hab
            have hzy : ¬cdeLtB z y = true := by
              intro hc
              rw [if_neg hyz, if_pos hc] at hbc
              exact Bool.false_ne_true hbc
            have e1 : x = y := cdeLtB_resolve hxy hyx
            have e2 : y = z := cdeLtB_resolve hyz hzy
            subst e1; subst e2
            rw [if_neg hxy, if_neg hxy] at hab hbc ⊢
            exact ih m k hab hbc

theorem rowLeB_antisymm : ∀ a b : List (ℕ × ℚ),
    rowLeB a b = true → rowLeB b a = true → a = b := by
  intro a
  induction a with
  | nil =>
      intro b _ hba
      match b with
      | [] => rfl
      | _ :: _ => simp [rowLeB] at hba
  | cons x l ih =>
      intro b hab hba
      match b with
      | [] => simp [rowLeB] at hab
      | y :: m =>
          simp only [rowLeB] at hab hba
          by_cases hxy : cdeLtB x y = true
          · exfalso
            have hyx : ¬cdeLtB y x = true := by
              intro hc
              rw [cdeLtB_iff] at hxy hc
              rcases hxy with h | ⟨h1, h2⟩ <;> rcases hc with h' | ⟨h1', h2'⟩ <;>
                first | omega | linarith
            rw [if_neg hyx, if_pos hxy] at hba
            exact Bool.false_ne_true hba
          · by_cases hyx : cdeLtB y x = true
            · exfalso
              rw [if_neg hxy, if_pos hyx] at hab
              exact Bool.false_ne_true hab
            · have e : x = y := cdeLtB_resolve hxy hyx
              subst e
              rw [if_neg hxy, if_neg hxy] at hab hba
              rw [ih m hab hba]

theorem uniqueAdjGo_sublist {α : Type _} [DecidableEq α] :
    ∀ (prev : α) (l : List α), (uniqueAdjGo prev l).Sublist l := by
  intro prev l
  induction l generalizing prev with
  | nil => exact List.Sublist.refl []
  | cons b l ih =>
      by_cases h : b = prev
      · rw [uniqueAdjGo, if_pos h]
        exact (ih prev).cons b
      · rw [uniqueAdjGo, if_neg h]
        exact (ih b).cons₂ b

theorem uniqueAdj_sublist {α : Type _} [DecidableEq α] (l : List α) :
    (uniqueAdj l).Sublist l := by
  match l with
  | [] => exact List.Sublist.refl []
  | a :: l => exact (uniqueAdjGo_sublist a l).cons₂ a

theorem uniqueAdjGo_chain_ne {α : Type _} [DecidableEq α] :
    ∀ (l : List α) (prev : α), List.Chain' (· ≠ ·) (prev :: uniqueAdjGo prev l) := by
  intro l
  induction l with
  | nil => intro prev; simp [uniqueAdjGo]
  | cons b l ih =>
      intro prev
      by_cases h : b = prev
      · rw [uniqueAdjGo, if_pos h]
        exact ih prev
      · rw [uniqueAdjGo, if_neg h]
        exact List.Chain'.cons (fun hc => h hc.symm) (ih b)

theorem uniqueAdj_chain_ne {α : Type _} [DecidableEq α] (l : List α) :
    List.Chain' (· ≠ ·) (uniqueAdj l) := by
  match l with
  | [] => simp [uniqueAdj]
  | a :: l => exact uniqueAdjGo_chain_ne l a

theorem chain'_and {α : Type _} {R S : α → α → Prop} :
    ∀ {l : List α}, List.Chain' R l → List.Chain' S l →
      List.Chain' (fun a b => R a b ∧ S a b) l
  | [], _, _ => by simp
  | [_], _, _ => by simp
  | a :: b :: l, h1, h2 => by
      rw [List.chain'_cons] at h1 h2 ⊢
      exact ⟨⟨h1.1, h2.1⟩, chain'_and h1.2 h2.2⟩

/-- A sorted list with adjacent duplicates removed has no duplicates at
all, for an antisymmetric transitive comparison. -/
theorem sorted_uniqueAdj_nodup {α : Type _} [DecidableEq α] {le : α → α → Bool}
    (htr : ∀ a b c, le a b = true → le b c = true → le a c = true)
    (han : ∀ a b, le a b = true → le b a = true → a = b)
    {l : List α} (hs : l.Pairwise (fun a b => le a b = true)) :
    (uniqueAdj l).Nodup := by
  have hpw : (uniqueAdj l).Pairwise (fun a b => le a b = true) :=
    hs.sublist (uniqueAdj_sublist l)
  have hch : List.Chain' (fun a b : α => le a b = true ∧ a ≠ b) (uniqueAdj l) :=
    chain'_and hpw.chain' (uniqueAdj_chain_ne l)
  haveI : IsTrans α (fun a b : α => le a b = true ∧ a ≠ b) := by
    constructor
    intro a b c hab hbc
    refine ⟨htr a b c hab.1 hbc.1, ?_⟩
    rintro rfl
    exact hab.2 (han a b hab.1 hbc.1)
  have hpw2 := List.chain'_iff_pairwise.1 hch
  exact hpw2.imp fun h => h.2

theorem mapInsert_append {m : List (ℕ × ℚ)} {k : ℕ} {v : ℚ}
    (h : ∀ x ∈ m, x.1 < k) : mapInsert m k v = m ++ [(k, v)] := by
  induction m with
  | nil => rfl
  | cons x rest ih =>
      have hx : x.1 < k := h x (by simp)
      match x with
      | (k', v') =>
          rw [mapInsert, if_neg (by simp at hx; omega), if_neg (by simp at hx; omega)]
          rw [ih fun y hy => h y (by simp [hy])]
          rfl

theorem foldl_mapInsert (f : ℚ) :
    ∀ (r acc : List (ℕ × ℚ)),
      (∀ x ∈ acc, ∀ y ∈ r, x.1 < y.1) →
      r.Pairwise (fun a b : ℕ × ℚ => a.1 < b.1) →
      r.foldl (fun m p => mapInsert m p.1 (p.2 * f)) acc =
        acc ++ r.map fun p => (p.1, p.2 * f) := by
  intro r
  induction r with
  | nil => intro acc _ _; simp
  | cons p r ih =>
      intro acc hacc hpw
      rw [List.foldl_cons]
      have hins : mapInsert acc p.1 (p.2 * f) = acc ++ [(p.1, p.2 * f)] :=
        mapInsert_append fun x hx => hacc x hx p (by simp)
      rw [hins, ih]
      · simp
      · intro x hx y hy
        rcases List.mem_append.1 hx with hx | hx
        · exact hacc x hx y (by simp [hy])
        · rcases List.mem_singleton.1 hx with rfl
          exact (List.pairwise_cons.1 hpw).1 y hy
      · exact (List.pairwise_cons.1 hpw).2

theorem normalizeRow_spec {r : List (ℕ × ℚ)} (hne : r ≠ [])
    (hpw : r.Pairwise (fun a b : ℕ × ℚ => a.1 < b.1)) (hnz : ∀ x ∈ r, x.2 ≠ 0) :
    ∃ k rest, normalizeRow r = (k, (1 : ℚ)) :: rest ∧
      (normalizeRow r).Pairwise (fun a b : ℕ × ℚ => a.1 < b.1) := by
  match r, hne with
  | (c, v) :: rest, _ =>
      have hv : v ≠ 0 := hnz (c, v) (by simp)
      have hone : v * (1 / v) = 1 := by
        field_simp
      have hbase : mapInsert [] c (v * (1 / v)) = [(c, v * (1 / v))] := rfl
      have hfold := foldl_mapInsert (1 / v) rest [(c, v * (1 / v))]
        (by
          intro x hx y hy
          rcases List.mem_singleton.1 hx with rfl
          exact (List.pairwise_cons.1 hpw).1 y hy)
        (List.pairwise_cons.1 hpw).2
      have hnorm : normalizeRow ((c, v) :: rest) =
          (c, v * (1 / v)) :: rest.map fun p => (p.1, p.2 * (1 / v)) := by
        show rest.foldl (fun m p => mapInsert m p.1 (p.2 * (1 / v)))
          (mapInsert [] c (v * (1 / v))) =
          (c, v * (1 / v)) :: rest.map fun p => (p.1, p.2 * (1 / v))
        rw [hbase, hfold]
        rfl
      refine ⟨c, rest.map fun p => (p.1, p.2 * (1 / v)), by rw [hnorm, hone], ?_⟩
      rw [hnorm, hone]
      rw [List.pairwise_cons]
      constructor
      · intro y hy
        rcases List.mem_map.1 hy with ⟨p, hp, rfl⟩
        exact (List.pairwise_cons.1 hpw).1 p hp
      · rw [List.pairwise_map]
        exact (List.pairwise_cons.1 hpw).2

/-- C6 (amended): after the sort/dedup/normalize pass, the surviving
pre-normalization rows are pairwise distinct and every emitted row — whose
elements are ordered by strictly increasing parameter column — has first
(lowest-column, hence first nonzero) coefficient exactly 1, provided each
input row is nonempty with strictly increasing columns and nonzero values
(as the deriver guarantees).  Distinct proportional input rows may still
normalize to identical emitted rows, which is what the counterexample
exhibits against the claim as stated. -/
theorem C6_canonicalize_amended (rows : List (List (ℕ × ℚ)))
    (hrows : ∀ r ∈ rows, r ≠ [] ∧ r.Pairwise (fun a b : ℕ × ℚ => a.1 < b.1) ∧
      ∀ x ∈ r, x.2 ≠ 0) :
    (uniqueAdj (List.insertionSort (fun a b => rowLeB a b = true) rows)).Nodup ∧
    ∀ out ∈ sparseRowCanonicalize rows, ∃ k rest,
      out = (k, (1 : ℚ)) :: rest ∧
      out.Pairwise (fun a b : ℕ × ℚ => a.1 < b.1) := by
  haveI hTr : IsTrans (List (ℕ × ℚ)) (fun a b => rowLeB a b = true) :=
    ⟨fun a b c => rowLeB_trans a b c⟩
  haveI hTo : IsTotal (List (ℕ × ℚ)) (fun a b => rowLeB a b = true) :=
    ⟨fun a b => rowLeB_total a b⟩
  have hsorted : (List.insertionSort (fun a b => rowLeB a b = true) rows).Pairwise
      (fun a b => rowLeB a b = true) :=
    List.sorted_insertionSort _ rows
  constructor
  · exact sorted_uniqueAdj_nodup rowLeB_trans rowLeB_antisymm hsorted
  · intro out hout
    rcases List.mem_map.1 hout with ⟨r, hr, rfl⟩
    have hrmem : r ∈ rows :=
      (List.perm_insertionSort _ rows).subset ((uniqueAdj_sublist _).subset hr)
    obtain ⟨h1, h2, h3⟩ := hrows r hrmem
    obtain ⟨k, rest, hk, hp⟩ := normalizeRow_spec h1 h2 h3
    exact ⟨k, rest, hk, hp⟩

unseal Rat.mul Rat.add Rat.sub Rat.inv in
theorem C6_canonicalize_amended_witness :
    (∀ r ∈ [[((0 : ℕ), (2 : ℚ)), (1, 3)], [((0 : ℕ), (2 : ℚ)), (1, 3)], [((1 : ℕ), (5 : ℚ))]],
      r ≠ [] ∧ r.Pairwise (fun a b : ℕ × ℚ => a.1 < b.1) ∧ ∀ x ∈ r, x.2 ≠ 0) ∧
    ((uniqueAdj (List.insertionSort (fun a b => rowLeB a b = true)
        [[((0 : ℕ), (2 : ℚ)), (1, 3)], [((0 : ℕ), (2 : ℚ)), (1, 3)],
         [((1 : ℕ), (5 : ℚ))]])).Nodup ∧
     ∀ out ∈ sparseRowCanonicalize
        [[((0 : ℕ), (2 : ℚ)), (1, 3)], [((0 : ℕ), (2 : ℚ)), (1, 3)],
         [((1 : ℕ), (5 : ℚ))]], ∃ k rest,
        out = (k, (1 : ℚ)) :: rest ∧
        out.Pairwise (fun a b : ℕ × ℚ => a.1 < b.1)) :=
  ⟨by decide,
    C6_canonicalize_amended
      [[((0 : ℕ), (2 : ℚ)), (1, 3)], [((0 : ℕ), (2 : ℚ)), (1, 3)], [((1 : ℕ), (5 : ℚ))]]
      (by decide)⟩

/-! Claim C7: an identity-only complement set yields no constraints. -/

theorem combine_div_mod (l : List ℕ) :
    combine (l.map (· / 3)) (l.map (· % 3)) = l := by
  induction l with
  | nil => rfl
  | cons v l ih =>
      simp only [List.map_cons, combine, List.zipWith_cons_cons]
      rw [show 3 * (v / 3) + v % 3 = v by omega]
      rw [show List.zipWith (fun a c => 3 * a + c) (l.map (· / 3)) (l.map (· % 3)) =
        combine (l.map (· / 3)) (l.map (· % 3)) from rfl, ih]

theorem coef_sym_identity {rot : ℕ → ℕ → ℚ}
    (hrot : ∀ a b, a < 3 → b < 3 → rot a b = if a = b then 1 else 0) :
    ∀ (xi c2 : List ℕ), xi.length = c2.length → (∀ x ∈ xi, x < 3) →
      (∀ x ∈ c2, x < 3) →
      coef_sym rot xi c2 = if c2 = xi then 1 else 0 := by
  intro xi
  induction xi with
  | nil =>
      intro c2 hlen _ _
      match c2 with
      | [] => rfl
      | _ :: _ => simp at hlen
  | cons x xi ih =>
      intro c2 hlen hx hc
      match c2 with
      | [] => simp at hlen
      | c :: c2 =>
          have hx3 : x < 3 := hx x (by simp)
          have hc3 : c < 3 := hc c (by simp)
          have hrest : coef_sym rot xi c2 = if c2 = xi then 1 else 0 :=
            ih c2 (by simpa using hlen) (fun y hy => hx y (by simp [hy]))
              (fun y hy => hc y (by simp [hy]))
          have hstep : coef_sym rot (x :: xi) (c :: c2) =
              rot c x * coef_sym rot xi c2 := by
            simp [coef_sym]
          rw [hstep, hrest, hrot c x hc3 hx3]
          by_cases hcx : c = x
          · by_cases hcc : c2 = xi
            · simp [hcx, hcc]
            · simp [hcx, hcc]
          · have : ¬(c :: c2 = x :: xi) := by simp [hcx]
            simp [hcx, this]

/-- The constraint coefficient accumulation is the base vector plus the sum
of the per-assignment contributions. -/
theorem foldl_coeffStep_sum (nat : ℕ) (prim : List ℕ) (tbl : List FcProperty)
    (rot : ℕ → ℕ → ℚ) (am xi : List ℕ) :
    ∀ (c2s : List (List ℕ)) (acc : ℕ → ℚ) (j : ℕ),
      (c2s.foldl (coeffStep nat prim tbl rot am xi) acc) j =
        acc j + (c2s.map fun c2 =>
          match lookupFc tbl (canonicalize nat prim (combine am c2)) with
          | some q => if j = q.mother then q.sign * coef_sym rot xi c2 else 0
          | none => 0).sum := by
  intro c2s
  induction c2s with
  | nil => intro acc j; simp
  | cons c2 c2s ih =>
      intro acc j
      rw [List.foldl_cons, ih, List.map_cons, List.sum_cons]
      have hstep : (coeffStep nat prim tbl rot am xi acc c2) j =
          acc j + (match lookupFc tbl (canonicalize nat prim (combine am c2)) with
            | some q => if j = q.mother then q.sign * coef_sym rot xi c2 else 0
            | none => 0) := by
        rw [coeffStep]
        match lookupFc tbl (canonicalize nat prim (combine am c2)) with
        | some q =>
            by_cases hj : j = q.mother
            · simp [hj]
            · simp [hj]
        | none => simp
      rw [hstep]
      ring

theorem map_sum_single {α : Type _} [DecidableEq α] :
    ∀ {l : List α}, l.Nodup → ∀ {x : α}, x ∈ l → ∀ (f : α → ℚ),
      (∀ y ∈ l, y ≠ x → f y = 0) → (l.map f).sum = f x := by
  intro l
  induction l with
  | nil => intro _ x hx; simp at hx
  | cons a l ih =>
      intro hnd x hx f h0
      rcases List.mem_cons.1 hx with rfl | hx
      · rw [List.map_cons, List.sum_cons]
        have : ∀ y ∈ l, f y = 0 := by
          intro y hy
          have hne : y ≠ x := by
            rintro rfl
            exact (List.nodup_cons.1 hnd).1 hy
          exact h0 y (by simp [hy]) hne
        have hz : (l.map f).sum = 0 := by
          rw [List.sum_eq_zero]
          intro q hq
          rcases List.mem_map.1 hq with ⟨y, hy, rfl⟩
          exact this y hy
        rw [hz]; ring
      · rw [List.map_cons, List.sum_cons]
        have ha : f a = 0 := by
          refine h0 a (by simp) ?_
          rintro rfl
          exact (List.nodup_cons.1 hnd).1 hx
        rw [ha, ih (List.nodup_cons.1 hnd).2 hx f
          fun y hy hne => h0 y (by simp [hy]) hne]
        ring

theorem is_allzero_loc_none {tol : ℚ} :
    ∀ (vec : List ℚ) (i : ℕ), (∀ v ∈ vec, ¬tol < ratAbs v) →
      is_allzero_loc vec tol i = none := by
  intro vec
  induction vec with
  | nil => intro i _; rfl
  | cons v vec ih =>
      intro i h
      rw [is_allzero_loc, if_neg (h v (by simp))]
      exact ih (i + 1) fun w hw => h w (by simp [hw])

theorem flatten_eq_nil {α : Type _} :
    ∀ {l : List (List α)}, (∀ x ∈ l, x = []) → l.flatten = [] := by
  intro l
  induction l with
  | nil => intro _; rfl
  | cons x l ih =>
      intro h
      rw [List.flatten_cons, h x (by simp), ih fun y hy => h y (by simp [hy])]
      rfl

/-- In a table satisfying the builder invariant, looking up the canonical
form of any entry's index finds an entry with the same sign and parameter
id. -/
theorem lookup_coherent {nat : ℕ} {prim : List ℕ} {tbl : List FcProperty}
    {p : FcProperty}
    (hJ0 : ∀ e ∈ tbl, ∀ v ∈ e.elems, v < 3 * nat)
    (hJ1 : ∀ e ∈ tbl, canonicalize nat prim e.elems = e.elems ∨
      ((∃ v ∈ e.elems, is_inprim_idx prim v = true) ∧
        ∃ e' ∈ tbl, canonicalize nat prim e'.elems = e'.elems ∧
          List.Perm e'.elems e.elems ∧ e'.sign = e.sign ∧ e'.mother = e.mother))
    (hJ2 : ∀ e1 ∈ tbl, ∀ e2 ∈ tbl, canonicalize nat prim e1.elems = e1.elems →
      e1.elems = e2.elems → e1.sign = e2.sign ∧ e1.mother = e2.mother)
    (hp : p ∈ tbl) :
    ∃ q, lookupFc tbl (canonicalize nat prim p.elems) = some q ∧
      q.sign = p.sign ∧ q.mother = p.mother := by
  have hexists : ∃ e0 ∈ tbl, e0.elems = canonicalize nat prim p.elems ∧
      e0.sign = p.sign ∧ e0.mother = p.mother := by
    rcases hJ1 p hp with hfix | ⟨hpr, e', he', hfix', hperm, hs, hm⟩
    · exact ⟨p, hp, hfix.symm, rfl, rfl⟩
    · have hsm' : ∀ v ∈ e'.elems, v < 3 * nat := hJ0 e' he'
      have hpr' : ∃ v ∈ e'.elems, is_inprim_idx prim v = true := by
        rcases hpr with ⟨v, hv, hvp⟩
        exact ⟨v, hperm.mem_iff.2 hv, hvp⟩
      have := canonicalize_congr_perm hsm' hpr' hperm
      rw [hfix'] at this
      exact ⟨e', he', this, hs, hm⟩
  obtain ⟨e0, he0, he0e, he0s, he0m⟩ := hexists
  have hfound : (tbl.find? fun q => decide (q.elems = canonicalize nat prim p.elems)).isSome := by
    rw [List.find?_isSome]
    exact ⟨e0, he0, by simp [he0e]⟩
  obtain ⟨q, hq⟩ := Option.isSome_iff_exists.1 hfound
  refine ⟨q, hq, ?_⟩
  have hqe : q.elems = canonicalize nat prim p.elems := by
    have := List.find?_some hq
    simpa using this
  have hqmem : q ∈ tbl := List.mem_of_find?_eq_some hq
  have hfix0 : canonicalize nat prim e0.elems = e0.elems := by
    rw [he0e]
    exact canonicalize_idem nat prim p.elems
  have := hJ2 e0 he0 q hqmem hfix0 (by rw [he0e, hqe])
  rw [← he0s, ← he0m]
  exact ⟨this.1.symm, this.2.symm⟩

/-- One (entry, identity operation) pair contributes no constraint row: the
lookup term at the entry's own index cancels the seeded `-sign` exactly. -/
theorem deriveRow_identity_none {nat : ℕ} {prim : List ℕ} {order : ℕ}
    {tbl : List FcProperty} {nparams : ℕ} {p : FcProperty} {s0 : SymOp}
    (hrot : ∀ a b, a < 3 → b < 3 → s0.rot a b = if a = b then 1 else 0)
    (hmap : ∀ a, a < nat → s0.map a = a)
    (hplen : p.elems.length = order + 2)
    (hpsm : ∀ v ∈ p.elems, v < 3 * nat)
    (hlook : ∃ q, lookupFc tbl (canonicalize nat prim p.elems) = some q ∧
      q.sign = p.sign ∧ q.mother = p.mother) :
    deriveRow nat prim (get_xyzcomponent (order + 2)) tbl nparams p s0 = none := by
  have ham : (p.elems.map (· / 3)).map s0.map = p.elems.map (· / 3) := by
    rw [List.map_map]
    apply List.map_congr_left
    intro v hv
    have : v / 3 < nat := by have := hpsm v hv; omega
    exact hmap _ this
  simp only [deriveRow]
  by_cases hin : is_inprim_atoms prim ((p.elems.map (· / 3)).map s0.map) = true
  · rw [if_pos hin]
    have hxi_len : (p.elems.map (· % 3)).length = order + 2 := by
      rw [List.length_map]; exact hplen
    have hxi_lt : ∀ x ∈ p.elems.map (· % 3), x < 3 := by
      intro x hx
      rcases List.mem_map.1 hx with ⟨v, _, rfl⟩
      omega
    have hxi_mem : p.elems.map (· % 3) ∈ get_xyzcomponent (order + 2) :=
      get_xyzcomponent_complete hxi_len hxi_lt
    obtain ⟨q, hq, hqs, hqm⟩ := hlook
    have hcoeff : ∀ j, ((get_xyzcomponent (order + 2)).foldl
        (coeffStep nat prim tbl s0.rot ((p.elems.map (· / 3)).map s0.map)
          (p.elems.map (· % 3)))
        (fun j => if j = p.mother then -p.sign else 0)) j = 0 := by
      intro j
      rw [foldl_coeffStep_sum]
      have hsum : ((get_xyzcomponent (order + 2)).map fun c2 =>
          match lookupFc tbl (canonicalize nat prim
            (combine ((p.elems.map (· / 3)).map s0.map) c2)) with
          | some q' => if j = q'.mother then q'.sign * coef_sym s0.rot
              (p.elems.map (· % 3)) c2 else 0
          | none => 0).sum =
          (if j = p.mother then p.sign else 0) := by
        rw [map_sum_single (get_xyzcomponent_nodup (order + 2)) hxi_mem]
        · rw [ham, combine_div_mod, hq]
          have hone : coef_sym s0.rot (p.elems.map (· % 3)) (p.elems.map (· % 3)) = 1 := by
            rw [coef_sym_identity hrot _ _ rfl hxi_lt hxi_lt]
            simp
          show (if j = q.mother then q.sign *
              coef_sym s0.rot (p.elems.map (· % 3)) (p.elems.map (· % 3)) else 0) =
            if j = p.mother then p.sign else 0
          rw [hone, hqm, hqs]
          by_cases hj : j = p.mother
          · simp [hj]
          · simp [hj]
        · intro c2 hc2 hne
          have hc2m := get_xyzcomponent_mem hc2
          have hzero : coef_sym s0.rot (p.elems.map (· % 3)) c2 = 0 := by
            rw [coef_sym_identity hrot _ _ (by rw [hxi_len, hc2m.1]) hxi_lt hc2m.2]
            simp [hne]
          match lookupFc tbl (canonicalize nat prim
            (combine ((p.elems.map (· / 3)).map s0.map) c2)) with
          | some q' => simp [hzero]
          | none => rfl
      rw [hsum]
      by_cases hj : j = p.mother
      · simp [hj]
      · simp [hj]
    have hvec : is_allzero_loc ((List.range nparams).map
        ((get_xyzcomponent (order + 2)).foldl
          (coeffStep nat prim tbl s0.rot ((p.elems.map (· / 3)).map s0.map)
            (p.elems.map (· % 3)))
          (fun j => if j = p.mother then -p.sign else 0))) eps8 0 = none := by
      apply is_allzero_loc_none
      intro v hv
      rcases List.mem_map.1 hv with ⟨j, _, rfl⟩
      rw [hcoeff j]
      have : ratAbs 0 = 0 := rfl
      rw [this]
      norm_num [eps8]
    rw [hvec]
  · rw [if_neg hin]

/-- C7: if the complement symmetry set given to the constraint deriver
contains only the identity operation, `get_constraint_symmetry` returns an
empty row list for any finalized table produced by the orbit builder and
any `numParameters` (with the output argument supplied fresh, i.e. empty). -/
theorem C7_identity_complement
    (rrefFn : ℕ → List (List (ℕ × ℚ)) → ℚ → List (List (ℕ × ℚ)))
    (nat : ℕ) (prim : List ℕ) (symm symm2 : Symmetry) (basis basis2 : Basis)
    (order : ℕ) (pairs : List (List ℕ)) (store : Bool)
    (nparams : ℕ) (tol : ℚ) (do_rref : Bool) (s0 : SymOp)
    (hpl : ∀ p ∈ pairs, p.length = order + 2)
    (hpa : ∀ p ∈ pairs, ∀ a ∈ p, a < nat)
    (hops : ∀ s ∈ get_available_symmop symm basis true, ∀ a, a < nat → s.map a < nat)
    (hcomp : get_available_symmop symm2 basis2 false = [s0])
    (hrot : ∀ a b, a < 3 → b < 3 → s0.rot a b = if a = b then 1 else 0)
    (hmap : ∀ a, a < nat → s0.map a = a)
    (hrref : ∀ m t, rrefFn m [] t = []) :
    get_constraint_symmetry rrefFn nat prim symm2 order basis2
      (generate_force_constant_table nat prim symm basis order pairs store).1
      nparams tol [] do_rref = [] := by
  by_cases hnp : nparams = 0
  · simp [get_constraint_symmetry, hnp]
  · obtain ⟨hJ0, hJ1, hJ2⟩ :=
      buildRun_master nat prim (get_available_symmop symm basis true) order pairs store
        hpl hpa hops
    have htbl : (generate_force_constant_table nat prim symm basis order pairs store).1 =
        sortFcBlocks (buildRun nat prim (get_available_symmop symm basis true)
          order pairs store).ndup
          (buildRun nat prim (get_available_symmop symm basis true) order pairs store).fcs :=
      rfl
    have hmemiff : ∀ e, e ∈ (generate_force_constant_table nat prim symm basis order
        pairs store).1 ↔
        e ∈ (buildRun nat prim (get_available_symmop symm basis true) order pairs store).fcs := by
      intro e
      rw [htbl]
      exact (sortFcBlocks_perm _ _).mem_iff
    have hnone : ∀ p ∈ (generate_force_constant_table nat prim symm basis order pairs store).1,
        deriveRow nat prim (get_xyzcomponent (order + 2))
          (generate_force_constant_table nat prim symm basis order pairs store).1
          nparams p s0 = none := by
      intro p hp
      refine deriveRow_identity_none hrot hmap ?_ ?_ ?_
      · exact (hJ0 p ((hmemiff p).1 hp)).1
      · exact (hJ0 p ((hmemiff p).1 hp)).2
      · refine lookup_coherent (fun e he => (hJ0 e ((hmemiff e).1 he)).2) ?_ ?_ hp
        · intro e he
          rcases hJ1 e ((hmemiff e).1 he) with ⟨h1, _⟩ | ⟨_, h2, e', he', h3⟩
          · exact Or.inl h1
          · exact Or.inr ⟨h2, e', (hmemiff e').2 he', h3⟩
        · intro e1 he1 e2 he2 hf he
          exact hJ2 e1 ((hmemiff e1).1 he1) e2 ((hmemiff e2).1 he2) hf he
    simp only [get_constraint_symmetry]
    rw [if_neg hnp, hcomp]
    have hrows : ((generate_force_constant_table nat prim symm basis order pairs store).1.map
        fun p => ([s0].filterMap fun s => deriveRow nat prim
          (get_xyzcomponent (order + 2))
          (generate_force_constant_table nat prim symm basis order pairs store).1
          nparams p s)).flatten = [] := by
      apply flatten_eq_nil
      intro x hx
      rcases List.mem_map.1 hx with ⟨p, hp, rfl⟩
      rw [List.filterMap_cons, hnone p hp]
      rfl
    rw [hrows]
    show (if do_rref then rrefFn nparams (sparseRowCanonicalize []) tol
      else sparseRowCanonicalize []) = []
    cases do_rref
    · rfl
    · exact hrref nparams tol

/-- The identity operation marked incompatible with the Cartesian basis, so
that it lands in the complement subset used by the constraint deriver. -/
def idSymmEntryIncompat : SymmDataEntry :=
  { rotation_cart := fun a b => if a = b then 1 else 0,
    rotation_latt := fun a b => if a = b then 1 else 0,
    compatible_with_cartesian := false, compatible_with_lattice := true }

def idSymmIncompat : Symmetry :=
  { SymmData := [idSymmEntryIncompat], map_sym := fun a _ => a }

def s0C7 : SymOp :=
  { rot := fun a b => if a = b then 1 else 0, map := fun a => a }

unseal Rat.mul Rat.add Rat.sub Rat.inv in
theorem C7_identity_complement_witness :
    (∀ p ∈ ([[0, 0]] : List (List ℕ)), p.length = 0 + 2) ∧
    (∀ p ∈ ([[0, 0]] : List (List ℕ)), ∀ a ∈ p, a < 1) ∧
    (∀ s ∈ get_available_symmop idSymm Basis.cartesian true, ∀ a, a < 1 → s.map a < 1) ∧
    get_available_symmop idSymmIncompat Basis.cartesian false = [s0C7] ∧
    (∀ a b, a < 3 → b < 3 → s0C7.rot a b = if a = b then 1 else 0) ∧
    (∀ a, a < 1 → s0C7.map a = a) ∧
    (∀ m t, (fun (_ : ℕ) (r : List (List (ℕ × ℚ))) (_ : ℚ) => r) m [] t = []) ∧
    get_constraint_symmetry (fun _ r _ => r) 1 [0] idSymmIncompat 0 Basis.cartesian
      (generate_force_constant_table 1 [0] idSymm Basis.cartesian 0 [[0, 0]] true).1
      5 1 [] false = [] :=
  ⟨by decide, by decide, by decide, rfl, fun _ _ _ _ => rfl, by decide, fun _ _ => rfl,
    C7_identity_complement (fun _ r _ => r) 1 [0] idSymm idSymmIncompat
      Basis.cartesian Basis.cartesian 0 [[0, 0]] true 5 1 false s0C7
      (by decide) (by decide) (by decide) rfl (fun _ _ _ _ => rfl) (by decide)
      (fun _ _ => rfl)⟩

/-! C2: orbit closure under the compatible symmetry operations. -/

/-- A two-atom crystal whose second operation exchanges the two atoms with
an identity rotation block (a pure translation): only atom 0 spans the
primitive cell. -/
def swapSymmEntry : SymmDataEntry :=
  { rotation_cart := fun a b => if a = b then 1 else 0,
    rotation_latt := fun a b => if a = b then 1 else 0,
    compatible_with_cartesian := true, compatible_with_lattice := true }

def symSwap : Symmetry :=
  { SymmData := [idSymmEntry, swapSymmEntry],
    map_sym := fun a i =>
      if i = 1 then (if a = 0 then 1 else if a = 1 then 0 else a) else a }

/-- The atom-exchanging operation as the builder extracts it. -/
def swapOp : SymOp :=
  { rot := fun a b => if a = b then 1 else 0,
    map := fun a => if a = 0 then 1 else if a = 1 then 0 else a }

theorem symSwap_ops :
    get_available_symmop symSwap Basis.cartesian true =
      [{ rot := fun a b => if a = b then (1 : ℚ) else 0, map := fun a => a },
       swapOp] := by
  rfl

unseal Rat.mul Rat.add Rat.sub Rat.inv in
/-- C2 counterexample to the unconditioned claim: on the two-atom swap
crystal with primitive cell `{0}` and the single cluster `[0,0]`, the entry
`⟨[0,0], 1, 0⟩` sits in a non-zero orbit and the atom-exchanging operation
is in the compatible subset with rotation coefficient 1, yet its group
action sends the index `[0,0]` to the canonicalized index `[3,3]`, which is
the index of no entry of the table at all: the scan skipped the operation
because it maps no atom of the cluster into the primitive cell. -/
theorem C2_orbit_closure_counterexample :
    swapOp ∈ get_available_symmop symSwap Basis.cartesian true ∧
    (⟨[0, 0], 1, 0⟩ : FcProperty) ∈
      (generate_force_constant_table 2 [0] symSwap Basis.cartesian 0 [[0, 0]] true).1 ∧
    eps12 < ratAbs (coef_sym swapOp.rot [0, 0] [0, 0]) ∧
    canonicalize 2 [0]
      (combine ((([0, 0] : List ℕ).map (· / 3)).map swapOp.map)
        (([0, 0] : List ℕ).map (· % 3))) = [3, 3] ∧
    ∀ e ∈ (generate_force_constant_table 2 [0] symSwap Basis.cartesian 0 [[0, 0]] true).1,
      e.elems ≠ [3, 3] := by
  refine ⟨?_, by decide, by decide, by decide, by decide⟩
  rw [symSwap_ops]
  exact List.mem_cons_of_mem _ (List.mem_singleton.2 rfl)

/-! Signed-permutation structure of rotation blocks, and the induced group
action on canonical indices (src/fcs.cpp:230-266). -/

/-- The row of the (unique, for a signed-permutation matrix) nonzero entry
in column `b` of a 3x3 rotation block. -/
def permOf (r : ℕ → ℕ → ℚ) (b : ℕ) : ℕ :=
  (((List.range 3).find? fun a => decide (r a b ≠ 0))).getD 0

/-- The value of that entry. -/
def sgnOf (r : ℕ → ℕ → ℚ) (b : ℕ) : ℚ := r (permOf r b) b

/-- A 3x3 block is a signed permutation: every column holds one entry of
value 1 or -1 and zeros elsewhere, distinct columns hitting distinct
rows. -/
def IsSignedPerm (r : ℕ → ℕ → ℚ) : Prop :=
  (∀ b, b < 3 → (sgnOf r b = 1 ∨ sgnOf r b = -1) ∧
    ∀ a, a < 3 → a ≠ permOf r b → r a b = 0) ∧
  ∀ b, b < 3 → ∀ b', b' < 3 → b ≠ b' → permOf r b ≠ permOf r b'

instance (r : ℕ → ℕ → ℚ) : Decidable (IsSignedPerm r) := by
  unfold IsSignedPerm
  infer_instance

theorem permOf_lt (r : ℕ → ℕ → ℚ) (b : ℕ) : permOf r b < 3 := by
  unfold permOf
  cases hf : (List.range 3).find? fun a => decide (r a b ≠ 0) with
  | none => simp
  | some a =>
      have := List.mem_of_find?_eq_some hf
      simp only [List.mem_range] at this
      simpa using this

theorem rot_eq_zero_of_ne {r : ℕ → ℕ → ℚ} (hsp : IsSignedPerm r) {a b : ℕ}
    (hb : b < 3) (ha : a < 3) (hne : a ≠ permOf r b) : r a b = 0 :=
  (hsp.1 b hb).2 a ha hne

theorem sgnOf_ne_zero {r : ℕ → ℕ → ℚ} (hsp : IsSignedPerm r) {b : ℕ} (hb : b < 3) :
    sgnOf r b ≠ 0 := by
  rcases (hsp.1 b hb).1 with h | h <;> rw [h] <;> norm_num

theorem eq_permOf_of_ne_zero {r : ℕ → ℕ → ℚ} (hsp : IsSignedPerm r) {a b : ℕ}
    (hb : b < 3) (ha : a < 3) (hnz : r a b ≠ 0) : a = permOf r b := by
  by_contra hne
  exact hnz (rot_eq_zero_of_ne hsp hb ha hne)

/-- The product of the signs the rotation block contributes along a
component tuple. -/
def chi (r : ℕ → ℕ → ℚ) (xi : List ℕ) : ℚ := (xi.map fun x => sgnOf r x).prod

theorem chi_cases {r : ℕ → ℕ → ℚ} (hsp : IsSignedPerm r) :
    ∀ {xi : List ℕ}, (∀ x ∈ xi, x < 3) → chi r xi = 1 ∨ chi r xi = -1 := by
  intro xi
  induction xi with
  | nil => intro _; left; simp [chi]
  | cons x xi ih =>
      intro h
      have hx := (hsp.1 x (h x (by simp))).1
      have ht := ih fun y hy => h y (by simp [hy])
      simp only [chi, List.map_cons, List.prod_cons] at ht ⊢
      rcases hx with hx | hx <;> rcases ht with ht | ht <;> rw [hx, ht] <;> norm_num

theorem chi_above_cutoff {r : ℕ → ℕ → ℚ} (hsp : IsSignedPerm r) {xi : List ℕ}
    (h : ∀ x ∈ xi, x < 3) : eps12 < ratAbs (chi r xi) := by
  rcases chi_cases hsp h with hc | hc <;> rw [hc] <;> norm_num [ratAbs, eps12]

theorem chi_ne_zero {r : ℕ → ℕ → ℚ} (hsp : IsSignedPerm r) {xi : List ℕ}
    (h : ∀ x ∈ xi, x < 3) : chi r xi ≠ 0 := by
  rcases chi_cases hsp h with hc | hc <;> rw [hc] <;> norm_num

theorem chi_congr_perm {r : ℕ → ℕ → ℚ} {xi xi' : List ℕ} (h : List.Perm xi xi') :
    chi r xi = chi r xi' :=
  (h.map fun x => sgnOf r x).prod_eq

theorem coef_sym_eq_chi {r : ℕ → ℕ → ℚ} :
    ∀ (xi : List ℕ), coef_sym r xi (xi.map (permOf r)) = chi r xi := by
  intro xi
  induction xi with
  | nil => rfl
  | cons x xi ih =>
      have hstep : coef_sym r (x :: xi) ((x :: xi).map (permOf r)) =
          r (permOf r x) x * coef_sym r xi (xi.map (permOf r)) := by
        simp [coef_sym, List.zip_cons_cons]
      rw [hstep, ih]
      simp [chi, sgnOf]

theorem coef_sym_ne_zero_iff {r : ℕ → ℕ → ℚ} (hsp : IsSignedPerm r) :
    ∀ (xi c2 : List ℕ), xi.length = c2.length → (∀ x ∈ xi, x < 3) →
      (∀ x ∈ c2, x < 3) →
      (coef_sym r xi c2 ≠ 0 ↔ c2 = xi.map (permOf r)) := by
  intro xi
  induction xi with
  | nil =>
      intro c2 hlen _ _
      match c2 with
      | [] => simp [coef_sym]
      | c :: c2 => simp at hlen
  | cons x xi ih =>
      intro c2 hlen hx hc
      match c2 with
      | [] => simp at hlen
      | c :: c2 =>
          have hiff := ih c2 (by simpa using hlen) (fun y hy => hx y (by simp [hy]))
            (fun y hy => hc y (by simp [hy]))
          have hstep : coef_sym r (x :: xi) (c :: c2) = r c x * coef_sym r xi c2 := by
            simp [coef_sym, List.zip_cons_cons]
          rw [hstep]
          constructor
          · intro hne
            rcases mul_ne_zero_iff.1 hne with ⟨h1, h2⟩
            have hcx : c = permOf r x :=
              eq_permOf_of_ne_zero hsp (hx x (by simp)) (hc c (by simp)) h1
            rw [List.map_cons, hcx, hiff.1 h2]
          · intro heq
            rw [List.map_cons] at heq
            injection heq with h1 h2
            rw [h1]
            refine mul_ne_zero ?_ (hiff.2 h2)
            exact sgnOf_ne_zero hsp (hx x (by simp))

theorem eps12_lt_abs_ne_zero {c : ℚ} (h : eps12 < ratAbs c) : c ≠ 0 := by
  intro hc
  rw [hc] at h
  norm_num [ratAbs, eps12] at h

/-- The matrix-product relation on 3x3 rotation blocks: `u = t * s`. -/
def MatMulEq (u t s : SymOp) : Prop :=
  ∀ a, a < 3 → ∀ c, c < 3 →
    u.rot a c = t.rot a 0 * s.rot 0 c + t.rot a 1 * s.rot 1 c + t.rot a 2 * s.rot 2 c

instance (u t s : SymOp) : Decidable (MatMulEq u t s) := by
  unfold MatMulEq
  infer_instance

/-- The left-inverse relation on rotation blocks: `v * s = 1`. -/
def RotInvEq (v s : SymOp) : Prop :=
  ∀ a, a < 3 → ∀ c, c < 3 →
    v.rot a 0 * s.rot 0 c + v.rot a 1 * s.rot 1 c + v.rot a 2 * s.rot 2 c =
      if a = c then 1 else 0

instance (v s : SymOp) : Decidable (RotInvEq v s) := by
  unfold RotInvEq
  infer_instance

theorem triple_sum_single (f g : ℕ → ℚ) (k : ℕ) (hk : k < 3)
    (hz : ∀ j, j < 3 → j ≠ k → g j = 0) :
    f 0 * g 0 + f 1 * g 1 + f 2 * g 2 = f k * g k := by
  interval_cases k
  · rw [hz 1 (by norm_num) (by norm_num), hz 2 (by norm_num) (by norm_num)]; ring
  · rw [hz 0 (by norm_num) (by norm_num), hz 2 (by norm_num) (by norm_num)]; ring
  · rw [hz 0 (by norm_num) (by norm_num), hz 1 (by norm_num) (by norm_num)]; ring

theorem matmul_entry {u t s : SymOp} (hm : MatMulEq u t s) (hss : IsSignedPerm s.rot)
    {a c : ℕ} (ha : a < 3) (hc : c < 3) :
    u.rot a c = t.rot a (permOf s.rot c) * sgnOf s.rot c := by
  rw [hm a ha c hc]
  exact triple_sum_single (fun j => t.rot a j) (fun j => s.rot j c) _
    (permOf_lt _ _) (fun j hj hne => rot_eq_zero_of_ne hss hc hj hne)

theorem permOf_comp {u t s : SymOp} (hm : MatMulEq u t s)
    (hss : IsSignedPerm s.rot) (hst : IsSignedPerm t.rot) (hsu : IsSignedPerm u.rot)
    {c : ℕ} (hc : c < 3) :
    permOf u.rot c = permOf t.rot (permOf s.rot c) ∧
    sgnOf u.rot c = sgnOf t.rot (permOf s.rot c) * sgnOf s.rot c := by
  have hk : permOf s.rot c < 3 := permOf_lt _ _
  have ha : permOf t.rot (permOf s.rot c) < 3 := permOf_lt _ _
  have hval : u.rot (permOf t.rot (permOf s.rot c)) c =
      sgnOf t.rot (permOf s.rot c) * sgnOf s.rot c := by
    rw [matmul_entry hm hss ha hc]; rfl
  have hnz : u.rot (permOf t.rot (permOf s.rot c)) c ≠ 0 := by
    rw [hval]
    exact mul_ne_zero (sgnOf_ne_zero hst hk) (sgnOf_ne_zero hss hc)
  have hpe : permOf t.rot (permOf s.rot c) = permOf u.rot c :=
    eq_permOf_of_ne_zero hsu hc ha hnz
  refine ⟨hpe.symm, ?_⟩
  show u.rot (permOf u.rot c) c = _
  rw [← hpe, hval]

theorem chi_comp {u t s : SymOp} (hm : MatMulEq u t s)
    (hss : IsSignedPerm s.rot) (hst : IsSignedPerm t.rot) (hsu : IsSignedPerm u.rot) :
    ∀ (xi : List ℕ), (∀ x ∈ xi, x < 3) →
      chi u.rot xi = chi t.rot (xi.map (permOf s.rot)) * chi s.rot xi := by
  intro xi
  induction xi with
  | nil => intro _; simp [chi]
  | cons x xi ih =>
      intro h
      have hx := (permOf_comp hm hss hst hsu (h x (by simp))).2
      have ht := ih fun y hy => h y (by simp [hy])
      simp only [chi, List.map_cons, List.prod_cons] at ht ⊢
      rw [hx, ht]
      ring

theorem permOf_inv {v s : SymOp} (hi : RotInvEq v s)
    (hss : IsSignedPerm s.rot) (hsv : IsSignedPerm v.rot) {c : ℕ} (hc : c < 3) :
    permOf v.rot (permOf s.rot c) = c ∧
    sgnOf v.rot (permOf s.rot c) * sgnOf s.rot c = 1 := by
  have hk : permOf s.rot c < 3 := permOf_lt _ _
  have h2 : v.rot c 0 * s.rot 0 c + v.rot c 1 * s.rot 1 c + v.rot c 2 * s.rot 2 c
      = v.rot c (permOf s.rot c) * sgnOf s.rot c :=
    triple_sum_single (fun j => v.rot c j) (fun j => s.rot j c) _ hk
      (fun j hj hne => rot_eq_zero_of_ne hss hc hj hne)
  have hval : v.rot c (permOf s.rot c) * sgnOf s.rot c = 1 := by
    rw [← h2]
    have h1 := hi c hc c hc
    rwa [if_pos rfl] at h1
  have hnz : v.rot c (permOf s.rot c) ≠ 0 := left_ne_zero_of_mul_eq_one hval
  have hce : c = permOf v.rot (permOf s.rot c) :=
    eq_permOf_of_ne_zero hsv hk hc hnz
  refine ⟨hce.symm, ?_⟩
  have hsg : sgnOf v.rot (permOf s.rot c) = v.rot c (permOf s.rot c) := by
    show v.rot (permOf v.rot (permOf s.rot c)) (permOf s.rot c) = _
    rw [← hce]
  rw [hsg]
  exact hval

/-- The slotwise group action on one combined index (src/fcs.cpp:234-239):
map the atom, permute the component along the rotation's nonzero
pattern. -/
def actIdx (s : SymOp) (v : ℕ) : ℕ := 3 * s.map (v / 3) + permOf s.rot (v % 3)

/-- The group action on an index tuple followed by re-canonicalization. -/
def actC (nat : ℕ) (prim : List ℕ) (s : SymOp) (m : List ℕ) : List ℕ :=
  canonicalize nat prim (m.map (actIdx s))

theorem actIdx_div (s : SymOp) (v : ℕ) : actIdx s v / 3 = s.map (v / 3) := by
  unfold actIdx
  have := permOf_lt s.rot (v % 3)
  omega

theorem actIdx_mod (s : SymOp) (v : ℕ) : actIdx s v % 3 = permOf s.rot (v % 3) := by
  unfold actIdx
  have := permOf_lt s.rot (v % 3)
  omega

theorem actIdx_combine {s : SymOp} {a c : ℕ} (hc : c < 3) :
    actIdx s (3 * a + c) = 3 * s.map a + permOf s.rot c := by
  unfold actIdx
  rw [show (3 * a + c) / 3 = a by omega, show (3 * a + c) % 3 = c by omega]

theorem map_actIdx_combine {s : SymOp} :
    ∀ (l c2 : List ℕ), (∀ x ∈ c2, x < 3) →
      (combine l c2).map (actIdx s) = combine (l.map s.map) (c2.map (permOf s.rot)) := by
  intro l
  induction l with
  | nil => intro c2 _; simp [combine]
  | cons a l ih =>
      intro c2 h
      match c2 with
      | [] => simp [combine]
      | c :: c2 =>
          simp only [combine, List.map_cons, List.zipWith_cons_cons]
          rw [actIdx_combine (h c (by simp))]
          congr 1
          exact ih c2 fun x hx => h x (by simp [hx])

theorem div_map_actIdx (s : SymOp) (L : List ℕ) :
    (L.map (actIdx s)).map (· / 3) = (L.map (· / 3)).map s.map := by
  rw [List.map_map, List.map_map]
  exact List.map_congr_left fun v _ => actIdx_div s v

theorem mod_map_actIdx (s : SymOp) (L : List ℕ) :
    (L.map (actIdx s)).map (· % 3) = (L.map (· % 3)).map (permOf s.rot) := by
  rw [List.map_map, List.map_map]
  exact List.map_congr_left fun v _ => actIdx_mod s v

theorem combine_mem_of_mem_left : ∀ {l1 l2 : List ℕ}, l1.length = l2.length →
    ∀ a ∈ l1, ∃ c ∈ l2, 3 * a + c ∈ combine l1 l2 := by
  intro l1
  induction l1 with
  | nil => intro l2 _ a ha; simp at ha
  | cons b l1 ih =>
      intro l2 hlen a ha
      match l2 with
      | [] => simp at hlen
      | c :: l2 =>
          rcases List.mem_cons.1 ha with rfl | ha
          · refine ⟨c, by simp, ?_⟩
            simp only [combine, List.zipWith_cons_cons]
            exact List.mem_cons_self _ _
          · rcases ih (by simpa using hlen) a ha with ⟨c', hc', hm⟩
            refine ⟨c', by simp [hc'], ?_⟩
            simp only [combine, List.zipWith_cons_cons]
            exact List.mem_cons_of_mem _ hm

/-- Primitive-cell touch of an atom tuple transfers along permutation. -/
theorem inprim_atoms_of_perm {prim : List ℕ} {l l' : List ℕ}
    (hperm : List.Perm l l') (h : is_inprim_atoms prim l = true) :
    is_inprim_atoms prim l' = true := by
  simp only [is_inprim_atoms, List.any_eq_true] at h ⊢
  rcases h with ⟨a, ha, hp⟩
  exact ⟨a, hperm.subset ha, hp⟩

/-- A value-level primitive witness from an atom-level one, for lists of
combined indices. -/
theorem exists_prim_idx_of_atoms {prim : List ℕ} {L : List ℕ}
    (h : is_inprim_atoms prim (L.map (· / 3)) = true) :
    ∃ v ∈ L, is_inprim_idx prim v = true := by
  simp only [is_inprim_atoms, List.any_eq_true] at h
  rcases h with ⟨a, ha, hp⟩
  rcases List.mem_map.1 ha with ⟨v, hv, rfl⟩
  exact ⟨v, hv, hp⟩

theorem inprim_atoms_of_exists {prim : List ℕ} {L : List ℕ}
    (h : ∃ v ∈ L, is_inprim_idx prim v = true) :
    is_inprim_atoms prim (L.map (· / 3)) = true := by
  rcases h with ⟨v, hv, hp⟩
  simp only [is_inprim_atoms, List.any_eq_true]
  exact ⟨v / 3, List.mem_map_of_mem _ hv, hp⟩

/-- The scan's mapped-and-recanonicalized index is the group action applied
to the candidate's canonical index. -/
theorem scan_image_eq_actC {nat : ℕ} {prim : List ℕ} {s : SymOp}
    {pair c2x : List ℕ}
    (hlen : pair.length = c2x.length)
    (hxl : ∀ x ∈ c2x, x < 3)
    (hpa : ∀ a ∈ pair, a < nat)
    (hmap : ∀ a, a < nat → s.map a < nat)
    (hin : is_inprim_atoms prim (pair.map s.map) = true) :
    canonicalize nat prim (combine (pair.map s.map) (c2x.map (permOf s.rot))) =
      actC nat prim s (canonicalize nat prim (combine pair c2x)) := by
  have hA : (combine pair c2x).map (actIdx s) =
      combine (pair.map s.map) (c2x.map (permOf s.rot)) :=
    map_actIdx_combine pair c2x hxl
  have hperm : List.Perm ((combine pair c2x).map (actIdx s))
      ((canonicalize nat prim (combine pair c2x)).map (actIdx s)) :=
    ((canonicalize_perm nat prim (combine pair c2x)).map (actIdx s)).symm
  have hsm : ∀ v ∈ (combine pair c2x).map (actIdx s), v < 3 * nat := by
    intro v hv
    rcases List.mem_map.1 hv with ⟨w, hw, rfl⟩
    rcases mem_combine hw with ⟨a, ha, c, hc, rfl⟩
    rw [actIdx_combine (hxl c hc)]
    have h1 := hmap a (hpa a ha)
    have h2 := permOf_lt s.rot c
    omega
  have hp : ∃ v ∈ (combine pair c2x).map (actIdx s), is_inprim_idx prim v = true := by
    rw [hA]
    simp only [is_inprim_atoms, List.any_eq_true] at hin
    rcases hin with ⟨mb, hmb, hmbp⟩
    have hlen2 : (pair.map s.map).length = (c2x.map (permOf s.rot)).length := by
      simp [hlen]
    rcases combine_mem_of_mem_left hlen2 mb hmb with ⟨c, hc, hmem⟩
    rcases List.mem_map.1 hc with ⟨c0, _, rfl⟩
    refine ⟨3 * mb + permOf s.rot c0, hmem, ?_⟩
    have := permOf_lt s.rot c0
    simp only [is_inprim_idx]
    rw [show (3 * mb + permOf s.rot c0) / 3 = mb by omega]
    exact hmbp
  have hmain := canonicalize_congr_perm hsm hp hperm
  rw [← hA, hmain]
  rfl

theorem actC_comp {nat : ℕ} {prim : List ℕ} {u t s : SymOp}
    (hm : MatMulEq u t s) (hmap : ∀ a, a < nat → u.map a = t.map (s.map a))
    (hss : IsSignedPerm s.rot) (hst : IsSignedPerm t.rot) (hsu : IsSignedPerm u.rot)
    {m : List ℕ} (hsm : ∀ v ∈ m, v < 3 * nat)
    (hsmap : ∀ a, a < nat → s.map a < nat) (htmap : ∀ a, a < nat → t.map a < nat)
    (hp : ∃ v ∈ m.map (actIdx u), is_inprim_idx prim v = true) :
    actC nat prim t (actC nat prim s m) = actC nat prim u m := by
  have hpt : ∀ v ∈ m, actIdx t (actIdx s v) = actIdx u v := by
    intro v hv
    have hv3 : v / 3 < nat := by have := hsm v hv; omega
    have hvm : v % 3 < 3 := Nat.mod_lt _ (by norm_num)
    show 3 * t.map (actIdx s v / 3) + permOf t.rot (actIdx s v % 3) = actIdx u v
    rw [actIdx_div, actIdx_mod, ← hmap _ hv3,
      ← (permOf_comp hm hss hst hsu hvm).1]
    rfl
  have hmapeq : (m.map (actIdx s)).map (actIdx t) = m.map (actIdx u) := by
    rw [List.map_map]
    exact List.map_congr_left fun v hv => hpt v hv
  show canonicalize nat prim ((canonicalize nat prim (m.map (actIdx s))).map (actIdx t))
      = canonicalize nat prim (m.map (actIdx u))
  have hperm : List.Perm (m.map (actIdx u))
      ((canonicalize nat prim (m.map (actIdx s))).map (actIdx t)) := by
    rw [← hmapeq]
    exact ((canonicalize_perm nat prim (m.map (actIdx s))).map (actIdx t)).symm
  have hsmu : ∀ v ∈ m.map (actIdx u), v < 3 * nat := by
    intro v hv
    rcases List.mem_map.1 hv with ⟨w, hw, rfl⟩
    show 3 * u.map (w / 3) + permOf u.rot (w % 3) < 3 * nat
    have h1 : w / 3 < nat := by have := hsm w hw; omega
    have h2 : u.map (w / 3) = t.map (s.map (w / 3)) := hmap _ h1
    have h3 : t.map (s.map (w / 3)) < nat := htmap _ (hsmap _ h1)
    have := permOf_lt u.rot (w % 3)
    omega
  exact (canonicalize_congr_perm hsmu hp hperm).symm

theorem actC_inv_fix {nat : ℕ} {prim : List ℕ} {v s : SymOp}
    (hi : RotInvEq v s) (him : ∀ a, a < nat → v.map (s.map a) = a)
    (hss : IsSignedPerm s.rot) (hsv : IsSignedPerm v.rot)
    {m : List ℕ} (hsm : ∀ w ∈ m, w < 3 * nat)
    (hfix : canonicalize nat prim m = m)
    (hp : ∃ w ∈ m, is_inprim_idx prim w = true) :
    actC nat prim v (actC nat prim s m) = m := by
  have hpt : ∀ w ∈ m, actIdx v (actIdx s w) = w := by
    intro w hw
    have h3 : w / 3 < nat := by have := hsm w hw; omega
    have hm3 : w % 3 < 3 := Nat.mod_lt _ (by norm_num)
    show 3 * v.map (actIdx s w / 3) + permOf v.rot (actIdx s w % 3) = w
    rw [actIdx_div, actIdx_mod, him _ h3, (permOf_inv hi hss hsv hm3).1]
    omega
  have hmapeq : (m.map (actIdx s)).map (actIdx v) = m := by
    rw [List.map_map]
    calc m.map (actIdx v ∘ actIdx s)
        = m.map id := List.map_congr_left fun w hw => hpt w hw
      _ = m := List.map_id m
  show canonicalize nat prim ((canonicalize nat prim (m.map (actIdx s))).map (actIdx v)) = m
  have hperm0 : List.Perm ((m.map (actIdx s)).map (actIdx v))
      ((canonicalize nat prim (m.map (actIdx s))).map (actIdx v)) :=
    ((canonicalize_perm nat prim (m.map (actIdx s))).map (actIdx v)).symm
  rw [hmapeq] at hperm0
  rw [← canonicalize_congr_perm hsm hp hperm0]
  exact hfix

theorem scanStep_found_mono (nat : ℕ) (prim : List ℕ) (rot : ℕ → ℕ → ℚ)
    (am xyz1 ind : List ℕ) (mo : ℕ) (st : ScanState) (c2 : List ℕ) {m : List ℕ}
    (h : m ∈ st.found) : m ∈ (scanStep nat prim rot am xyz1 ind mo st c2).found := by
  rcases scanStep_cases nat prim rot am xyz1 ind mo st c2 with
    heq | ⟨_, ⟨_, heq⟩ | ⟨_, heq⟩⟩ <;> rw [heq] <;> simp [h]

theorem scanOp_found_mono (nat : ℕ) (prim : List ℕ) (c2s : List (List ℕ))
    (pair xyz1 ind : List ℕ) (mo : ℕ) (st : ScanState) (s : SymOp) {m : List ℕ}
    (h : m ∈ st.found) : m ∈ (scanOp nat prim c2s pair xyz1 ind mo st s).found := by
  rcases scanOp_cases nat prim c2s pair xyz1 ind mo st s with ⟨_, heq⟩ | ⟨_, heq⟩
  · rw [heq]; exact h
  · rw [heq]
    exact foldl_inv (P := fun sc : ScanState => m ∈ sc.found) h
      fun st' c2 _ h' => scanStep_found_mono nat prim s.rot _ xyz1 ind mo st' c2 h'

theorem scanStep_result_found (nat : ℕ) (prim : List ℕ) (rot : ℕ → ℕ → ℚ)
    (am xyz1 ind : List ℕ) (mo : ℕ) (st : ScanState) (c2 : List ℕ)
    (hc : eps12 < ratAbs (coef_sym rot xyz1 c2)) :
    canonicalize nat prim (combine am c2) ∈
      (scanStep nat prim rot am xyz1 ind mo st c2).found := by
  by_cases hm : canonicalize nat prim (combine am c2) ∈ st.found
  · simp [scanStep, hc, hm]
  · simp [scanStep, hc, hm]

/-- If some allowed operation and component assignment map the candidate's
canonical index to itself with a coefficient within `eps8` of -1, the scan
raises the symmetry-zero flag. -/
theorem scan_iszero_of_trigger (nat : ℕ) (prim : List ℕ) (ops : List SymOp)
    (c2s : List (List ℕ)) (pair xyz1 ind : List ℕ) (mo : ℕ) (found : List (List ℕ))
    (s : SymOp) (hs : s ∈ ops) (hin : is_inprim_atoms prim (pair.map s.map) = true)
    (c2 : List ℕ) (hc2 : c2 ∈ c2s)
    (him : ind = canonicalize nat prim (combine (pair.map s.map) c2))
    (hcl : ratAbs (coef_sym s.rot xyz1 c2 + 1) < eps8) :
    (scanCandidate nat prim ops c2s pair xyz1 ind mo found).iszero = true := by
  unfold scanCandidate
  refine foldl_flag _ (fun sc : ScanState => sc.iszero = true) s hs
    (fun st x _ h => scanOp_iszero_mono nat prim c2s pair xyz1 ind mo st x h) ?_
  intro st
  rcases scanOp_cases nat prim c2s pair xyz1 ind mo st s with ⟨hf, _⟩ | ⟨_, heq⟩
  · rw [hin] at hf; cases hf
  · rw [heq]
    refine foldl_flag _ (fun sc : ScanState => sc.iszero = true) c2 hc2
      (fun st' x _ h => scanStep_iszero_mono nat prim s.rot _ xyz1 ind mo st' x h) ?_
    intro st'
    exact scanStep_iszero_trigger nat prim s.rot _ xyz1 ind mo st' c2 him hcl

/-- Completeness of the per-candidate scan: the image of the canonical
index under every allowed operation that touches the primitive cell lands
in the dedup set. -/
theorem scan_found_complete (nat : ℕ) (prim : List ℕ) (ops : List SymOp)
    (c2s : List (List ℕ)) (pair xyz1 ind : List ℕ) (mo : ℕ) (found₀ : List (List ℕ))
    (hxlen : xyz1.length = pair.length) (hxlt : ∀ x ∈ xyz1, x < 3)
    (hc2c : ∀ l : List ℕ, l.length = pair.length → (∀ x ∈ l, x < 3) → l ∈ c2s)
    (hpa : ∀ a ∈ pair, a < nat)
    (hind : ind = canonicalize nat prim (combine pair xyz1))
    (u : SymOp) (hu : u ∈ ops) (husp : IsSignedPerm u.rot)
    (humap : ∀ a, a < nat → u.map a < nat)
    (hin : is_inprim_atoms prim (pair.map u.map) = true) :
    actC nat prim u ind ∈
      (scanCandidate nat prim ops c2s pair xyz1 ind mo found₀).found := by
  have hc2x : xyz1.map (permOf u.rot) ∈ c2s := by
    refine hc2c _ (by simp [hxlen]) ?_
    intro x hx
    rcases List.mem_map.1 hx with ⟨y, _, rfl⟩
    exact permOf_lt _ _
  unfold scanCandidate
  refine foldl_flag _ (fun sc : ScanState => actC nat prim u ind ∈ sc.found) u hu
    (fun st s _ h => scanOp_found_mono nat prim c2s pair xyz1 ind mo st s h) ?_
  intro st
  rcases scanOp_cases nat prim c2s pair xyz1 ind mo st u with ⟨hf, _⟩ | ⟨_, heq⟩
  · rw [hin] at hf; cases hf
  · rw [heq]
    refine foldl_flag _ (fun sc : ScanState => actC nat prim u ind ∈ sc.found)
      (xyz1.map (permOf u.rot)) hc2x
      (fun st' c2 _ h => scanStep_found_mono nat prim u.rot _ xyz1 ind mo st' c2 h) ?_
    intro st'
    have hcoef : coef_sym u.rot xyz1 (xyz1.map (permOf u.rot)) = chi u.rot xyz1 :=
      coef_sym_eq_chi xyz1
    have hres := scanStep_result_found nat prim u.rot (pair.map u.map) xyz1 ind mo st'
      (xyz1.map (permOf u.rot)) (by rw [hcoef]; exact chi_above_cutoff husp hxlt)
    have himg : canonicalize nat prim
        (combine (pair.map u.map) (xyz1.map (permOf u.rot))) = actC nat prim u ind := by
      rw [hind]
      exact scan_image_eq_actC hxlen.symm hxlt hpa humap hin
    rwa [himg] at hres

/-- Provenance of scan results: every member of the dedup set after the
scan was either already there or is the group-action image of the
candidate's canonical index under some allowed operation, with a batch
entry carrying exactly the accumulated sign product. -/
def ScanActInv (nat : ℕ) (prim : List ℕ) (ops : List SymOp) (pair xyz1 ind : List ℕ)
    (found₀ : List (List ℕ)) (st : ScanState) : Prop :=
  ∀ m ∈ st.found, m ∈ found₀ ∨
    ∃ u ∈ ops, is_inprim_atoms prim (pair.map u.map) = true ∧
      m = actC nat prim u ind ∧
      ∃ e ∈ st.batch, e.elems = m ∧ e.sign = chi u.rot xyz1

theorem scanCandidate_act_inv (nat : ℕ) (prim : List ℕ) (ops : List SymOp)
    (c2s : List (List ℕ)) (pair xyz1 ind : List ℕ) (mo : ℕ) (found₀ : List (List ℕ))
    (hxlen : xyz1.length = pair.length) (hxlt : ∀ x ∈ xyz1, x < 3)
    (hc2m : ∀ c2 ∈ c2s, c2.length = pair.length ∧ ∀ x ∈ c2, x < 3)
    (hpa : ∀ a ∈ pair, a < nat)
    (hind : ind = canonicalize nat prim (combine pair xyz1))
    (hops_sp : ∀ s ∈ ops, IsSignedPerm s.rot)
    (hops_map : ∀ s ∈ ops, ∀ a, a < nat → s.map a < nat) :
    ScanActInv nat prim ops pair xyz1 ind found₀
      (scanCandidate nat prim ops c2s pair xyz1 ind mo found₀) := by
  unfold scanCandidate
  apply foldl_inv (P := ScanActInv nat prim ops pair xyz1 ind found₀)
  · intro m hm; exact Or.inl hm
  · intro st s hs hP
    rcases scanOp_cases nat prim c2s pair xyz1 ind mo st s with ⟨_, heq⟩ | ⟨hin, heq⟩
    · rw [heq]; exact hP
    · rw [heq]
      refine foldl_inv (P := ScanActInv nat prim ops pair xyz1 ind found₀) hP ?_
      intro st' c2 hc2 hQ
      rcases scanStep_cases nat prim s.rot (pair.map s.map) xyz1 ind mo st' c2 with
        heq' | ⟨hc, ⟨hmem, heq'⟩ | ⟨hmem, heq'⟩⟩
      · rw [heq']; exact hQ
      · rw [heq']; exact hQ
      · rw [heq']
        intro m hm
        have hcne : coef_sym s.rot xyz1 c2 ≠ 0 := eps12_lt_abs_ne_zero hc
        have hc2eq : c2 = xyz1.map (permOf s.rot) :=
          (coef_sym_ne_zero_iff (hops_sp s hs) xyz1 c2
            (by rw [(hc2m c2 hc2).1, hxlen]) hxlt (hc2m c2 hc2).2).1 hcne
        have himg : canonicalize nat prim (combine (pair.map s.map) c2)
            = actC nat prim s ind := by
          rw [hc2eq, hind]
          exact scan_image_eq_actC hxlen.symm hxlt hpa (hops_map s hs) hin
        rcases List.mem_cons.1 hm with rfl | hm
        · right
          refine ⟨s, hs, hin, himg, ?_⟩
          refine ⟨⟨canonicalize nat prim (combine (pair.map s.map) c2),
            coef_sym s.rot xyz1 c2, mo⟩,
            List.mem_append_right _ (List.mem_cons_self _ _), rfl, ?_⟩
          rw [hc2eq]
          exact coef_sym_eq_chi xyz1
        · rcases hQ m hm with h0 | ⟨u, hu, hinu, hmu, e, he, he1, he2⟩
          · exact Or.inl h0
          · exact Or.inr ⟨u, hu, hinu, hmu, e, List.mem_append_left _ he, he1, he2⟩

theorem combine_comps : ∀ (l c2 : List ℕ), l.length = c2.length →
    (∀ x ∈ c2, x < 3) → (combine l c2).map (· % 3) = c2 := by
  intro l
  induction l with
  | nil =>
      intro c2 h _
      match c2 with
      | [] => rfl
      | _ :: _ => simp at h
  | cons a l ih =>
      intro c2 h hv
      match c2 with
      | [] => simp at h
      | c :: c2 =>
          have hc : c < 3 := hv c (by simp)
          simp only [combine, List.zipWith_cons_cons, List.map_cons]
          rw [show (3 * a + c) % 3 = c by omega]
          congr 1
          exact ih c2 (by simpa using h) fun x hx => hv x (by simp [hx])

/-- Shape facts about a candidate's canonical index: it is a canonical
fixed point, small, its atoms and components permute the cluster and the
assignment, and it touches the primitive cell. -/
theorem ind_facts (nat : ℕ) (prim : List ℕ) {pair xyz1 ind : List ℕ}
    (hxlen : xyz1.length = pair.length) (hxlt : ∀ x ∈ xyz1, x < 3)
    (hpa : ∀ a ∈ pair, a < nat) (hprim : ∃ a ∈ pair, isPrimAtom prim a = true)
    (hind : ind = canonicalize nat prim (combine pair xyz1)) :
    canonicalize nat prim ind = ind ∧ (∀ v ∈ ind, v < 3 * nat) ∧
    List.Perm (ind.map (· / 3)) pair ∧ List.Perm (ind.map (· % 3)) xyz1 ∧
    ∃ v ∈ ind, is_inprim_idx prim v = true := by
  subst hind
  have hperm := canonicalize_perm nat prim (combine pair xyz1)
  refine ⟨canonicalize_idem nat prim _, ?_, ?_, ?_, ?_⟩
  · intro v hv
    rcases mem_combine (hperm.subset hv) with ⟨a, ha, c, hc, rfl⟩
    have h1 := hpa a ha
    have h2 := hxlt c hc
    omega
  · have h := hperm.map (· / 3)
    rwa [combine_atoms pair xyz1 hxlen.symm hxlt] at h
  · have h := hperm.map (· % 3)
    rwa [combine_comps pair xyz1 hxlen.symm hxlt] at h
  · rcases hprim with ⟨a, ha, hap⟩
    rcases combine_mem_of_mem_left hxlen.symm a ha with ⟨c, hc, hm⟩
    refine ⟨3 * a + c, hperm.symm.subset hm, ?_⟩
    have : c < 3 := hxlt c hc
    simp only [is_inprim_idx]
    rw [show (3 * a + c) / 3 = a by omega]
    exact hap

/-- Shape facts about a group-action image of a small index tuple. -/
theorem image_facts (nat : ℕ) (prim : List ℕ) (u : SymOp) {ind : List ℕ}
    (hsm : ∀ v ∈ ind, v < 3 * nat) (humap : ∀ a, a < nat → u.map a < nat) :
    (∀ v ∈ actC nat prim u ind, v < 3 * nat) ∧
    List.Perm ((actC nat prim u ind).map (· / 3)) ((ind.map (· / 3)).map u.map) ∧
    List.Perm ((actC nat prim u ind).map (· % 3))
      ((ind.map (· % 3)).map (permOf u.rot)) ∧
    (actC nat prim u ind).length = ind.length := by
  have hperm : List.Perm (actC nat prim u ind) (ind.map (actIdx u)) :=
    canonicalize_perm nat prim _
  refine ⟨?_, ?_, ?_, ?_⟩
  · intro v hv
    rcases List.mem_map.1 (hperm.subset hv) with ⟨w, hw, rfl⟩
    show 3 * u.map (w / 3) + permOf u.rot (w % 3) < 3 * nat
    have h1 : w / 3 < nat := by have := hsm w hw; omega
    have h2 := humap _ h1
    have h3 := permOf_lt u.rot (w % 3)
    omega
  · have h := hperm.map (· / 3)
    rwa [div_map_actIdx] at h
  · have h := hperm.map (· % 3)
    rwa [mod_map_actIdx] at h
  · rw [hperm.length_eq, List.length_map]

/-- A primitive-cell witness inside the slotwise image, from primitive
touch of the mapped cluster. -/
theorem image_hasPrim {prim : List ℕ} {u : SymOp} {ind pair : List ℕ}
    (hap : List.Perm (ind.map (· / 3)) pair)
    (hin : is_inprim_atoms prim (pair.map u.map) = true) :
    ∃ v ∈ ind.map (actIdx u), is_inprim_idx prim v = true := by
  refine exists_prim_idx_of_atoms ?_
  rw [div_map_actIdx]
  exact inprim_atoms_of_perm (hap.map u.map).symm hin

theorem scan_found_subset (nat : ℕ) (prim : List ℕ) (ops : List SymOp)
    (c2s : List (List ℕ)) (pair xyz1 ind : List ℕ) (mo : ℕ)
    (found₀ : List (List ℕ)) :
    ∀ m ∈ found₀, m ∈ (scanCandidate nat prim ops c2s pair xyz1 ind mo found₀).found := by
  intro m hm
  unfold scanCandidate
  exact foldl_inv (P := fun sc : ScanState => m ∈ sc.found) hm
    fun st s _ h => scanOp_found_mono nat prim c2s pair xyz1 ind mo st s h

/-- Shape invariant of the dedup set: members are canonical fixed points of
the right length, small, touching the primitive cell. -/
def FoundGood (nat : ℕ) (prim : List ℕ) (n : ℕ) (found : List (List ℕ)) : Prop :=
  ∀ m ∈ found, canonicalize nat prim m = m ∧ m.length = n ∧
    (∀ v ∈ m, v < 3 * nat) ∧ ∃ v ∈ m, is_inprim_idx prim v = true

/-- Closure invariant of the dedup set under the group action of every
allowed operation that keeps a primitive-cell touch. -/
def C2Closed (nat : ℕ) (prim : List ℕ) (ops : List SymOp)
    (found : List (List ℕ)) : Prop :=
  ∀ m ∈ found, ∀ t ∈ ops,
    is_inprim_atoms prim ((m.map (· / 3)).map t.map) = true →
      actC nat prim t m ∈ found

/-- The orbit-closure property of a table: canonical entries are closed
under the allowed group actions within their own orbit, with multiplicative
signs. -/
def OrbitClosure (nat : ℕ) (prim : List ℕ) (ops : List SymOp)
    (fcs : List FcProperty) : Prop :=
  ∀ e ∈ fcs, canonicalize nat prim e.elems = e.elems →
    ∀ t ∈ ops, is_inprim_atoms prim ((e.elems.map (· / 3)).map t.map) = true →
      ∃ e2 ∈ fcs, e2.mother = e.mother ∧
        e2.elems = actC nat prim t e.elems ∧
        e2.sign = chi t.rot (e.elems.map (· % 3)) * e.sign

/-- If the image of a fresh candidate's canonical index under an allowed
operation were already in a closed dedup set, the candidate itself would
be: the inverse operation pulls the image back. -/
theorem ind_mem_of_image_mem (nat : ℕ) (prim : List ℕ) (ops : List SymOp)
    {pair xyz1 ind : List ℕ} {found₀ : List (List ℕ)} {u : SymOp}
    (hxlen : xyz1.length = pair.length) (hxlt : ∀ x ∈ xyz1, x < 3)
    (hpa : ∀ a ∈ pair, a < nat) (hprim : ∃ a ∈ pair, isPrimAtom prim a = true)
    (hind : ind = canonicalize nat prim (combine pair xyz1))
    (hops_sp : ∀ s ∈ ops, IsSignedPerm s.rot)
    (hinv : ∀ s ∈ ops, ∃ v ∈ ops, RotInvEq v s ∧ ∀ a, a < nat → v.map (s.map a) = a)
    (humap : ∀ a, a < nat → u.map a < nat)
    (hu : u ∈ ops)
    (hK : C2Closed nat prim ops found₀)
    (himg : actC nat prim u ind ∈ found₀) : ind ∈ found₀ := by
  obtain ⟨hfix, hsm, hap, hcp, hpv⟩ := ind_facts nat prim hxlen hxlt hpa hprim hind
  obtain ⟨hsmI, hapI, hcpI, _⟩ := image_facts nat prim u hsm humap
  obtain ⟨v, hv, hvrot, hvmap⟩ := hinv u hu
  have hpoint : ((ind.map (· / 3)).map u.map).map v.map = ind.map (· / 3) := by
    rw [List.map_map]
    have hpt : ∀ a ∈ ind.map (· / 3), (v.map ∘ u.map) a = a := by
      intro a ha
      rcases List.mem_map.1 ha with ⟨w, hw, rfl⟩
      have hlt : w / 3 < nat := by have := hsm w hw; omega
      exact hvmap _ hlt
    rw [List.map_congr_left hpt, List.map_id']
  have hinv_atoms : List.Perm (((actC nat prim u ind).map (· / 3)).map v.map) pair := by
    refine (hapI.map v.map).trans ?_
    rw [hpoint]
    exact hap
  have hpair_in : is_inprim_atoms prim pair = true := by
    simp only [is_inprim_atoms, List.any_eq_true]
    exact hprim
  have hKim := hK _ himg v hv (inprim_atoms_of_perm hinv_atoms.symm hpair_in)
  have hfin : actC nat prim v (actC nat prim u ind) = ind :=
    actC_inv_fix hvrot hvmap (hops_sp u hu) (hops_sp v hv) hsm hfix hpv
  rwa [hfin] at hKim

/-- When the scan ends with the symmetry-zero flag down, every allowed
operation stabilizing the candidate's canonical index carries sign product
+1: a -1 product would have tripped the `|c+1| < eps8` self-map test. -/
theorem chi_stabilizer_one (nat : ℕ) (prim : List ℕ) (ops : List SymOp)
    (c2s : List (List ℕ)) (pair xyz1 ind : List ℕ) (mo : ℕ)
    (found₀ : List (List ℕ))
    (hxlen : xyz1.length = pair.length) (hxlt : ∀ x ∈ xyz1, x < 3)
    (hc2c : ∀ l : List ℕ, l.length = pair.length → (∀ x ∈ l, x < 3) → l ∈ c2s)
    (hpa : ∀ a ∈ pair, a < nat)
    (hind : ind = canonicalize nat prim (combine pair xyz1))
    (hops_sp : ∀ s ∈ ops, IsSignedPerm s.rot)
    (hz : (scanCandidate nat prim ops c2s pair xyz1 ind mo found₀).iszero = false)
    (w : SymOp) (hw : w ∈ ops) (hwmap : ∀ a, a < nat → w.map a < nat)
    (hwin : is_inprim_atoms prim (pair.map w.map) = true)
    (hfix : actC nat prim w ind = ind) : chi w.rot xyz1 = 1 := by
  rcases chi_cases (hops_sp w hw) hxlt with h1 | h1
  · exact h1
  exfalso
  have hc2x : xyz1.map (permOf w.rot) ∈ c2s := by
    refine hc2c _ (by simp [hxlen]) ?_
    intro x hx
    rcases List.mem_map.1 hx with ⟨y, _, rfl⟩
    exact permOf_lt _ _
  have himg : ind = canonicalize nat prim
      (combine (pair.map w.map) (xyz1.map (permOf w.rot))) := by
    rw [show canonicalize nat prim (combine (pair.map w.map) (xyz1.map (permOf w.rot)))
        = actC nat prim w (canonicalize nat prim (combine pair xyz1)) from
      scan_image_eq_actC hxlen.symm hxlt hpa hwmap hwin, ← hind, hfix]
  have hcl : ratAbs (coef_sym w.rot xyz1 (xyz1.map (permOf w.rot)) + 1) < eps8 := by
    rw [coef_sym_eq_chi, h1]
    norm_num [ratAbs, eps8]
  have htrig := scan_iszero_of_trigger nat prim ops c2s pair xyz1 ind mo found₀
    w hw hwin _ hc2x himg hcl
  rw [hz] at htrig
  cases htrig

/-- Two allowed operations sending the candidate's canonical index to the
same image carry the same sign product, provided the orbit was not flagged
symmetry-zero: their difference stabilizes the index with sign +1. -/
theorem scan_sign_consistent (nat : ℕ) (prim : List ℕ) (ops : List SymOp)
    (c2s : List (List ℕ)) (pair xyz1 ind : List ℕ) (mo : ℕ)
    (found₀ : List (List ℕ))
    (hxlen : xyz1.length = pair.length) (hxlt : ∀ x ∈ xyz1, x < 3)
    (hc2c : ∀ l : List ℕ, l.length = pair.length → (∀ x ∈ l, x < 3) → l ∈ c2s)
    (hpa : ∀ a ∈ pair, a < nat)
    (hprim : ∃ a ∈ pair, isPrimAtom prim a = true)
    (hind : ind = canonicalize nat prim (combine pair xyz1))
    (hops_sp : ∀ s ∈ ops, IsSignedPerm s.rot)
    (hops_map : ∀ s ∈ ops, ∀ a, a < nat → s.map a < nat)
    (hgroup : ∀ t ∈ ops, ∀ s ∈ ops, ∃ u ∈ ops, MatMulEq u t s ∧
      ∀ a, a < nat → u.map a = t.map (s.map a))
    (hinv : ∀ s ∈ ops, ∃ v ∈ ops, RotInvEq v s ∧ ∀ a, a < nat → v.map (s.map a) = a)
    (hz : (scanCandidate nat prim ops c2s pair xyz1 ind mo found₀).iszero = false)
    {u1 u' : SymOp} (hu1 : u1 ∈ ops) (hu' : u' ∈ ops)
    (hin1 : is_inprim_atoms prim (pair.map u1.map) = true)
    (hin' : is_inprim_atoms prim (pair.map u'.map) = true)
    (heq : actC nat prim u1 ind = actC nat prim u' ind) :
    chi u1.rot xyz1 = chi u'.rot xyz1 := by
  obtain ⟨hfix, hsm, hap, hcp, hpv⟩ := ind_facts nat prim hxlen hxlt hpa hprim hind
  have hpair_in : is_inprim_atoms prim pair = true := by
    simp only [is_inprim_atoms, List.any_eq_true]
    exact hprim
  obtain ⟨v1, hv1, hv1rot, hv1map⟩ := hinv u1 hu1
  obtain ⟨x, hx, hxmm, hxmap⟩ := hgroup v1 hv1 u1 hu1
  obtain ⟨w, hw, hwmm, hwmap⟩ := hgroup v1 hv1 u' hu'
  have hxid : ∀ a, a < nat → x.map a = a := fun a ha => by
    rw [hxmap a ha, hv1map a ha]
  have hatoms_perm : List.Perm ((ind.map (· / 3)).map u1.map)
      ((ind.map (· / 3)).map u'.map) := by
    have h1 := (image_facts nat prim u1 hsm (hops_map u1 hu1)).2.1
    have h2 := (image_facts nat prim u' hsm (hops_map u' hu')).2.1
    exact h1.symm.trans (by rw [heq]; exact h2)
  have hxin : is_inprim_atoms prim (pair.map x.map) = true := by
    have hmapid : pair.map x.map = pair := by
      have hpt : ∀ a ∈ pair, x.map a = a := fun a ha => hxid a (hpa a ha)
      rw [List.map_congr_left hpt, List.map_id']
    rw [hmapid]
    exact hpair_in
  have hxfix : actC nat prim x ind = ind := by
    have hcomp : actC nat prim v1 (actC nat prim u1 ind) = actC nat prim x ind :=
      actC_comp hxmm hxmap (hops_sp u1 hu1) (hops_sp v1 hv1) (hops_sp x hx)
        hsm (hops_map u1 hu1) (hops_map v1 hv1) (image_hasPrim hap hxin)
    rw [← hcomp]
    exact actC_inv_fix hv1rot hv1map (hops_sp u1 hu1) (hops_sp v1 hv1) hsm hfix hpv
  have hchix : chi x.rot xyz1 = 1 :=
    chi_stabilizer_one nat prim ops c2s pair xyz1 ind mo found₀ hxlen hxlt hc2c
      hpa hind hops_sp hz x hx (hops_map x hx) hxin hxfix
  have hwin : is_inprim_atoms prim (pair.map w.map) = true := by
    have e1 : pair.map w.map = (pair.map u'.map).map v1.map := by
      rw [List.map_map]
      exact List.map_congr_left fun a ha => hwmap a (hpa a ha)
    have e2 : List.Perm ((pair.map u'.map).map v1.map)
        ((pair.map u1.map).map v1.map) := by
      refine List.Perm.map v1.map ?_
      have p1 : List.Perm (pair.map u'.map) ((ind.map (· / 3)).map u'.map) :=
        (hap.map u'.map).symm
      have p2 : List.Perm ((ind.map (· / 3)).map u1.map) (pair.map u1.map) :=
        hap.map u1.map
      exact (p1.trans hatoms_perm.symm).trans p2
    have e3 : (pair.map u1.map).map v1.map = pair := by
      rw [List.map_map]
      have hpt : ∀ a ∈ pair, (v1.map ∘ u1.map) a = a := fun a ha =>
        hv1map a (hpa a ha)
      rw [List.map_congr_left hpt, List.map_id']
    have e4 : List.Perm ((pair.map u1.map).map v1.map) pair := by rw [e3]
    have hsteps : List.Perm (pair.map w.map) pair := by
      rw [e1]
      exact e2.trans e4
    exact inprim_atoms_of_perm hsteps.symm hpair_in
  have hwfix : actC nat prim w ind = ind := by
    have hcomp : actC nat prim v1 (actC nat prim u' ind) = actC nat prim w ind :=
      actC_comp hwmm hwmap (hops_sp u' hu') (hops_sp v1 hv1) (hops_sp w hw)
        hsm (hops_map u' hu') (hops_map v1 hv1) (image_hasPrim hap hwin)
    rw [← hcomp, ← heq]
    exact actC_inv_fix hv1rot hv1map (hops_sp u1 hu1) (hops_sp v1 hv1) hsm hfix hpv
  have hchiw : chi w.rot xyz1 = 1 :=
    chi_stabilizer_one nat prim ops c2s pair xyz1 ind mo found₀ hxlen hxlt hc2c
      hpa hind hops_sp hz w hw (hops_map w hw) hwin hwfix
  have hcomps : List.Perm (xyz1.map (permOf u1.rot)) (xyz1.map (permOf u'.rot)) := by
    have h1 := (image_facts nat prim u1 hsm (hops_map u1 hu1)).2.2.1
    have h2 := (image_facts nat prim u' hsm (hops_map u' hu')).2.2.1
    have hx1 : List.Perm ((ind.map (· % 3)).map (permOf u1.rot))
        ((ind.map (· % 3)).map (permOf u'.rot)) :=
      h1.symm.trans (by rw [heq]; exact h2)
    have t1 : List.Perm (xyz1.map (permOf u1.rot))
        ((ind.map (· % 3)).map (permOf u1.rot)) :=
      (hcp.map (permOf u1.rot)).symm
    have t2 : List.Perm ((ind.map (· % 3)).map (permOf u'.rot))
        (xyz1.map (permOf u'.rot)) :=
      hcp.map (permOf u'.rot)
    exact (t1.trans hx1).trans t2
  have hx_eq : chi v1.rot (xyz1.map (permOf u1.rot)) * chi u1.rot xyz1 = 1 := by
    rw [← chi_comp hxmm (hops_sp u1 hu1) (hops_sp v1 hv1) (hops_sp x hx) xyz1 hxlt]
    exact hchix
  have hw_eq : chi v1.rot (xyz1.map (permOf u'.rot)) * chi u'.rot xyz1 = 1 := by
    rw [← chi_comp hwmm (hops_sp u' hu') (hops_sp v1 hv1) (hops_sp w hw) xyz1 hxlt]
    exact hchiw
  rw [chi_congr_perm hcomps] at hx_eq
  have hqne : chi v1.rot (xyz1.map (permOf u'.rot)) ≠ 0 :=
    left_ne_zero_of_mul_eq_one hx_eq
  exact mul_left_cancel₀ hqne (hx_eq.trans hw_eq.symm)

/-- The shape and closure invariants of the dedup set survive one
candidate's scan. -/
theorem scan_found_good_closed (nat : ℕ) (prim : List ℕ) (ops : List SymOp)
    (c2s : List (List ℕ)) (pair xyz1 ind : List ℕ) (mo n : ℕ)
    (found₀ : List (List ℕ))
    (hn : pair.length = n)
    (hxlen : xyz1.length = pair.length) (hxlt : ∀ x ∈ xyz1, x < 3)
    (hc2c : ∀ l : List ℕ, l.length = pair.length → (∀ x ∈ l, x < 3) → l ∈ c2s)
    (hpa : ∀ a ∈ pair, a < nat)
    (hprim : ∃ a ∈ pair, isPrimAtom prim a = true)
    (hind : ind = canonicalize nat prim (combine pair xyz1))
    (hops_sp : ∀ s ∈ ops, IsSignedPerm s.rot)
    (hops_map : ∀ s ∈ ops, ∀ a, a < nat → s.map a < nat)
    (hgroup : ∀ t ∈ ops, ∀ s ∈ ops, ∃ u ∈ ops, MatMulEq u t s ∧
      ∀ a, a < nat → u.map a = t.map (s.map a))
    (hc2m : ∀ c2 ∈ c2s, c2.length = pair.length ∧ ∀ x ∈ c2, x < 3)
    (hG : FoundGood nat prim n found₀) (hK : C2Closed nat prim ops found₀) :
    FoundGood nat prim n
      (scanCandidate nat prim ops c2s pair xyz1 ind mo found₀).found ∧
    C2Closed nat prim ops
      (scanCandidate nat prim ops c2s pair xyz1 ind mo found₀).found := by
  obtain ⟨hfix, hsm, hap, hcp, hpv⟩ := ind_facts nat prim hxlen hxlt hpa hprim hind
  have hAI := scanCandidate_act_inv nat prim ops c2s pair xyz1 ind mo found₀
    hxlen hxlt hc2m hpa hind hops_sp hops_map
  constructor
  · intro m hm
    rcases hAI m hm with h0 | ⟨u, hu, hinu, hmu, -⟩
    · exact hG m h0
    subst hmu
    obtain ⟨hsmI, hapI, hcpI, hlenI⟩ := image_facts nat prim u hsm (hops_map u hu)
    have hindlen : ind.length = n := by
      rw [hind, canonicalize_length, combine_length, hxlen, Nat.min_self, hn]
    refine ⟨canonicalize_idem nat prim _, ?_, hsmI, ?_⟩
    · rw [hlenI, hindlen]
    · rcases image_hasPrim hap hinu with ⟨v, hv, hvp⟩
      exact ⟨v, (canonicalize_perm nat prim _).symm.subset hv, hvp⟩
  · intro m hm t ht htin
    rcases hAI m hm with h0 | ⟨u, hu, hinu, hmu, -⟩
    · exact scan_found_subset nat prim ops c2s pair xyz1 ind mo found₀ _
        (hK m h0 t ht htin)
    subst hmu
    obtain ⟨u', hu', humm, humap⟩ := hgroup t ht u hu
    obtain ⟨hsmI, hapI, _, _⟩ := image_facts nat prim u hsm (hops_map u hu)
    have hchain : List.Perm (((actC nat prim u ind).map (· / 3)).map t.map)
        ((ind.map (actIdx u')).map (· / 3)) := by
      refine (hapI.map t.map).trans ?_
      rw [div_map_actIdx, List.map_map]
      have hpt : ∀ a ∈ ind.map (· / 3), (t.map ∘ u.map) a = u'.map a := by
        intro a ha
        rcases List.mem_map.1 ha with ⟨w, hw, rfl⟩
        have hw3 : w / 3 < nat := by have := hsm w hw; omega
        exact (humap _ hw3).symm
      rw [List.map_congr_left hpt]
    have hp' : ∃ v ∈ ind.map (actIdx u'), is_inprim_idx prim v = true :=
      exists_prim_idx_of_atoms (inprim_atoms_of_perm hchain htin)
    have hinu' : is_inprim_atoms prim (pair.map u'.map) = true := by
      have hpp : List.Perm ((ind.map (actIdx u')).map (· / 3)) (pair.map u'.map) := by
        rw [div_map_actIdx]
        exact hap.map u'.map
      exact inprim_atoms_of_perm hpp (inprim_atoms_of_perm hchain htin)
    have hcomp : actC nat prim t (actC nat prim u ind) = actC nat prim u' ind :=
      actC_comp humm humap (hops_sp u hu) (hops_sp t ht) (hops_sp u' hu')
        hsm (hops_map u hu) (hops_map t ht) hp'
    rw [hcomp]
    exact scan_found_complete nat prim ops c2s pair xyz1 ind mo found₀ hxlen hxlt
      hc2c hpa hind u' hu' (hops_sp u' hu') (hops_map u' hu') hinu'

/-- After a non-symmetry-zero scan of a fresh candidate, the batch itself
is orbit-closed with multiplicative signs. -/
theorem scan_batch_closure (nat : ℕ) (prim : List ℕ) (ops : List SymOp)
    (c2s : List (List ℕ)) (pair xyz1 ind : List ℕ) (mo n : ℕ)
    (found₀ : List (List ℕ))
    (hn : pair.length = n)
    (hxlen : xyz1.length = pair.length) (hxlt : ∀ x ∈ xyz1, x < 3)
    (hc2m : ∀ c2 ∈ c2s, c2.length = pair.length ∧ ∀ x ∈ c2, x < 3)
    (hc2c : ∀ l : List ℕ, l.length = pair.length → (∀ x ∈ l, x < 3) → l ∈ c2s)
    (hpa : ∀ a ∈ pair, a < nat)
    (hprim : ∃ a ∈ pair, isPrimAtom prim a = true)
    (hind : ind = canonicalize nat prim (combine pair xyz1))
    (hops_sp : ∀ s ∈ ops, IsSignedPerm s.rot)
    (hops_map : ∀ s ∈ ops, ∀ a, a < nat → s.map a < nat)
    (hgroup : ∀ t ∈ ops, ∀ s ∈ ops, ∃ u ∈ ops, MatMulEq u t s ∧
      ∀ a, a < nat → u.map a = t.map (s.map a))
    (hinv : ∀ s ∈ ops, ∃ v ∈ ops, RotInvEq v s ∧ ∀ a, a < nat → v.map (s.map a) = a)
    (hK : C2Closed nat prim ops found₀)
    (hnew : ind ∉ found₀)
    (hz : (scanCandidate nat prim ops c2s pair xyz1 ind mo found₀).iszero = false) :
    OrbitClosure nat prim ops
      (scanCandidate nat prim ops c2s pair xyz1 ind mo found₀).batch := by
  obtain ⟨hfix, hsm, hap, hcp, hpv⟩ := ind_facts nat prim hxlen hxlt hpa hprim hind
  have hcond : ∀ s ∈ ops, ∀ c2 ∈ c2s,
      (∀ v ∈ combine (pair.map s.map) c2, v < 3 * nat) ∧
      (combine (pair.map s.map) c2).length = n := by
    intro s hs c2 hc2
    constructor
    · intro v hv
      rcases mem_combine hv with ⟨a, ha, c, hc, rfl⟩
      rcases List.mem_map.1 ha with ⟨a0, ha0, rfl⟩
      have h1 := hops_map s hs a0 (hpa a0 ha0)
      have h2 := (hc2m c2 hc2).2 c hc
      omega
    · rw [combine_length, List.length_map, (hc2m c2 hc2).1, Nat.min_self, hn]
  obtain ⟨hsA, hsB, hsC, hsD⟩ :=
    scanCandidate_inv nat prim ops c2s pair xyz1 ind mo n found₀ hcond
  have hAI := scanCandidate_act_inv nat prim ops c2s pair xyz1 ind mo found₀
    hxlen hxlt hc2m hpa hind hops_sp hops_map
  intro e he hefix t ht htin
  rcases hsC e he with ⟨hcfix, hmemf, hnf0⟩ | ⟨hnc, _⟩
  · rcases hAI e.elems hmemf with h0 | ⟨u, hu, hinu, hmu, ew, hew, hew1, hew2⟩
    · exact absurd h0 hnf0
    have hewfix : canonicalize nat prim ew.elems = ew.elems := by
      rw [hew1]
      exact hefix
    have hee : e = ew := hsD e he ew hew hefix hewfix hew1.symm
    have hesign : e.sign = chi u.rot xyz1 := by rw [hee]; exact hew2
    have hemo : e.mother = mo := (hsB e he).1
    obtain ⟨u', hu', humm, humap⟩ := hgroup t ht u hu
    obtain ⟨hsmI, hapI, hcpI, _⟩ := image_facts nat prim u hsm (hops_map u hu)
    have htin' : is_inprim_atoms prim
        (((actC nat prim u ind).map (· / 3)).map t.map) = true := by
      rw [← hmu]
      exact htin
    have hchain : List.Perm (((actC nat prim u ind).map (· / 3)).map t.map)
        ((ind.map (actIdx u')).map (· / 3)) := by
      refine (hapI.map t.map).trans ?_
      rw [div_map_actIdx, List.map_map]
      have hpt : ∀ a ∈ ind.map (· / 3), (t.map ∘ u.map) a = u'.map a := by
        intro a ha
        rcases List.mem_map.1 ha with ⟨w, hw, rfl⟩
        have hw3 : w / 3 < nat := by have := hsm w hw; omega
        exact (humap _ hw3).symm
      rw [List.map_congr_left hpt]
    have hp' : ∃ v ∈ ind.map (actIdx u'), is_inprim_idx prim v = true :=
      exists_prim_idx_of_atoms (inprim_atoms_of_perm hchain htin')
    have hinu' : is_inprim_atoms prim (pair.map u'.map) = true := by
      have hpp : List.Perm ((ind.map (actIdx u')).map (· / 3)) (pair.map u'.map) := by
        rw [div_map_actIdx]
        exact hap.map u'.map
      exact inprim_atoms_of_perm hpp (inprim_atoms_of_perm hchain htin')
    have hcomp : actC nat prim t (actC nat prim u ind) = actC nat prim u' ind :=
      actC_comp humm humap (hops_sp u hu) (hops_sp t ht) (hops_sp u' hu')
        hsm (hops_map u hu) (hops_map t ht) hp'
    have htmem : actC nat prim u' ind ∈
        (scanCandidate nat prim ops c2s pair xyz1 ind mo found₀).found :=
      scan_found_complete nat prim ops c2s pair xyz1 ind mo found₀ hxlen hxlt
        hc2c hpa hind u' hu' (hops_sp u' hu') (hops_map u' hu') hinu'
    have htnf0 : actC nat prim u' ind ∉ found₀ := fun hcontra =>
      hnew (ind_mem_of_image_mem nat prim ops hxlen hxlt hpa hprim hind hops_sp
        hinv (hops_map u' hu') hu' hK hcontra)
    rcases hAI _ htmem with h0' | ⟨u1, hu1, hinu1, hmu1, e2, he2, he21, he22⟩
    · exact absurd h0' htnf0
    refine ⟨e2, he2, ?_, ?_, ?_⟩
    · rw [(hsB e2 he2).1, hemo]
    · rw [he21, hmu]
      exact hcomp.symm
    · have hcons : chi u1.rot xyz1 = chi u'.rot xyz1 :=
        scan_sign_consistent nat prim ops c2s pair xyz1 ind mo found₀ hxlen hxlt
          hc2c hpa hprim hind hops_sp hops_map hgroup hinv hz hu1 hu' hinu1 hinu'
          hmu1.symm
      have hchiu' : chi u'.rot xyz1 =
          chi t.rot (xyz1.map (permOf u.rot)) * chi u.rot xyz1 :=
        chi_comp humm (hops_sp u hu) (hops_sp t ht) (hops_sp u' hu') xyz1 hxlt
      have hcompperm : List.Perm (e.elems.map (· % 3)) (xyz1.map (permOf u.rot)) := by
        rw [hmu]
        exact hcpI.trans (hcp.map (permOf u.rot))
      rw [he22, hcons, hchiu', hesign, chi_congr_perm hcompperm]
  · exact absurd hefix hnc

/-- The dedup set stays well-shaped and closed, and the live table stays
orbit-closed, through the whole candidate double loop. -/
theorem buildRun_orbit_closure (nat : ℕ) (prim : List ℕ) (ops : List SymOp)
    (order : ℕ) (pairs : List (List ℕ)) (store : Bool)
    (hpl : ∀ p ∈ pairs, p.length = order + 2)
    (hpa : ∀ p ∈ pairs, ∀ a ∈ p, a < nat)
    (hprim : ∀ p ∈ pairs, ∃ a ∈ p, isPrimAtom prim a = true)
    (hops_sp : ∀ s ∈ ops, IsSignedPerm s.rot)
    (hops_map : ∀ s ∈ ops, ∀ a, a < nat → s.map a < nat)
    (hgroup : ∀ t ∈ ops, ∀ s ∈ ops, ∃ u ∈ ops, MatMulEq u t s ∧
      ∀ a, a < nat → u.map a = t.map (s.map a))
    (hinv : ∀ s ∈ ops, ∃ v ∈ ops, RotInvEq v s ∧
      ∀ a, a < nat → v.map (s.map a) = a) :
    FoundGood nat prim (order + 2) (buildRun nat prim ops order pairs store).found ∧
    C2Closed nat prim ops (buildRun nat prim ops order pairs store).found ∧
    OrbitClosure nat prim ops (buildRun nat prim ops order pairs store).fcs := by
  unfold buildRun
  refine foldl_inv (P := fun st : BuildState =>
    FoundGood nat prim (order + 2) st.found ∧ C2Closed nat prim ops st.found ∧
    OrbitClosure nat prim ops st.fcs) ?_ ?_
  · refine ⟨?_, ?_, ?_⟩ <;> intro m hm <;> simp [initBuild] at hm
  · intro st pair hpair hP
    refine foldl_inv (P := fun st : BuildState =>
      FoundGood nat prim (order + 2) st.found ∧ C2Closed nat prim ops st.found ∧
      OrbitClosure nat prim ops st.fcs) hP ?_
    intro st' x1 hx1 hP'
    obtain ⟨hG, hK, hO⟩ := hP'
    have hx1m := get_xyzcomponent_mem hx1
    have hplp := hpl pair hpair
    have hxlen : x1.length = pair.length := by rw [hx1m.1, hplp]
    have hxlt := hx1m.2
    have hc2m : ∀ c2 ∈ get_xyzcomponent (order + 2),
        c2.length = pair.length ∧ ∀ x ∈ c2, x < 3 := by
      intro c2 hc2
      have h := get_xyzcomponent_mem hc2
      exact ⟨by rw [h.1, hplp], h.2⟩
    have hc2c : ∀ l : List ℕ, l.length = pair.length → (∀ x ∈ l, x < 3) →
        l ∈ get_xyzcomponent (order + 2) := by
      intro l hl hv
      exact get_xyzcomponent_complete (by rw [hl, hplp]) hv
    have hpap := hpa pair hpair
    have hprimp := hprim pair hpair
    rcases processCandidate_cases nat prim ops (get_xyzcomponent (order + 2))
      store st' pair x1 with heq | ⟨⟨hasc, hnotf⟩, hcase⟩
    · rw [heq]; exact ⟨hG, hK, hO⟩
    have hsgc := scan_found_good_closed nat prim ops (get_xyzcomponent (order + 2))
      pair x1 (canonicalize nat prim (combine pair x1)) st'.nmother (order + 2)
      st'.found hplp hxlen hxlt hc2c hpap hprimp rfl hops_sp hops_map hgroup
      hc2m hG hK
    rcases hcase with ⟨hz, heq⟩ | ⟨hz, heq⟩
    · rw [heq]
      exact ⟨hsgc.1, hsgc.2, hO⟩
    · rw [heq]
      refine ⟨hsgc.1, hsgc.2, ?_⟩
      have hbatch := scan_batch_closure nat prim ops (get_xyzcomponent (order + 2))
        pair x1 (canonicalize nat prim (combine pair x1)) st'.nmother (order + 2)
        st'.found hplp hxlen hxlt hc2m hc2c hpap hprimp rfl hops_sp hops_map
        hgroup hinv hK hnotf hz
      intro e he hefix t ht htin
      rcases List.mem_append.1 he with he | he
      · rcases hO e he hefix t ht htin with ⟨e2, he2, h1, h2, h3⟩
        exact ⟨e2, List.mem_append_left _ he2, h1, h2, h3⟩
      · rcases hbatch e he hefix t ht htin with ⟨e2, he2, h1, h2, h3⟩
        exact ⟨e2, List.mem_append_right _ he2, h1, h2, h3⟩

/-- C2 (amended): for every entry `e` of the built live table (all of whose
orbits are non-zero by construction) and every allowed symmetry operation
that maps at least one atom of `e`'s cluster into the primitive cell,
applying the operation's group action to `e`'s index — map the atoms, pick
the component assignment carrying the non-negligible rotation coefficient —
yields, after canonicalization, an index that is an entry of the same orbit
(same parameter id), whose sign is the rotation coefficient times `e`'s
sign.  Valid inputs: clusters of the right size over atoms of the cell
touching the primitive cell, and a compatible subset whose rotation blocks
are signed permutations closed under product and inverse consistently with
the atom maps. -/
theorem C2_orbit_closure_amended (nat : ℕ) (prim : List ℕ) (symm : Symmetry)
    (basis : Basis) (order : ℕ) (pairs : List (List ℕ)) (store : Bool)
    (hpl : ∀ p ∈ pairs, p.length = order + 2)
    (hpa : ∀ p ∈ pairs, ∀ a ∈ p, a < nat)
    (hprim : ∀ p ∈ pairs, ∃ a ∈ p, isPrimAtom prim a = true)
    (hops_sp : ∀ s ∈ get_available_symmop symm basis true, IsSignedPerm s.rot)
    (hops_map : ∀ s ∈ get_available_symmop symm basis true,
      ∀ a, a < nat → s.map a < nat)
    (hgroup : ∀ t ∈ get_available_symmop symm basis true,
      ∀ s ∈ get_available_symmop symm basis true,
      ∃ u ∈ get_available_symmop symm basis true, MatMulEq u t s ∧
        ∀ a, a < nat → u.map a = t.map (s.map a))
    (hinv : ∀ s ∈ get_available_symmop symm basis true,
      ∃ v ∈ get_available_symmop symm basis true, RotInvEq v s ∧
        ∀ a, a < nat → v.map (s.map a) = a) :
    ∀ e ∈ (generate_force_constant_table nat prim symm basis order pairs store).1,
      ∀ t ∈ get_available_symmop symm basis true,
        ∀ c2 ∈ get_xyzcomponent (order + 2),
          eps12 < ratAbs (coef_sym t.rot (e.elems.map (· % 3)) c2) →
          is_inprim_atoms prim ((e.elems.map (· / 3)).map t.map) = true →
          ∃ e2 ∈ (generate_force_constant_table nat prim symm basis order pairs store).1,
            e2.elems = canonicalize nat prim
              (combine ((e.elems.map (· / 3)).map t.map) c2) ∧
            e2.mother = e.mother ∧
            e2.sign = coef_sym t.rot (e.elems.map (· % 3)) c2 * e.sign := by
  intro e he t ht c2 hc2 hcoef htin
  obtain ⟨hJ0, hJ1, hJ2⟩ := buildRun_master nat prim
    (get_available_symmop symm basis true) order pairs store hpl hpa hops_map
  obtain ⟨-, -, hOC⟩ := buildRun_orbit_closure nat prim
    (get_available_symmop symm basis true) order pairs store hpl hpa hprim
    hops_sp hops_map hgroup hinv
  simp only [generate_force_constant_table] at he ⊢
  replace he := (sortFcBlocks_perm _ _).subset he
  have hJ0e := hJ0 e he
  have hcomps_len : (e.elems.map (· % 3)).length = order + 2 := by
    rw [List.length_map, hJ0e.1]
  have hcomps_lt : ∀ x ∈ e.elems.map (· % 3), x < 3 := by
    intro x hx
    rcases List.mem_map.1 hx with ⟨w, hw, rfl⟩
    exact Nat.mod_lt _ (by norm_num)
  have hatoms_lt : ∀ a ∈ e.elems.map (· / 3), a < nat := by
    intro a ha
    rcases List.mem_map.1 ha with ⟨w, hw, rfl⟩
    have := hJ0e.2 w hw
    omega
  have hc2f := get_xyzcomponent_mem hc2
  have hcne := eps12_lt_abs_ne_zero hcoef
  have hc2eq : c2 = (e.elems.map (· % 3)).map (permOf t.rot) :=
    (coef_sym_ne_zero_iff (hops_sp t ht) _ c2 (by rw [hcomps_len, hc2f.1])
      hcomps_lt hc2f.2).1 hcne
  have hcoefchi : coef_sym t.rot (e.elems.map (· % 3)) c2 =
      chi t.rot (e.elems.map (· % 3)) := by
    rw [hc2eq]
    exact coef_sym_eq_chi _
  have htarget : canonicalize nat prim
      (combine ((e.elems.map (· / 3)).map t.map) c2)
      = actC nat prim t (canonicalize nat prim e.elems) := by
    rw [hc2eq]
    have hlen' : (e.elems.map (· / 3)).length = (e.elems.map (· % 3)).length := by
      simp
    have himg := scan_image_eq_actC hlen' hcomps_lt hatoms_lt (hops_map t ht) htin
    rw [combine_div_mod] at himg
    exact himg
  by_cases hefix : canonicalize nat prim e.elems = e.elems
  · rcases hOC e he hefix t ht htin with ⟨e2, he2, h1, h2, h3⟩
    refine ⟨e2, (sortFcBlocks_perm _ _).symm.subset he2, ?_, h1, ?_⟩
    · rw [h2, htarget, hefix]
    · rw [h3, hcoefchi]
  · rcases hJ1 e he with ⟨h1, _⟩ | ⟨_, hpv, e', he', hefix', hperm', hsign', hmo'⟩
    · exact absurd h1 hefix
    have hsm_e : ∀ v ∈ e.elems, v < 3 * nat := hJ0e.2
    have hcanon_e : canonicalize nat prim e.elems = e'.elems := by
      have hp' : ∃ v ∈ e'.elems, is_inprim_idx prim v = true := by
        rcases hpv with ⟨v, hv, hvp⟩
        exact ⟨v, hperm'.symm.subset hv, hvp⟩
      have hcc := canonicalize_congr_perm
        (fun v hv => hsm_e v (hperm'.subset hv)) hp' hperm'
      rw [hefix'] at hcc
      exact hcc.symm
    have htin' : is_inprim_atoms prim ((e'.elems.map (· / 3)).map t.map) = true :=
      inprim_atoms_of_perm ((hperm'.symm.map (· / 3)).map t.map) htin
    rcases hOC e' he' hefix' t ht htin' with ⟨e2, he2, h1, h2, h3⟩
    refine ⟨e2, (sortFcBlocks_perm _ _).symm.subset he2, ?_, ?_, ?_⟩
    · rw [h2, htarget, hcanon_e]
    · rw [h1, hmo']
    · rw [h3, hcoefchi, hsign', chi_congr_perm (hperm'.map (· % 3))]

unseal Rat.mul Rat.add Rat.sub Rat.inv in
/-- Concrete check of C2 (amended) on the one-atom identity crystal. -/
theorem C2_orbit_closure_amended_witness :
    (∀ p ∈ ([[0, 0]] : List (List ℕ)), p.length = 0 + 2) ∧
    (∀ p ∈ ([[0, 0]] : List (List ℕ)), ∀ a ∈ p, a < 1) ∧
    (∀ p ∈ ([[0, 0]] : List (List ℕ)), ∃ a ∈ p, isPrimAtom [0] a = true) ∧
    (∀ s ∈ get_available_symmop idSymm Basis.cartesian true, IsSignedPerm s.rot) ∧
    (∀ s ∈ get_available_symmop idSymm Basis.cartesian true,
      ∀ a, a < 1 → s.map a < 1) ∧
    (∀ t ∈ get_available_symmop idSymm Basis.cartesian true,
      ∀ s ∈ get_available_symmop idSymm Basis.cartesian true,
      ∃ u ∈ get_available_symmop idSymm Basis.cartesian true, MatMulEq u t s ∧
        ∀ a, a < 1 → u.map a = t.map (s.map a)) ∧
    (∀ s ∈ get_available_symmop idSymm Basis.cartesian true,
      ∃ v ∈ get_available_symmop idSymm Basis.cartesian true, RotInvEq v s ∧
        ∀ a, a < 1 → v.map (s.map a) = a) ∧
    (∀ e ∈ (generate_force_constant_table 1 [0] idSymm Basis.cartesian 0
        [[0, 0]] true).1,
      ∀ t ∈ get_available_symmop idSymm Basis.cartesian true,
        ∀ c2 ∈ get_xyzcomponent (0 + 2),
          eps12 < ratAbs (coef_sym t.rot (e.elems.map (· % 3)) c2) →
          is_inprim_atoms [0] ((e.elems.map (· / 3)).map t.map) = true →
          ∃ e2 ∈ (generate_force_constant_table 1 [0] idSymm Basis.cartesian 0
              [[0, 0]] true).1,
            e2.elems = canonicalize 1 [0]
              (combine ((e.elems.map (· / 3)).map t.map) c2) ∧
            e2.mother = e.mother ∧
            e2.sign = coef_sym t.rot (e.elems.map (· % 3)) c2 * e.sign) :=
  ⟨by decide, by decide, by decide, by decide, by decide, by decide, by decide,
    C2_orbit_closure_amended 1 [0] idSymm Basis.cartesian 0 [[0, 0]] true
      (by decide) (by decide) (by decide) (by decide) (by decide) (by decide)
      (by decide)⟩

end ALM
